import Mathlib

/-!
Verification of the `pyprimes` package (files `pyprimes.py`,
`pyprimes/__init__.py`, `pyprimes/probabilistic.py`) against its
natural-language specification.

The Python sources are shallowly embedded: Python big integers become
`Nat`/`Int`, Python loops become fuel-indexed structural recursions (the
fuel is always chosen at the call site so that it provably never runs
out on the executions of interest; `Option`/sentinel results mark fuel
exhaustion where it matters), Python exceptions become `Option`/`Except`
results, and Python dicts become association lists with lookup, erase
and replace-or-append insert.  Randomness (`random.randint`) is made
explicit: functions that draw random bases take the drawn values as an
extra argument.
-/

set_option maxRecDepth 1000000

namespace Pyprimes

/-! ## Reference primality test

`tdiv`/`myPrime` is the reference decision procedure used throughout to
state correctness: trial division by every `d` with `d*d ≤ n`.  It is
proved equivalent to Mathlib's `Nat.Prime`.
-/

/-- Trial division: check that no `m` with `d ≤ m` and `m*m ≤ n` divides `n`.
The fuel is in practice at least `n`, which is more than enough. -/
def tdiv (n : Nat) : Nat → Nat → Bool
  | _, 0 => true
  | d, fuel+1 => if d*d > n then true else if n % d == 0 then false else tdiv n (d+1) fuel

/-- Reference primality test by trial division. -/
def myPrime (n : Nat) : Bool := 2 ≤ n && tdiv n 2 n

theorem tdiv_iff (n : Nat) : ∀ (fuel d : Nat), 2 ≤ d → n ≤ d + fuel →
    (tdiv n d fuel = true ↔ ∀ m, d ≤ m → m*m ≤ n → ¬ m ∣ n) := by
  intro fuel
  induction fuel with
  | zero =>
    intro d hd hn
    simp only [tdiv, true_iff]
    intro m hdm hm hdvd
    nlinarith
  | succ fuel ih =>
    intro d hd hn
    simp only [tdiv]
    by_cases h1 : d*d > n
    · simp only [if_pos h1, true_iff]
      intro m hdm hm hdvd
      nlinarith
    · rw [if_neg h1]
      by_cases h2 : n % d = 0
      · simp only [h2, beq_self_eq_true, if_pos]
        refine iff_of_false (by simp) fun hall => ?_
        exact hall d (le_refl d) (Nat.le_of_not_lt h1) (Nat.dvd_of_mod_eq_zero h2)
      · have h2' : ¬ ((n % d == 0) = true) := by simpa using h2
        rw [if_neg h2']
        rw [ih (d+1) (by omega) (by omega)]
        constructor
        · intro h m hdm hm hdvd
          rcases Nat.eq_or_lt_of_le hdm with rfl | hlt
          · exact h2 (Nat.mod_eq_zero_of_dvd hdvd)
          · exact h m hlt hm hdvd
        · intro h m hdm hm hdvd
          exact h m (by omega) hm hdvd

theorem myPrime_iff_prime (n : Nat) : myPrime n = true ↔ Nat.Prime n := by
  rw [Nat.prime_def_le_sqrt]
  unfold myPrime
  rw [Bool.and_eq_true, decide_eq_true_iff]
  constructor
  · rintro ⟨h2, htd⟩
    refine ⟨h2, fun m hm hsq => ?_⟩
    exact (tdiv_iff n n 2 (by omega) (by omega)).1 htd m hm (Nat.le_sqrt.mp hsq)
  · rintro ⟨h2, hnd⟩
    refine ⟨h2, (tdiv_iff n n 2 (by omega) (by omega)).2 fun m hm hsq => ?_⟩
    exact hnd m hm (Nat.le_sqrt.mpr hsq)

/-- The ascending list of all primes `< k`. -/
def primesUpTo (k : Nat) : List Nat := (List.range k).filter myPrime

/-! ## Modular exponentiation

Python's built-in `pow(b, e, n)` computes `b^e mod n` by binary
square-and-multiply.  `powMod` is the shallow embedding; the fuel is the
exponent itself (only `log₂ e` steps are ever taken). -/

def powModAux : Nat → Nat → Nat → Nat → Nat
  | 0, _b, _e, n => 1 % n
  | fuel+1, b, e, n =>
    if e = 0 then 1 % n
    else
      let h := powModAux fuel (b*b % n) (e/2) n
      if e % 2 = 1 then h * b % n else h

/-- Embedding of Python `pow(b, e, n)` (for `n ≥ 1`). -/
def powMod (b e n : Nat) : Nat := powModAux e b e n

theorem powModAux_eq (fuel : Nat) : ∀ b e n, e ≤ fuel → powModAux fuel b e n = b ^ e % n := by
  induction fuel with
  | zero =>
    intro b e n he
    interval_cases e
    simp [powModAux]
  | succ fuel ih =>
    intro b e n he
    unfold powModAux
    by_cases h0 : e = 0
    · simp [h0]
    · rw [if_neg h0]
      have hrec : powModAux fuel (b*b % n) (e/2) n = (b*b % n) ^ (e/2) % n :=
        ih _ _ _ (by omega)
      have hbase : (b*b % n) ^ (e/2) % n = (b*b) ^ (e/2) % n :=
        (Nat.pow_mod (b*b) (e/2) n).symm
      have hsq : (b*b) ^ (e/2) = b ^ (2 * (e/2)) := by
        rw [two_mul, pow_add, mul_pow]
      by_cases hodd : e % 2 = 1
      · have he2 : 2 * (e/2) + 1 = e := by omega
        rw [if_pos hodd, hrec, hbase]
        rw [Nat.mod_mul_mod, hsq, ← pow_succ, he2]
      · have he2 : 2 * (e/2) = e := by omega
        rw [if_neg hodd, hrec, hbase, hsq, he2]

theorem powMod_eq (b e n : Nat) : powMod b e n = b ^ e % n :=
  powModAux_eq e b e n (le_refl e)

/-! ## `pyprimes.py`: Miller-Rabin machinery

Embedding of `_factor2`, `_is_composite`, `_base_to_bases`,
`miller_rabin`, `_choose_bases` and `isprime` from `pyprimes.py`
(the 0.1 module).  `miller_rabin` returns `Except Unit Bool`: the
`.error` case is the `ValueError` raised by `_base_to_bases` for an
out-of-range base.  The tuple of values drawn by `random.randint(2, n-1)`
in `_choose_bases` is passed in explicitly as the list `rnd`. -/

/-- Loop of `_factor2`: halve `d` until it is odd, counting the steps. -/
def factor2Aux : Nat → Nat → Nat → Nat × Nat
  | 0, d, i => (d, i)
  | fuel+1, d, i => if d % 2 = 1 then (d, i) else factor2Aux fuel (d/2) (i+1)

/-- `_factor2(n)`: write `n = d * 2^i` with `d` odd, returning `(d, i)`. -/
def factor2 (n : Nat) : Nat × Nat := factor2Aux n n 0

/-- Loop of `_is_composite`: `for i in range(s): if pow(b, 2**i * d, n) == n-1: return False`.
The first argument is the number of iterations left, the last the current `i`. -/
def isCompositeAux (b d n : Nat) : Nat → Nat → Bool
  | 0, _i => true
  | rem+1, i => if powMod b (2^i * d) n == n-1 then false else isCompositeAux b d n rem (i+1)

/-- `_is_composite(b, d, s, n)`: is base `b` a Miller-Rabin witness for `n` composite? -/
def isComposite (b d s n : Nat) : Bool :=
  if powMod b d n == 1 then false else isCompositeAux b d n s 0

/-- The validation in `_base_to_bases`: every base must satisfy `1 <= b < n`,
otherwise `ValueError` is raised. -/
def validBases (bases : List Nat) (n : Nat) : Bool :=
  bases.all fun bb => 1 ≤ bb && bb < n

/-- `miller_rabin(n, bases)` from `pyprimes.py`.  `.error ()` models the
`ValueError` raised by `_base_to_bases` for a base out of range. -/
def miller_rabin (n : Nat) (bases : List Nat) : Except Unit Bool :=
  if ¬ validBases bases n then .error ()
  else if n < 2 then .ok false
  else if n = 2 then .ok true
  else if n % 2 = 0 then .ok false
  else
    .ok (bases.all fun a => ! isComposite a (factor2 (n-1)).1 (factor2 (n-1)).2 n)

/-- `_choose_bases(n, count)`.  `rnd` is the tuple of values drawn by
`random.randint(2, n-1)` in the probabilistic branch; the deterministic
branches ignore it.  Returns `(is_probabilistic, bases)`. -/
def chooseBases (n _count : Nat) (rnd : List Nat) : Bool × List Nat :=
  if n < 1373653 then (false, [2, 3])
  else if n < 9080191 then (false, [31, 73])
  else if n < 4759123141 then (false, [2, 7, 61])
  else if n < 2152302898747 then (false, [2, 3, 5, 7, 11])
  else if n < 3474749660383 then (false, [2, 3, 5, 7, 11, 13])
  else if n < 341550071728321 then (false, [2, 3, 5, 7, 11, 13, 17])
  else (true, rnd)

/-- The trivial-case stage of `isprime` (lines 907-914 of `pyprimes.py`):
`some b` means the function returns `b` without reaching Miller-Rabin,
`none` means it falls through to `_choose_bases`/`miller_rabin`. -/
def isprimeTrivial (n : Int) : Option Bool :=
  if n < 2 then some false
  else if n = 2 then some true
  else if n % 2 = 0 then some false
  else if n ≤ 7 then some true
  else none

/-- `isprime(n, trials)` from `pyprimes.py`.  The `warn` argument only
controls a warning and not the returned verdict, so it is omitted. -/
def isprime (n : Int) (trials : Nat) (rnd : List Nat) : Except Unit Bool :=
  match isprimeTrivial n with
  | some b => .ok b
  | none => miller_rabin n.toNat (chooseBases n.toNat trials rnd).2

/-- C3: trivial-case stage of the primality pipeline: `isprime(n)` is `False`
for `n < 2`, `True` for `n = 2`, `False` for even `n > 2`, `True` for odd
`3 ≤ n ≤ 7`, in each case decided by the trivial stage (`isprimeTrivial`
returns `some _`) without reaching any Miller-Rabin stage. -/
theorem isprime_trivial_cases (n : Int) (t : Nat) (r : List Nat) :
    (n < 2 → isprimeTrivial n = some false ∧ isprime n t r = .ok false) ∧
    (n = 2 → isprimeTrivial n = some true ∧ isprime n t r = .ok true) ∧
    (2 < n → n % 2 = 0 → isprimeTrivial n = some false ∧ isprime n t r = .ok false) ∧
    (2 < n → n ≤ 7 → n % 2 = 1 → isprimeTrivial n = some true ∧ isprime n t r = .ok true) := by
  refine ⟨fun h => ?_, fun h => ?_, fun h1 h2 => ?_, fun h1 h2 h3 => ?_⟩
  · have ht : isprimeTrivial n = some false := by
      unfold isprimeTrivial; rw [if_pos h]
    exact ⟨ht, by simp [isprime, ht]⟩
  · have ht : isprimeTrivial n = some true := by
      unfold isprimeTrivial; rw [if_neg (by omega), if_pos h]
    exact ⟨ht, by simp [isprime, ht]⟩
  · have ht : isprimeTrivial n = some false := by
      unfold isprimeTrivial; rw [if_neg (by omega), if_neg (by omega), if_pos h2]
    exact ⟨ht, by simp [isprime, ht]⟩
  · have ht : isprimeTrivial n = some true := by
      unfold isprimeTrivial
      rw [if_neg (by omega), if_neg (by omega), if_neg (by omega), if_pos h2]
    exact ⟨ht, by simp [isprime, ht]⟩

/-- Witness for `isprime_trivial_cases` at `n = -5, 2, 10, 7`. -/
theorem isprime_trivial_cases_witness :
    (isprimeTrivial (-5) = some false ∧ isprime (-5) 25 [] = .ok false) ∧
    (isprimeTrivial 2 = some true ∧ isprime 2 25 [] = .ok true) ∧
    (isprimeTrivial 10 = some false ∧ isprime 10 25 [] = .ok false) ∧
    (isprimeTrivial 7 = some true ∧ isprime 7 25 [] = .ok true) :=
  ⟨(isprime_trivial_cases (-5) 25 []).1 (by decide),
   (isprime_trivial_cases 2 25 []).2.1 (by decide),
   (isprime_trivial_cases 10 25 []).2.2.1 (by decide) (by decide),
   (isprime_trivial_cases 7 25 []).2.2.2 (by decide) (by decide) (by decide)⟩

/-- Below the proven threshold `_choose_bases` does not look at the random
draws. -/
theorem chooseBases_det (n t : Nat) (r₁ r₂ : List Nat) (h : n < 341550071728321) :
    chooseBases n t r₁ = chooseBases n t r₂ := by
  unfold chooseBases
  repeat' split
  all_goals first | rfl | omega

/-- C4: determinism below the proven threshold: for `n < 341550071728321`
the verdict of `isprime` does not depend on the random draws (and hence not
on call order or prior calls: the embedding is a pure function of its
arguments). -/
theorem isprime_deterministic_below_threshold (n : Int)
    (h : n < 341550071728321) (t : Nat) (r₁ r₂ : List Nat) :
    isprime n t r₁ = isprime n t r₂ := by
  unfold isprime
  cases htriv : isprimeTrivial n with
  | some b => rfl
  | none =>
    have hn : n.toNat < 341550071728321 := by
      simp only [isprimeTrivial] at htriv
      split at htriv
      · exact absurd htriv (by simp)
      · omega
    rw [chooseBases_det n.toNat t r₁ r₂ hn]

/-- Witness for `isprime_deterministic_below_threshold` at `n = 97`. -/
theorem isprime_deterministic_below_threshold_witness :
    ((97 : Int) < 341550071728321) ∧ isprime 97 25 [4] = isprime 97 25 [9] :=
  ⟨by decide, isprime_deterministic_below_threshold 97 (by decide) 25 [4] [9]⟩

/-! ## `pyprimes/probabilistic.py`: the staged `is_probable_prime` pipeline

Embedding of `IsProbablePrime` (`_simple`, `_trial_division`,
`_determistic_miller_rabin`, `_prime_miller_rabin`,
`_randomized_miller_rabin`, `_check_primality`), of the package-level
`is_prime` wrapper from `pyprimes/__init__.py`, and of
`is_fermat_probable_prime`.  Flags: `0` definitely composite, `1`
definitely prime, `2` probable prime.  The random bases drawn by
`_randomized_miller_rabin` are passed in explicitly as `rnd`. -/

/-- `IsProbablePrime.primes`: the table of small primes. -/
def smallPrimes : List Nat := [2, 3, 5, 7, 11, 13, 17, 19]

/-- The `for p in self.primes` loop of `_trial_division`; after the loop
`p` is the last table entry `19`, and the function returns `1` when
`p**2 > n`, else `2`. -/
def trialDivisionAux (n : Nat) : List Nat → Nat
  | [] => if 19*19 > n then 1 else 2
  | p :: ps => if n = p then 1 else if n % p = 0 then 0 else trialDivisionAux n ps

/-- `IsProbablePrime._trial_division` (requires `n > 1`). -/
def trialDivision (n : Nat) : Nat := trialDivisionAux n smallPrimes

/-- `is_miller_rabin_probable_prime(n, base)` from `probabilistic.py`
(no base validation in this module). -/
def isMillerRabinProbablePrime (n : Nat) (base : List Nat) : Nat :=
  if n < 2 then 0
  else if n = 2 then 1
  else if n % 2 = 0 then 0
  else if base.all fun a => ! isComposite a (factor2 (n-1)).1 (factor2 (n-1)).2 n then 2
  else 0

/-- The magnitude-indexed witness table of `_determistic_miller_rabin`;
`none` is the final `return 2  # Unsure` branch. -/
def detMRBases (n : Nat) : Option (List Nat) :=
  if n < 2047 then some [2]
  else if n < 1373653 then some [2, 3]
  else if n < 9080191 then some [31, 73]
  else if n < 25326001 then some [2, 3, 5]
  else if n < 3215031751 then some [2, 3, 5, 7]
  else if n < 4759123141 then some [2, 7, 61]
  else if n < 2152302898747 then some [2, 3, 5, 7, 11]
  else if n < 3474749660383 then some [2, 3, 5, 7, 11, 13]
  else if n < 341550071728321 then some [2, 3, 5, 7, 11, 13, 17]
  else if n < 3825123056546413051 then some [2, 3, 5, 7, 11, 13, 17, 19, 23]
  else none

/-- `IsProbablePrime._determistic_miller_rabin` (requires `n > 1`). -/
def determisticMillerRabin (n : Nat) : Nat :=
  match detMRBases n with
  | none => 2
  | some bases =>
    let flag := isMillerRabinProbablePrime n bases
    if flag = 2 then 1 else flag

/-- `IsProbablePrime._prime_miller_rabin`. -/
def primeMillerRabin (n : Nat) : Nat := isMillerRabinProbablePrime n smallPrimes

/-- `IsProbablePrime._randomized_miller_rabin`; `rnd` is the tuple of
`count` random bases drawn from `[2, n-1]`. -/
def randomizedMillerRabin (n : Nat) (rnd : List Nat) : Nat :=
  isMillerRabinProbablePrime n rnd

/-- `IsProbablePrime._check_primality`: run the stages in order, stopping
at the first conclusive (`0` or `1`) flag.  The first stage `_simple`
answers `0` for `n < 2`. -/
def checkPrimality (n : Int) (rnd : List Nat) : Nat :=
  if n < 2 then 0
  else if trialDivision n.toNat ≠ 2 then trialDivision n.toNat
  else if determisticMillerRabin n.toNat ≠ 2 then determisticMillerRabin n.toNat
  else if primeMillerRabin n.toNat ≠ 2 then primeMillerRabin n.toNat
  else randomizedMillerRabin n.toNat rnd

/-- `is_probable_prime`, the pre-allocated instance's bound method. -/
def isProbablePrime (n : Int) (rnd : List Nat) : Nat := checkPrimality n rnd

/-- Package-level `is_prime` with the default prover: flag `0` gives
`False`, flags `1` and `2` give `True` (`2` additionally warns). -/
def pkgIsPrime (n : Int) (rnd : List Nat) : Bool :=
  if isProbablePrime n rnd = 0 then false else true

/-- `is_fermat_probable_prime(n, base)` from `probabilistic.py`. -/
def isFermatProbablePrime (n : Nat) (base : List Nat) : Nat :=
  if n < 2 then 0
  else if n = 2 then 1
  else if n % 2 = 0 then 0
  else if base.all fun a => powMod a (n-1) n == 1 then 2 else 0

theorem isMillerRabinProbablePrime_values (n : Nat) (bs : List Nat) :
    isMillerRabinProbablePrime n bs = 0 ∨ isMillerRabinProbablePrime n bs = 1 ∨
      isMillerRabinProbablePrime n bs = 2 := by
  unfold isMillerRabinProbablePrime
  repeat' split
  all_goals first | (left; rfl) | (right; left; rfl) | (right; right; rfl)

theorem trialDivisionAux_values (n : Nat) (l : List Nat) :
    trialDivisionAux n l = 0 ∨ trialDivisionAux n l = 1 ∨ trialDivisionAux n l = 2 := by
  induction l with
  | nil =>
    unfold trialDivisionAux; split
    · simp
    · simp
  | cons p ps ih =>
    unfold trialDivisionAux
    repeat' split
    · simp
    · simp
    · exact ih

/-- C2: for `341550071728321 ≤ n < 3825123056546413051` the deterministic
Miller-Rabin stage selects the proven witness tuple `(2,3,5,7,11,13,17,19,23)`,
and the pipeline returns a definite verdict (`0` or `1`), independently of
the random draws (the randomized stage is never reached). -/
theorem detMR_band_proven (n : Nat)
    (h1 : 341550071728321 ≤ n) (h2 : n < 3825123056546413051) :
    detMRBases n = some [2, 3, 5, 7, 11, 13, 17, 19, 23] ∧
    (∀ r : List Nat, checkPrimality (n : Int) r = checkPrimality (n : Int) []) ∧
    (checkPrimality (n : Int) [] = 0 ∨ checkPrimality (n : Int) [] = 1) := by
  have hbases : detMRBases n = some [2, 3, 5, 7, 11, 13, 17, 19, 23] := by
    unfold detMRBases
    repeat' split
    all_goals first | rfl | omega
  have hdmr : determisticMillerRabin n = 0 ∨ determisticMillerRabin n = 1 := by
    unfold determisticMillerRabin
    rw [hbases]
    rcases isMillerRabinProbablePrime_values n [2, 3, 5, 7, 11, 13, 17, 19, 23] with h | h | h <;>
      simp [h]
  have hrw : ∀ s : List Nat, checkPrimality (n : Int) s =
      if trialDivision n ≠ 2 then trialDivision n
      else if determisticMillerRabin n ≠ 2 then determisticMillerRabin n
      else if primeMillerRabin n ≠ 2 then primeMillerRabin n
      else randomizedMillerRabin n s := by
    intro s
    unfold checkPrimality
    rw [if_neg (show ¬ ((n : Int) < 2) by omega), Int.toNat_natCast]
  have hstop : ∀ r : List Nat, checkPrimality (n : Int) r = checkPrimality (n : Int) [] ∧
      (checkPrimality (n : Int) r = 0 ∨ checkPrimality (n : Int) r = 1) := by
    intro r
    rw [hrw r, hrw []]
    by_cases ht2 : trialDivision n = 2
    · rw [if_neg (not_not_intro ht2), if_neg (not_not_intro ht2)]
      rcases hdmr with hd | hd <;>
        rw [if_pos (by omega), if_pos (by omega)] <;> exact ⟨rfl, by omega⟩
    · rw [if_pos ht2, if_pos ht2]
      have := trialDivisionAux_values n smallPrimes
      unfold trialDivision at ht2
      exact ⟨rfl, by unfold trialDivision; omega⟩
  exact ⟨hbases, fun r => (hstop r).1, (hstop []).2⟩

/-- Witness for `detMR_band_proven` at the band's lower endpoint. -/
theorem detMR_band_proven_witness :
    detMRBases 341550071728321 = some [2, 3, 5, 7, 11, 13, 17, 19, 23] ∧
    (∀ r : List Nat, checkPrimality (341550071728321 : Int) r
        = checkPrimality (341550071728321 : Int) []) ∧
    (checkPrimality (341550071728321 : Int) [] = 0 ∨
        checkPrimality (341550071728321 : Int) [] = 1) :=
  detMR_band_proven 341550071728321 (by decide) (by decide)

/-- C9: the Carmichael number 561 = 3·11·17 is rejected by `is_prime`
(whatever random draws the pipeline would use), while the weak Fermat
test passes it to base 2 with flag `2` (probable prime). -/
theorem carmichael_561 :
    (∀ r : List Nat, pkgIsPrime 561 r = false) ∧ isFermatProbablePrime 561 [2] = 2 := by
  constructor
  · intro r
    have htd : trialDivision 561 = 0 := by decide
    unfold pkgIsPrime isProbablePrime checkPrimality
    rw [if_neg (show ¬ ((561 : Int) < 2) by decide)]
    rw [show ((561 : Int)).toNat = 561 from rfl, htd]
    rfl
  · decide!

/-! ## `pyprimes/__init__.py`: `next_prime` and `prev_prime`

Both take an optional `isprime` argument.  The candidate loops are
fuel-indexed (`none` = the loop did not terminate within the fuel).
`ρ` supplies the random draws that `is_prime` would consume for each
tested candidate. -/

/-- The search loop of package `next_prime`: `while not is_prime(n): n += 2`.
Note the loop calls the module-level `is_prime`, not the `isprime` argument. -/
def nextPrimeLoop (ρ : Int → List Nat) : Nat → Int → Option Int
  | 0, _ => none
  | fuel+1, c => if pkgIsPrime c (ρ c) then some c else nextPrimeLoop ρ fuel (c+2)

/-- Package-level `next_prime(n, isprime=None)`. -/
def pkgNextPrime (fuel : Nat) (n : Int) (isprime : Option (Int → Bool))
    (ρ : Int → List Nat) : Option Int :=
  let isprimeF := isprime.getD fun m => pkgIsPrime m (ρ m)
  if n < 2 then some 2
  else if n % 2 = 0 then nextPrimeLoop ρ fuel (n+1)
  else nextPrimeLoop ρ fuel (n+2)

/-- Result of `prev_prime`: a returned value or the raised
`ValueError('smallest prime is 2')`. -/
inductive PrevResult where
  | value (p : Int)
  | valueError
  deriving DecidableEq

/-- The search loop of package `prev_prime`: `while not isprime(n): n -= 2`
(this one does use the local `isprime`). -/
def prevPrimeLoop (pred : Int → Bool) : Nat → Int → Option Int
  | 0, _ => none
  | fuel+1, c => if pred c then some c else prevPrimeLoop pred fuel (c-2)

/-- Package-level `prev_prime(n, isprime=None)`. -/
def pkgPrevPrime (fuel : Nat) (n : Int) (isprime : Option (Int → Bool))
    (ρ : Int → List Nat) : Option PrevResult :=
  let isprimeF := isprime.getD fun m => pkgIsPrime m (ρ m)
  if n ≤ 2 then some .valueError
  else (prevPrimeLoop isprimeF fuel (if n % 2 = 1 then n - 2 else n - 1)).map .value

/-- C10: the optional `isprime` argument of package `next_prime` has no
effect: for every predicate `f`, `next_prime(n, f)` equals
`next_prime(n, None)`, because the search loop tests candidates with the
module-level `is_prime`. -/
theorem nextPrime_ignores_isprime (fuel : Nat) (n : Int) (f : Int → Bool)
    (ρ : Int → List Nat) :
    pkgNextPrime fuel n (some f) ρ = pkgNextPrime fuel n none ρ := rfl

theorem pkgIsPrime_neg (c : Int) (r : List Nat) (h : c < 2) : pkgIsPrime c r = false := by
  unfold pkgIsPrime isProbablePrime checkPrimality
  rw [if_pos h]
  rfl

theorem prevPrimeLoop_low (ρ : Int → List Nat) :
    ∀ (fuel : Nat) (c : Int), c ≤ 1 →
      prevPrimeLoop (fun m => pkgIsPrime m (ρ m)) fuel c = none := by
  intro fuel
  induction fuel with
  | zero => intro c _; rfl
  | succ fuel ih =>
    intro c hc
    unfold prevPrimeLoop
    rw [pkgIsPrime_neg c (ρ c) (by omega)]
    simpa using ih (c-2) (by omega)

/-- C7, the failing part: `prev_prime(3)` never terminates: the loop tests
only the descending odd candidates 1, -1, -3, ... and `is_prime` rejects
all of them, while the prime 2 is never a candidate.  (For `n ≤ 2`,
`prev_prime` raises `ValueError` as documented; `prev_prime(2)` included.) -/
theorem prevPrime_three_diverges (fuel : Nat) (ρ : Int → List Nat) :
    pkgPrevPrime fuel 3 none ρ = none ∧ pkgPrevPrime fuel 2 none ρ = some .valueError := by
  constructor
  · unfold pkgPrevPrime
    rw [if_neg (by decide)]
    simp only [Option.getD]
    rw [if_pos (show (3:Int) % 2 = 1 by decide)]
    rw [prevPrimeLoop_low ρ fuel (3-2) (by decide)]
    rfl
  · rfl

/-! ## Association-list model of Python dicts

The incremental sieves of `pyprimes.py` use dicts only through key lookup,
key deletion, key-membership tests and item assignment; an association
list with lookup-first, erase-first and replace-or-append insert models
exactly that interface. -/

def alFind? (k : Nat) : List (Nat × Nat) → Option Nat
  | [] => none
  | (k', v) :: t => if k' = k then some v else alFind? k t

/-- `k in d`. -/
def alMem (k : Nat) (t : List (Nat × Nat)) : Bool := (alFind? k t).isSome

/-- `del d[k]`. -/
def alErase (k : Nat) : List (Nat × Nat) → List (Nat × Nat)
  | [] => []
  | (k', v) :: t => if k' = k then t else (k', v) :: alErase k t

/-- `d[k] = v`. -/
def alInsert (k v : Nat) : List (Nat × Nat) → List (Nat × Nat)
  | [] => [(k, v)]
  | (k', v') :: t => if k' = k then (k, v) :: t else (k', v') :: alInsert k v t

/-! ## `croft()`: the Croft Spiral sieve (the module's `primes()` alias)

`pyprimes.py` sets `primes = croft`, so this is also the prime stream that
`factorise` consumes.  A state holds the pending preamble outputs `2, 3, 5`,
the `roots` dict, the current odd candidate `q` (starting at 7) and the
index into the cycled `selectors` mask. -/

/-- The 15-entry wheel mask for odd numbers `7, 9, 11, ...` (period 30). -/
def selectors : List Nat := [1, 0, 1, 1, 0, 1, 1, 0, 1, 0, 0, 1, 1, 0, 0]

/-- `primeroots`: the residues mod 30 coprime to 30. -/
def primeroots : List Nat := [1, 7, 11, 13, 17, 19, 23, 29]

structure CroftState where
  pre : List Nat
  roots : List (Nat × Nat)
  q : Nat
  idx : Nat
  deriving DecidableEq

def croftInit : CroftState := ⟨[2, 3, 5], [(9, 3), (25, 5)], 7, 0⟩

/-- `x = q + 2*p; while x in roots or (x % 30) not in primeroots: x += 2*p`. -/
def croftProbe (p : Nat) (roots : List (Nat × Nat)) : Nat → Nat → Option Nat
  | 0, _ => none
  | fuel+1, x =>
    if alMem x roots || ! (primeroots.contains (x % 30)) then
      croftProbe p roots fuel (x + 2*p)
    else some x

/-- Advance the croft generator to its next yield.  The fuel bounds the
number of candidate iterations for this pull; the probe loop gets
`15 * (|roots| + 2)` steps, which always suffices (each window of 15
consecutive multiples contains 8 coprime residues, more than `roots` can
occupy). -/
def croftNext : Nat → CroftState → Option (Nat × CroftState)
  | 0, _ => none
  | fuel+1, s =>
    match s.pre with
    | v :: rest => some (v, ⟨rest, s.roots, s.q, s.idx⟩)
    | [] =>
      if selectors.getD s.idx 0 = 1 then
        match alFind? s.q s.roots with
        | some p =>
          let roots' := alErase s.q s.roots
          match croftProbe p roots' (15 * (roots'.length + 2)) (s.q + 2*p) with
          | none => none
          | some x => croftNext fuel ⟨[], alInsert x p roots', s.q + 2, (s.idx + 1) % 15⟩
        | none => some (s.q, ⟨[], alInsert (s.q * s.q) s.q s.roots, s.q + 2, (s.idx + 1) % 15⟩)
      else croftNext fuel ⟨[], s.roots, s.q + 2, (s.idx + 1) % 15⟩

/-! ## `factorise` and `factors` (`pyprimes.py`)

`factorise` iterates the module prime stream `primes() = croft()`,
divides out each prime `p` with `p*p ≤ n`, and emits a remaining
residual `> 1` as a final factor.  `none` marks fuel exhaustion (which
never happens for the fuels chosen below). -/

/-- `while n % p == 0: count += 1; n //= p`, returning `(count, n)`. -/
def divideOutAux (p : Nat) : Nat → Nat → Nat → Nat × Nat
  | 0, n, count => (count, n)
  | fuel+1, n, count => if n % p = 0 then divideOutAux p fuel (n / p) (count + 1) else (count, n)

def divideOut (p n : Nat) : Nat × Nat := divideOutAux p n n 0

/-- The `for p in primes():` loop of `factorise`, pulling primes lazily
from the croft stream. -/
def factoriseLoop (pullFuel : Nat) : Nat → CroftState → Nat → Option (List (Nat × Nat))
  | 0, _, _ => none
  | pulls+1, s, n =>
    match croftNext pullFuel s with
    | none => none
    | some (p, s') =>
      if p * p > n then (if n ≠ 1 then some [(n, 1)] else some [])
      else
        let cm := divideOut p n
        if cm.1 ≠ 0 then (factoriseLoop pullFuel pulls s' cm.2).map ((p, cm.1) :: ·)
        else factoriseLoop pullFuel pulls s' n

def factoriseNat (m : Nat) : Option (List (Nat × Nat)) :=
  factoriseLoop (30 * (m + 30)) (m + 2) croftInit m

/-- `factorise(n)` from `pyprimes.py`: `n ∈ {0, 1, -1}` yields `(n, 1)`
only; negative `n` yields `(-1, 1)` and then processes `-n`; otherwise
the prime-power pairs. -/
def factorise (n : Int) : Option (List (Int × Nat)) :=
  if n = 0 ∨ n = 1 ∨ n = -1 then some [(n, 1)]
  else if n < 0 then
    (factoriseNat n.natAbs).map fun l => (-1, 1) :: l.map fun pc => ((pc.1 : Int), pc.2)
  else
    (factoriseNat n.toNat).map fun l => l.map fun pc => ((pc.1 : Int), pc.2)

/-- `factors(n)`: flatten the `(factor, count)` pairs into a factor list. -/
def factors (n : Int) : Option (List Int) :=
  (factorise n).map fun l => (l.map fun pc => List.replicate pc.2 pc.1).flatten

theorem prod_flatten_replicate (l : List (Int × Nat)) :
    ((l.map fun pc => List.replicate pc.2 pc.1).flatten).prod
      = (l.map fun pc => pc.1 ^ pc.2).prod := by
  induction l with
  | nil => simp
  | cons a t iht =>
    simp only [List.map_cons, List.flatten_cons, List.prod_append, List.prod_replicate,
      List.prod_cons, iht]

theorem divideOutAux_spec (p : Nat) :
    ∀ (fuel n count : Nat),
      p ^ ((divideOutAux p fuel n count).1 - count) * (divideOutAux p fuel n count).2 = n ∧
      count ≤ (divideOutAux p fuel n count).1 := by
  intro fuel
  induction fuel with
  | zero => intro n count; simp [divideOutAux]
  | succ fuel ih =>
    intro n count
    unfold divideOutAux
    split
    · rename_i hdvd
      obtain ⟨h1, h2⟩ := ih (n / p) (count + 1)
      refine ⟨?_, by omega⟩
      have hx : (divideOutAux p fuel (n / p) (count + 1)).1 - count =
          ((divideOutAux p fuel (n / p) (count + 1)).1 - (count + 1)) + 1 := by omega
      rw [hx, pow_succ]
      have : n / p * p = n := Nat.div_mul_cancel (Nat.dvd_of_mod_eq_zero hdvd)
      calc p ^ ((divideOutAux p fuel (n/p) (count+1)).1 - (count+1)) * p *
            (divideOutAux p fuel (n/p) (count+1)).2
          = p ^ ((divideOutAux p fuel (n/p) (count+1)).1 - (count+1)) *
            (divideOutAux p fuel (n/p) (count+1)).2 * p := by ring
        _ = n / p * p := by rw [h1]
        _ = n := this
    · simp

theorem divideOut_spec (p n : Nat) :
    p ^ (divideOut p n).1 * (divideOut p n).2 = n := by
  have := divideOutAux_spec p n n 0
  simpa [divideOut] using this.1

/-- The product invariant of the factorisation loop holds for every state
of the prime stream and every fuel: whatever was divided out is put back
by the emitted pairs, and the residual is emitted when `> 1`. -/
theorem factoriseLoop_prod (pullFuel : Nat) :
    ∀ (pulls : Nat) (s : CroftState) (n : Nat) (l : List (Nat × Nat)),
      factoriseLoop pullFuel pulls s n = some l →
      (l.map fun pc => pc.1 ^ pc.2).prod = n := by
  intro pulls
  induction pulls with
  | zero => intro s n l h; exact absurd h (by simp [factoriseLoop])
  | succ pulls ih =>
    intro s n l h
    unfold factoriseLoop at h
    cases hnext : croftNext pullFuel s with
    | none => rw [hnext] at h; exact Option.noConfusion h
    | some ps =>
      obtain ⟨p, s'⟩ := ps
      rw [hnext] at h
      dsimp only at h
      by_cases hbig : p * p > n
      · rw [if_pos hbig] at h
        by_cases hn1 : n ≠ 1
        · rw [if_pos hn1] at h
          cases h
          simp
        · rw [if_neg hn1] at h
          cases h
          simp only [List.map_nil, List.prod_nil]
          omega
      · rw [if_neg hbig] at h
        by_cases hc : (divideOut p n).1 ≠ 0
        · rw [if_pos hc] at h
          cases hrec : factoriseLoop pullFuel pulls s' (divideOut p n).2 with
          | none => rw [hrec] at h; exact Option.noConfusion h
          | some l' =>
            rw [hrec] at h
            simp only [Option.map_some'] at h
            cases h
            simp only [List.map_cons, List.prod_cons]
            rw [ih s' _ l' hrec]
            exact divideOut_spec p n
        · rw [if_neg hc] at h
          exact ih s' n l h

/-- C1: round-trip product invariant.  Whenever the (fuelled) embedding of
`factorise(n)` produces its pair list, the product of `factor ^ count`
equals `n` — for every integer `n`, negative, zero and unity included —
and likewise the flat `factors(n)` list multiplies back to `n`. -/
theorem factorise_roundtrip (n : Int) :
    (∀ l, factorise n = some l → (l.map fun pc => pc.1 ^ pc.2).prod = n) ∧
    (∀ f, factors n = some f → f.prod = n) := by
  have hpairs : ∀ l, factorise n = some l → (l.map fun pc => pc.1 ^ pc.2).prod = n := by
    intro l h
    unfold factorise at h
    by_cases h0 : n = 0 ∨ n = 1 ∨ n = -1
    · rw [if_pos h0] at h
      cases h
      rcases h0 with rfl | rfl | rfl <;> simp
    · rw [if_neg h0] at h
      have castprod : ∀ (m : List (Nat × Nat)),
          ((m.map fun pc => ((pc.1 : Int), pc.2)).map fun pc => pc.1 ^ pc.2).prod
            = ((m.map fun pc => pc.1 ^ pc.2).prod : Nat) := by
        intro m
        induction m with
        | nil => simp
        | cons a t iht =>
          simp only [List.map_cons, List.prod_cons, iht]
          push_cast
          ring
      by_cases hneg : n < 0
      · rw [if_pos hneg] at h
        cases hfl : factoriseNat n.natAbs with
        | none => rw [hfl] at h; exact Option.noConfusion h
        | some l0 =>
          rw [hfl] at h
          simp only [Option.map_some'] at h
          cases h
          simp only [List.map_cons, List.prod_cons]
          rw [castprod l0]
          rw [factoriseLoop_prod _ _ _ _ _ hfl, pow_one]
          omega
      · rw [if_neg hneg] at h
        cases hfl : factoriseNat n.toNat with
        | none => rw [hfl] at h; exact Option.noConfusion h
        | some l0 =>
          rw [hfl] at h
          simp only [Option.map_some'] at h
          cases h
          rw [castprod l0, factoriseLoop_prod _ _ _ _ _ hfl]
          omega
  refine ⟨hpairs, fun f hf => ?_⟩
  unfold factors at hf
  cases hfact : factorise n with
  | none => rw [hfact] at hf; exact Option.noConfusion hf
  | some l =>
    rw [hfact] at hf
    simp only [Option.map_some'] at hf
    cases hf
    rw [prod_flatten_replicate l]
    exact hpairs l hfact

/-- Witness for `factorise_roundtrip` at `n = 37*37*109 = 149221`
(the spec's own worked example). -/
theorem factorise_roundtrip_witness :
    factorise 149221 = some [(37, 2), (109, 1)] ∧
    (([((37:Int), (2:Nat)), (109, 1)].map fun pc => pc.1 ^ pc.2).prod = (149221 : Int)) := by
  constructor
  · decide!
  · exact (factorise_roundtrip 149221).1 [(37, 2), (109, 1)] (by decide!)

/-- C8, counterexample at `n = -1`: `factorise(-1)` yields the single pair
`(-1, 1)`, not `(-1, 1)` followed by the pairs of `factorise(1)`. -/
theorem factorise_neg_one_counterexample :
    factorise (-1) = some [(-1, 1)] ∧ factorise (1 : Int) = some [(1, 1)] ∧
    factorise (-1) ≠ (factorise (1 : Int)).map (((-1 : Int), (1 : Nat)) :: ·) := by
  refine ⟨rfl, rfl, ?_⟩
  intro h
  rw [show factorise (1:Int) = some [(1,1)] from rfl] at h
  simp only [Option.map_some'] at h
  rw [show factorise (-1:Int) = some [(-1,1)] from rfl] at h
  simp at h

/-- C8 as amended: `factorise(0) = [(0,1)]`, `factorise(1) = [(1,1)]`,
`factorise(-1) = [(-1,1)]` (the sole pair, `|-1|` is not factorised
further), and every `n ≤ -2` yields `(-1, 1)` followed by exactly the
pairs of the factorisation of `|n|`. -/
theorem factorise_nonstandard_inputs :
    factorise 0 = some [(0, 1)] ∧ factorise 1 = some [(1, 1)] ∧
    factorise (-1) = some [(-1, 1)] ∧
    ∀ n : Int, n ≤ -2 →
      factorise n = (factorise (-n)).map (((-1 : Int), (1 : Nat)) :: ·) := by
  refine ⟨rfl, rfl, rfl, fun n hn => ?_⟩
  unfold factorise
  rw [if_neg (by omega), if_pos (by omega), if_neg (by omega), if_neg (by omega)]
  have habs : (-n).toNat = n.natAbs := by omega
  rw [habs]
  cases factoriseNat n.natAbs <;> rfl

/-- Witness for the quantified part of `factorise_nonstandard_inputs`
at `n = -693`. -/
theorem factorise_nonstandard_inputs_witness :
    ((-693 : Int) ≤ -2) ∧
    factorise (-693) = (factorise (693 : Int)).map (((-1 : Int), (1 : Nat)) :: ·) :=
  ⟨by decide, factorise_nonstandard_inputs.2.2.2 (-693) (by decide)⟩

/-! ## `pyprimes/__init__.py`: the `primes(start, end)` wrapper

The default strategy is `pyprimes.sieves.best_sieve`, whose source file
is not part of this repository snapshot; it is modelled from the spec
below.  The wrapper itself (drop primes `< start`, yield while `< end`)
is embedded from the source of `primes`. -/

/-- Bounded linear search for the next value satisfying `myPrime`. -/
def findPrimeFrom : Nat → Nat → Option Nat
  | _, 0 => none
  | s, fuel+1 => if myPrime s then some s else findPrimeFrom (s+1) fuel

/-- The least prime strictly greater than `m` (the search range
`[m+1, 2m+2]` always contains one, by Bertrand's postulate). -/
def nextPrimeNat (m : Nat) : Nat := (findPrimeFrom (m+1) (m+2)).getD 0

/-- Modelled from the spec: `pyprimes.sieves.best_sieve` (not under
`src/`).  Per spec §4.2 every sieve strategy is "a fresh, independent,
restartable lazy sequence of primes, infinite in length, strictly
increasing, starting at 2"; `bestSieve k` is the `k`-th value of that
sequence. -/
def bestSieve : Nat → Nat
  | 0 => 2
  | k+1 => nextPrimeNat (bestSieve k)

theorem findPrimeFrom_spec :
    ∀ (fuel s p : Nat), findPrimeFrom s fuel = some p →
      myPrime p = true ∧ s ≤ p ∧ p < s + fuel ∧ ∀ q, s ≤ q → q < p → myPrime q = false := by
  intro fuel
  induction fuel with
  | zero => intro s p h; exact Option.noConfusion h
  | succ fuel ih =>
    intro s p h
    unfold findPrimeFrom at h
    by_cases hs : myPrime s = true
    · rw [if_pos hs] at h
      cases h
      exact ⟨hs, le_refl _, by omega, fun q h1 h2 => by omega⟩
    · rw [if_neg hs] at h
      obtain ⟨hp, hsp, hlt, hnone⟩ := ih (s+1) p h
      refine ⟨hp, by omega, by omega, fun q h1 h2 => ?_⟩
      rcases Nat.eq_or_lt_of_le h1 with rfl | hgt
      · exact Bool.not_eq_true _ |>.mp hs
      · exact hnone q hgt h2

theorem findPrimeFrom_isSome :
    ∀ (fuel s : Nat), (∃ q, myPrime q = true ∧ s ≤ q ∧ q < s + fuel) →
      (findPrimeFrom s fuel).isSome := by
  intro fuel
  induction fuel with
  | zero => rintro s ⟨q, _, h1, h2⟩; omega
  | succ fuel ih =>
    rintro s ⟨q, hq, h1, h2⟩
    unfold findPrimeFrom
    by_cases hs : myPrime s = true
    · rw [if_pos hs]; rfl
    · rw [if_neg hs]
      refine ih (s+1) ⟨q, hq, ?_, by omega⟩
      rcases Nat.eq_or_lt_of_le h1 with rfl | hgt
      · exact absurd hq hs
      · omega

/-- `nextPrimeNat m` is the least prime strictly greater than `m`. -/
theorem nextPrimeNat_spec (m : Nat) :
    Nat.Prime (nextPrimeNat m) ∧ m < nextPrimeNat m ∧
      ∀ q, m < q → q < nextPrimeNat m → ¬ Nat.Prime q := by
  have hex : ∃ q, myPrime q = true ∧ m+1 ≤ q ∧ q < (m+1) + (m+2) := by
    rcases Nat.eq_zero_or_pos m with rfl | hm
    · exact ⟨2, by decide, by omega, by omega⟩
    · obtain ⟨p, hp, h1, h2⟩ := Nat.exists_prime_lt_and_le_two_mul m (by omega)
      exact ⟨p, (myPrime_iff_prime p).mpr hp, by omega, by omega⟩
  obtain ⟨p, hfind⟩ := Option.isSome_iff_exists.mp (findPrimeFrom_isSome (m+2) (m+1) hex)
  obtain ⟨hp, hsp, _, hnone⟩ := findPrimeFrom_spec (m+2) (m+1) p hfind
  unfold nextPrimeNat
  rw [hfind]
  simp only [Option.getD_some]
  exact ⟨(myPrime_iff_prime p).mp hp, by omega,
    fun q h1 h2 => fun hq => by
      have := hnone q (by omega) h2
      rw [(myPrime_iff_prime q).mpr hq] at this
      exact Bool.noConfusion this⟩

theorem bestSieve_strictMono : StrictMono bestSieve := by
  have h : ∀ k, bestSieve k < bestSieve (k+1) := fun k => (nextPrimeNat_spec (bestSieve k)).2.1
  exact strictMono_nat_of_lt_succ h

theorem bestSieve_prime (k : Nat) : Nat.Prime (bestSieve k) := by
  cases k with
  | zero => exact Nat.prime_two
  | succ k => exact (nextPrimeNat_spec (bestSieve k)).1

theorem bestSieve_lb (k : Nat) : k + 2 ≤ bestSieve k := by
  induction k with
  | zero => simp [bestSieve]
  | succ k ih =>
    have := (nextPrimeNat_spec (bestSieve k)).2.1
    simp only [bestSieve]
    omega

/-- `bestSieve` agrees with Mathlib's enumeration of the primes. -/
theorem bestSieve_eq_nth (k : Nat) : bestSieve k = Nat.nth Nat.Prime k := by
  induction k with
  | zero =>
    have hc : Nat.count Nat.Prime 2 = 0 := by
      simp [Nat.count_succ, Nat.count_zero, Nat.not_prime_zero, Nat.not_prime_one]
    have := Nat.nth_count Nat.prime_two
    rw [hc] at this
    simpa [bestSieve] using this.symm
  | succ k ih =>
    obtain ⟨hp, hgt, hnone⟩ := nextPrimeNat_spec (bestSieve k)
    have hinf := Nat.infinite_setOf_prime
    have hnth_prime : Nat.Prime (Nat.nth Nat.Prime (k+1)) := Nat.nth_mem_of_infinite hinf (k+1)
    have hnth_gt : Nat.nth Nat.Prime k < Nat.nth Nat.Prime (k+1) :=
      (Nat.nth_lt_nth hinf).mpr (by omega)
    have hnth_none : ∀ q, Nat.nth Nat.Prime k < q → q < Nat.nth Nat.Prime (k+1) → ¬ Nat.Prime q := by
      intro q h1 h2 hq
      have hqn : Nat.nth Nat.Prime (Nat.count Nat.Prime q) = q := Nat.nth_count hq
      have hk1 : k < Nat.count Nat.Prime q := by
        have := (Nat.nth_lt_nth hinf (k := k) (n := Nat.count Nat.Prime q)).mp (by rw [hqn]; exact h1)
        omega
      have hk2 : Nat.count Nat.Prime q < k + 1 := by
        have := (Nat.nth_lt_nth hinf (k := Nat.count Nat.Prime q) (n := k+1)).mp (by rw [hqn]; exact h2)
        omega
      omega
    simp only [bestSieve]
    rw [ih] at hp hgt hnone ⊢
    rcases Nat.lt_trichotomy (nextPrimeNat (Nat.nth Nat.Prime k)) (Nat.nth Nat.Prime (k+1)) with h | h | h
    · exact absurd hp (hnth_none _ hgt h)
    · exact h
    · exact absurd hnth_prime (hnone _ hnth_gt h)

/-- Every prime is produced by the modelled stream. -/
theorem bestSieve_surjective (p : Nat) (hp : Nat.Prime p) : ∃ k, bestSieve k = p := by
  refine ⟨Nat.count Nat.Prime p, ?_⟩
  rw [bestSieve_eq_nth]
  exact Nat.nth_count hp

/-- The first loop of `primes`: `while p < start: p = next(it)`; the state
is the index into the stream. -/
def primesDrop (start : Int) : Nat → Nat → Nat
  | 0, k => k
  | fuel+1, k => if (bestSieve k : Int) < start then primesDrop start fuel (k+1) else k

/-- The yield loop of `primes`: `while p < end: yield p; p = next(it)`. -/
def primesCollect (endv : Int) : Nat → Nat → List Nat
  | 0, _ => []
  | fuel+1, k =>
    if (bestSieve k : Int) < endv then bestSieve k :: primesCollect endv fuel (k+1) else []

/-- `primes(start, end)` from `pyprimes/__init__.py`, with both bounds
given, over the modelled default strategy. -/
def primesGen (start endv : Int) : List Nat :=
  primesCollect endv (endv.toNat + 1) (primesDrop start (start.toNat + 1) 0)

theorem primesDrop_spec (start : Int) :
    ∀ (fuel k : Nat), start ≤ (bestSieve (k + fuel) : Int) →
      k ≤ primesDrop start fuel k ∧
      start ≤ (bestSieve (primesDrop start fuel k) : Int) ∧
      ∀ j, k ≤ j → j < primesDrop start fuel k → (bestSieve j : Int) < start := by
  intro fuel
  induction fuel with
  | zero =>
    intro k hk
    simp only [primesDrop]
    exact ⟨le_refl _, by simpa using hk, fun j h1 h2 => by omega⟩
  | succ fuel ih =>
    intro k hk
    unfold primesDrop
    by_cases hc : (bestSieve k : Int) < start
    · rw [if_pos hc]
      obtain ⟨h1, h2, h3⟩ := ih (k+1) (by have := hk; rw [show k+1+fuel = k+(fuel+1) by omega]; exact this)
      refine ⟨by omega, h2, fun j hj1 hj2 => ?_⟩
      rcases Nat.eq_or_lt_of_le hj1 with rfl | hgt
      · exact hc
      · exact h3 j hgt hj2
    · rw [if_neg hc]
      exact ⟨le_refl _, by omega, fun j h1 h2 => by omega⟩

theorem primesCollect_spec (endv : Int) :
    ∀ (fuel k : Nat), endv ≤ (bestSieve (k + fuel) : Int) →
      ∃ m, primesCollect endv fuel k = (List.range' k m).map bestSieve ∧
        endv ≤ (bestSieve (k + m) : Int) ∧
        ∀ j, k ≤ j → j < k + m → (bestSieve j : Int) < endv := by
  intro fuel
  induction fuel with
  | zero =>
    intro k hk
    exact ⟨0, rfl, by simpa using hk, fun j h1 h2 => by omega⟩
  | succ fuel ih =>
    intro k hk
    unfold primesCollect
    by_cases hc : (bestSieve k : Int) < endv
    · rw [if_pos hc]
      obtain ⟨m, hm, hend, hin⟩ := ih (k+1) (by rw [show k+1+fuel = k+(fuel+1) by omega]; exact hk)
      refine ⟨m+1, ?_, by rw [show k+(m+1) = k+1+m by omega]; exact hend, fun j hj1 hj2 => ?_⟩
      · rw [List.range'_succ, List.map_cons, hm]
      · rcases Nat.eq_or_lt_of_le hj1 with rfl | hgt
        · exact hc
        · exact hin j hgt (by omega)
    · rw [if_neg hc]
      exact ⟨0, rfl, by simpa using hc |> fun h => by omega, fun j h1 h2 => by omega⟩

theorem mem_range'_iff (s n x : Nat) : x ∈ List.range' s n ↔ s ≤ x ∧ x < s + n := by
  rw [List.mem_range']
  constructor
  · rintro ⟨i, hi, rfl⟩; omega
  · rintro ⟨h1, h2⟩; exact ⟨x - s, by omega, by omega⟩

/-- C6: `primes(start, end)` yields exactly the primes `p` with
`start ≤ p < end` (inclusive lower, exclusive upper bound), in ascending
order; in particular `list(primes(start=115, end=155))` is
`[127, 131, 137, 139, 149, 151]`. -/
theorem primes_range_semantics :
    (∀ start endv : Int, (primesGen start endv).Sorted (· < ·) ∧
      ∀ x : Nat, x ∈ primesGen start endv ↔
        Nat.Prime x ∧ start ≤ (x : Int) ∧ (x : Int) < endv) ∧
    primesGen 115 155 = [127, 131, 137, 139, 149, 151] := by
  constructor
  · intro start endv
    have hub : ∀ fuel k : Nat, (fuel : Int) ≤ (bestSieve (k + fuel) : Int) := by
      intro fuel k
      have := bestSieve_lb (k + fuel)
      omega
    have hdrop := primesDrop_spec start (start.toNat + 1) 0
      (by have := hub (start.toNat + 1) 0; simp only [Nat.zero_add] at this ⊢; omega)
    set k0 := primesDrop start (start.toNat + 1) 0 with hk0
    obtain ⟨hk0le, hk0ge, hk0lt⟩ := hdrop
    have hcoll := primesCollect_spec endv (endv.toNat + 1) k0
      (by have := hub (endv.toNat + 1) k0; omega)
    obtain ⟨m, hm, hend, hin⟩ := hcoll
    unfold primesGen
    rw [← hk0, hm]
    constructor
    · have : List.Pairwise (· < ·) (List.range' k0 m) := List.pairwise_lt_range' ..
      exact List.Pairwise.map _ (fun a b hab => bestSieve_strictMono hab) this
    · intro x
      simp only [List.mem_map, mem_range'_iff]
      constructor
      · rintro ⟨j, ⟨hj1, hj2⟩, rfl⟩
        refine ⟨bestSieve_prime j, ?_, hin j (by omega) (by omega)⟩
        calc start ≤ (bestSieve k0 : Int) := hk0ge
          _ ≤ (bestSieve j : Int) := by
              have := bestSieve_strictMono.le_iff_le (a := k0) (b := j)
              have h2 := this.mpr (by omega)
              exact_mod_cast h2
      · rintro ⟨hx, hge, hlt⟩
        obtain ⟨j, rfl⟩ := bestSieve_surjective x hx
        have hjk0 : k0 ≤ j := by
          by_contra hcon
          have := hk0lt j (by omega) (by omega)
          omega
        have hjm : j < k0 + m := by
          by_contra hcon
          have hmono : bestSieve (k0 + m) ≤ bestSieve j :=
            bestSieve_strictMono.le_iff_le.mpr (by omega)
          have : (bestSieve (k0+m) : Int) ≤ (bestSieve j : Int) := by exact_mod_cast hmono
          omega
        exact ⟨j, ⟨hjk0, by omega⟩, rfl⟩
  · decide!

/-! ## `erat(n)`: the bounded Sieve of Eratosthenes

`erat` builds `arr = list(range(n+1))`, sets `arr[0] = arr[1] = None`
(an `IndexError` for `n = 0`, hence the `Option` result), crosses out
multiples of each surviving `i` with `i*i ≤ n` from `i*i` on, and
returns the entries that are not `None`. -/

/-- Python list assignment `l[k] = None`: raises `IndexError` when `k`
is out of range. -/
def pySet (l : List (Option Nat)) (k : Nat) : Option (List (Option Nat)) :=
  if k < l.length then some (l.set k none) else none

/-- `for p in range(p0, n+1, i): arr[p] = None` (all stores are in range
because `p ≤ n < arr.length`). -/
def crossOff (n i : Nat) : Nat → List (Option Nat) → Nat → List (Option Nat)
  | 0, arr, _ => arr
  | fuel+1, arr, p => if p ≤ n then crossOff n i fuel (arr.set p none) (p + i) else arr

/-- `i += 1; while i <= n and arr[i] is None: i += 1`. -/
def advance (n : Nat) : Nat → List (Option Nat) → Nat → Nat
  | 0, _, i => i
  | fuel+1, arr, i =>
    if i ≤ n ∧ arr.getD i (some 0) = none then advance n fuel arr (i+1) else i

/-- `while i*i <= n: ...`. -/
def eratLoop (n : Nat) : Nat → List (Option Nat) → Nat → List (Option Nat)
  | 0, arr, _ => arr
  | fuel+1, arr, i =>
    if i*i ≤ n then
      eratLoop n fuel (crossOff n i (n+1) arr (i*i))
        (advance n (n+1) (crossOff n i (n+1) arr (i*i)) (i+1))
    else arr

/-- `erat(n)` from `pyprimes.py`.  `none` is the `IndexError` raised by
`arr[1] = None` when `n = 0` (`arr` then has length 1). -/
def erat (n : Nat) : Option (List Nat) := do
  let arr0 := (List.range (n+1)).map some
  let arr1 ← pySet arr0 0
  let arr2 ← pySet arr1 1
  return (eratLoop n (n+1) arr2 2).filterMap id

/-- `m` has been crossed off once every candidate `< i` has been processed. -/
def crossedSpec (i m : Nat) : Prop :=
  m < 2 ∨ ∃ p, 2 ≤ p ∧ p < i ∧ p ∣ m ∧ p*p ≤ m

theorem crossOff_length (n i : Nat) :
    ∀ (fuel : Nat) (arr : List (Option Nat)) (p : Nat),
      (crossOff n i fuel arr p).length = arr.length := by
  intro fuel
  induction fuel with
  | zero => intro arr p; rfl
  | succ fuel ih =>
    intro arr p
    unfold crossOff
    split
    · rw [ih]; simp
    · rfl

theorem crossOff_getElem? (n i : Nat) (hi : 1 ≤ i) :
    ∀ (fuel : Nat) (arr : List (Option Nat)) (p : Nat), n + 1 ≤ fuel + p →
      arr.length = n + 1 →
      ∀ m, m ≤ n →
        (crossOff n i fuel arr p)[m]? =
          if p ≤ m ∧ i ∣ (m - p) then some none else arr[m]? := by
  intro fuel
  induction fuel with
  | zero =>
    intro arr p hfuel hlen m hm
    rw [if_neg (by omega)]
    rfl
  | succ fuel ih =>
    intro arr p hfuel hlen m hm
    unfold crossOff
    by_cases hp : p ≤ n
    · rw [if_pos hp]
      rw [ih (arr.set p none) (p+i) (by omega) (by simp [hlen]) m hm]
      by_cases hmp : m = p
      · subst hmp
        rw [if_neg (by rintro ⟨h1, -⟩; omega), if_pos ⟨le_refl m, by simp⟩]
        exact List.getElem?_set_self (by omega)
      · rw [List.getElem?_set_ne (by omega)]
        by_cases hc : p + i ≤ m ∧ i ∣ (m - (p+i))
        · obtain ⟨h1, h2⟩ := hc
          have hdvd : i ∣ (m - p) := by
            have hmp' : m - p = (m - (p+i)) + i := by omega
            rw [hmp']
            exact Nat.dvd_add h2 (dvd_refl i)
          rw [if_pos ⟨h1, h2⟩, if_pos ⟨by omega, hdvd⟩]
        · rw [if_neg hc, if_neg ?_]
          rintro ⟨h1, h2⟩
          refine hc ⟨?_, ?_⟩
          · have hlt : p < m := by omega
            have : 1 ≤ m - p := by omega
            have hge : i ≤ m - p := Nat.le_of_dvd (by omega) h2
            omega
          · have : m - (p + i) = (m - p) - i := by omega
            rw [this]
            exact Nat.dvd_sub' h2 (dvd_refl i)
    · rw [if_neg hp, if_neg (by rintro ⟨h1, -⟩; omega)]

theorem advance_spec (n : Nat) :
    ∀ (fuel : Nat) (arr : List (Option Nat)) (i : Nat),
      i ≤ advance n fuel arr i ∧
      (∀ j, i ≤ j → j < advance n fuel arr i → j ≤ n ∧ arr.getD j (some 0) = none) ∧
      (n + 1 ≤ fuel + i →
        n < advance n fuel arr i ∨ arr.getD (advance n fuel arr i) (some 0) ≠ none) := by
  intro fuel
  induction fuel with
  | zero =>
    intro arr i
    exact ⟨le_refl _, fun j h1 h2 => by simp only [advance] at h2; omega,
      fun h => by simp only [advance]; omega⟩
  | succ fuel ih =>
    intro arr i
    unfold advance
    by_cases hc : i ≤ n ∧ arr.getD i (some 0) = none
    · rw [if_pos hc]
      obtain ⟨h1, h2, h3⟩ := ih arr (i+1)
      refine ⟨by omega, fun j hj1 hj2 => ?_, fun hf => h3 (by omega)⟩
      rcases Nat.eq_or_lt_of_le hj1 with rfl | hgt
      · exact hc
      · exact h2 j hgt hj2
    · rw [if_neg hc]
      refine ⟨le_refl _, fun j h1 h2 => by omega, fun hf => ?_⟩
      by_cases hn : i ≤ n
      · right
        intro hnone
        exact hc ⟨hn, hnone⟩
      · left; omega

/-- The sieve-loop invariant: the array has the right length and an
entry `m` is crossed off exactly when some candidate `< i` accounts
for it. -/
def EratInv (n i : Nat) (arr : List (Option Nat)) : Prop :=
  arr.length = n + 1 ∧
  ∀ m, m ≤ n →
    (crossedSpec i m → arr[m]? = some none) ∧ (¬ crossedSpec i m → arr[m]? = some (some m))

theorem crossedSpec_mono {i i' m : Nat} (h : i ≤ i') (hc : crossedSpec i m) :
    crossedSpec i' m := by
  rcases hc with h2 | ⟨p, hp1, hp2, hp3, hp4⟩
  · exact Or.inl h2
  · exact Or.inr ⟨p, hp1, by omega, hp3, hp4⟩

/-- Skipping already-crossed candidates does not change the crossing
characterisation. -/
theorem crossedSpec_ext {i i' m : Nat} (hle : i ≤ i')
    (hskip : ∀ j, i ≤ j → j < i' → crossedSpec i j) :
    crossedSpec i' m ↔ crossedSpec i m := by
  refine ⟨?_, crossedSpec_mono hle⟩
  rintro (h2 | ⟨p, hp1, hp2, hp3, hp4⟩)
  · exact Or.inl h2
  by_cases hpi : p < i
  · exact Or.inr ⟨p, hp1, hpi, hp3, hp4⟩
  · rcases hskip p (by omega) hp2 with hlt | ⟨q, hq1, hq2, hq3, hq4⟩
    · omega
    · refine Or.inr ⟨q, hq1, hq2, hq3.trans hp3, ?_⟩
      have hpm : p ≤ m := Nat.le_of_dvd (by nlinarith) hp3
      nlinarith

/-- Crossing off the multiples of `i` from `i*i` extends the invariant
from `i` to `i+1`. -/
theorem eratInv_cross (n i : Nat) (hi : 2 ≤ i) (hin : i*i ≤ n)
    (arr : List (Option Nat)) (hInv : EratInv n i arr) :
    EratInv n (i+1) (crossOff n i (n+1) arr (i*i)) := by
  obtain ⟨hlen, hspec⟩ := hInv
  have hgetE := crossOff_getElem? n i (by omega) (n+1) arr (i*i) (by omega) hlen
  have hcross : ∀ m, m ≤ n → (i*i ≤ m ∧ i ∣ (m - i*i) ↔ i ∣ m ∧ i*i ≤ m) := by
    intro m hm
    constructor
    · rintro ⟨h1, h2⟩
      refine ⟨?_, h1⟩
      have : m = (m - i*i) + i*i := by omega
      rw [this]
      exact Nat.dvd_add h2 (Dvd.intro i rfl)
    · rintro ⟨h1, h2⟩
      exact ⟨h2, Nat.dvd_sub' h1 (Dvd.intro i rfl)⟩
  have hstep : ∀ m, crossedSpec (i+1) m ↔ (crossedSpec i m ∨ (i ∣ m ∧ i*i ≤ m)) := by
    intro m
    constructor
    · rintro (h2 | ⟨p, hp1, hp2, hp3, hp4⟩)
      · exact Or.inl (Or.inl h2)
      · by_cases hpi : p < i
        · exact Or.inl (Or.inr ⟨p, hp1, hpi, hp3, hp4⟩)
        · have : p = i := by omega
          subst this
          exact Or.inr ⟨hp3, hp4⟩
    · rintro (h | ⟨h1, h2⟩)
      · exact crossedSpec_mono (by omega) h
      · exact Or.inr ⟨i, hi, by omega, h1, h2⟩
  constructor
  · rw [crossOff_length, hlen]
  · intro m hm
    rw [hgetE m hm]
    constructor
    · intro hcm
      rcases (hstep m).mp hcm with h | h
      · split
        · rfl
        · exact (hspec m hm).1 h
      · rw [if_pos ((hcross m hm).mpr h)]
    · intro hcm
      rw [if_neg ?_]
      · exact (hspec m hm).2 fun hc => hcm (crossedSpec_mono (by omega) hc)
      · intro hcon
        exact hcm ((hstep m).mpr (Or.inr ((hcross m hm).mp hcon)))

/-- Skipping crossed candidates with `advance` preserves the invariant. -/
theorem eratInv_advance (n i : Nat) (arr : List (Option Nat))
    (hInv : EratInv n i arr) :
    EratInv n (advance n (n+1) arr i) arr := by
  obtain ⟨hlen, hspec⟩ := hInv
  obtain ⟨hge, hskip, -⟩ := advance_spec n (n+1) arr i
  have hext : ∀ m, crossedSpec (advance n (n+1) arr i) m ↔ crossedSpec i m := by
    intro m
    refine crossedSpec_ext hge fun j hj1 hj2 => ?_
    obtain ⟨hjn, hjnone⟩ := hskip j hj1 hj2
    by_contra hcon
    have := (hspec j hjn).2 hcon
    rw [List.getD_eq_getElem?_getD, this] at hjnone
    exact Option.noConfusion hjnone
  exact ⟨hlen, fun m hm => ⟨fun h => (hspec m hm).1 ((hext m).mp h),
    fun h => (hspec m hm).2 fun hc => h ((hext m).mpr hc)⟩⟩

/-- After the main loop, entry `m ≤ n` is crossed exactly when `m` is
`0`, `1` or composite. -/
theorem eratLoop_spec (n : Nat) :
    ∀ (fuel i : Nat) (arr : List (Option Nat)), EratInv n i arr → 2 ≤ i →
      n + 1 ≤ fuel + i →
      (eratLoop n fuel arr i).length = n + 1 ∧
      ∀ m, m ≤ n →
        (¬ Nat.Prime m → (eratLoop n fuel arr i)[m]? = some none) ∧
        (Nat.Prime m → (eratLoop n fuel arr i)[m]? = some (some m)) := by
  have hfinal : ∀ i m, 2 ≤ i → ¬ (i*i ≤ n) → m ≤ n → (crossedSpec i m ↔ ¬ Nat.Prime m) := by
    intro i m hi hexit hm
    constructor
    · rintro (h2 | ⟨p, hp1, hp2, hp3, hp4⟩) hprime
      · exact absurd (Nat.Prime.two_le hprime) (by omega)
      · have hne : p ≠ m := by nlinarith
        rcases (Nat.Prime.eq_one_or_self_of_dvd hprime p hp3) with h | h <;> omega
    · intro hnp
      by_cases h2 : m < 2
      · exact Or.inl h2
      · have hm1 : m ≠ 1 := by omega
        have hq := Nat.minFac_prime hm1
        have hq2 : Nat.minFac m * Nat.minFac m ≤ m := by
          have := Nat.minFac_sq_le_self (n := m) (by omega) hnp
          nlinarith [sq (Nat.minFac m)]
        refine Or.inr ⟨Nat.minFac m, hq.two_le, ?_, Nat.minFac_dvd m, hq2⟩
        calc Nat.minFac m ≤ Nat.sqrt m := by
              exact Nat.le_sqrt.mpr hq2
          _ < i := by
              have hs := Nat.sqrt_le' m
              by_contra hcon
              push_neg at hcon
              nlinarith [Nat.sqrt_le' m]
  intro fuel
  induction fuel with
  | zero =>
    intro i arr hInv hi hfuel
    obtain ⟨hlen, hspec⟩ := hInv
    refine ⟨hlen, fun m hm => ⟨fun hnp => ?_, fun hp => ?_⟩⟩
    · exact (hspec m hm).1 ((hfinal i m hi (by nlinarith) hm).mpr hnp)
    · exact (hspec m hm).2 fun hc => ((hfinal i m hi (by nlinarith) hm).mp hc) hp
  | succ fuel ih =>
    intro i arr hInv hi hfuel
    unfold eratLoop
    by_cases hloop : i*i ≤ n
    · rw [if_pos hloop]
      have hInv1 := eratInv_cross n i hi hloop arr hInv
      have hInv2 := eratInv_advance n (i+1) _ hInv1
      have hadv := (advance_spec n (n+1) (crossOff n i (n+1) arr (i*i)) (i+1)).1
      exact ih _ _ hInv2 (by omega) (by omega)
    · rw [if_neg hloop]
      obtain ⟨hlen, hspec⟩ := hInv
      refine ⟨hlen, fun m hm => ⟨fun hnp => ?_, fun hp => ?_⟩⟩
      · exact (hspec m hm).1 ((hfinal i m hi hloop hm).mpr hnp)
      · exact (hspec m hm).2 fun hc => ((hfinal i m hi hloop hm).mp hc) hp

theorem filterMap_if_eq_filter (q : Nat → Bool) :
    ∀ l : List Nat, l.filterMap (fun m => if q m then some m else none) = l.filter q := by
  intro l
  induction l with
  | nil => rfl
  | cons a t ih =>
    by_cases ha : q a <;>
      simp [List.filterMap_cons, List.filter_cons, ha, ih]

/-- `erat(n)` returns exactly the ascending list of primes `≤ n`, for
every `n ≥ 1`. -/
theorem erat_correct (n : Nat) (hn : 1 ≤ n) : erat n = some (primesUpTo (n+1)) := by
  have hlen0 : ((List.range (n+1)).map some).length = n + 1 := by simp
  have hset0 : pySet ((List.range (n+1)).map some) 0 =
      some (((List.range (n+1)).map some).set 0 none) := by
    unfold pySet
    rw [if_pos (by omega)]
  have hset1 : pySet (((List.range (n+1)).map some).set 0 none) 1 =
      some ((((List.range (n+1)).map some).set 0 none).set 1 none) := by
    unfold pySet
    rw [if_pos (by simp; omega)]
  set arr2 := (((List.range (n+1)).map some).set 0 none).set 1 none with harr2
  have harr2get : ∀ m, m ≤ n → arr2[m]? = if m < 2 then some none else some (some m) := by
    intro m hm
    rcases Nat.lt_or_ge m 2 with h2 | h2
    · interval_cases m
      · rw [if_pos (by omega), harr2, List.getElem?_set_ne (by omega),
          List.getElem?_set_self
            (by simp only [List.length_set, List.length_map, List.length_range]; omega)]
      · rw [if_pos (by omega), harr2,
          List.getElem?_set_self
            (by simp only [List.length_set, List.length_map, List.length_range]; omega)]
    · rw [if_neg (by omega), harr2, List.getElem?_set_ne (by omega),
        List.getElem?_set_ne (by omega), List.getElem?_map, List.getElem?_range (by omega)]
      rfl
  have hInv : EratInv n 2 arr2 := by
    refine ⟨by simp [harr2], fun m hm => ⟨fun hc => ?_, fun hc => ?_⟩⟩
    · rcases hc with h2 | ⟨p, hp1, hp2, _, _⟩
      · rw [harr2get m hm, if_pos h2]
      · omega
    · have h2 : ¬ m < 2 := fun h => hc (Or.inl h)
      rw [harr2get m hm, if_neg h2]
  obtain ⟨hlenF, hspecF⟩ := eratLoop_spec n (n+1) 2 arr2 hInv (le_refl 2) (by omega)
  have hFeq : eratLoop n (n+1) arr2 2 =
      (List.range (n+1)).map (fun m => if myPrime m then some m else none) := by
    apply List.ext_getElem?
    intro m
    rcases Nat.lt_or_ge m (n+1) with hlt | hge
    · rw [List.getElem?_map, List.getElem?_range hlt]
      by_cases hp : Nat.Prime m
      · rw [(hspecF m (by omega)).2 hp]
        simp [(myPrime_iff_prime m).mpr hp]
      · rw [(hspecF m (by omega)).1 hp]
        have : myPrime m = false :=
          Bool.eq_false_iff.mpr fun h => hp ((myPrime_iff_prime m).mp h)
        simp [this]
    · rw [List.getElem?_eq_none (by omega : (eratLoop n (n+1) arr2 2).length ≤ m),
        List.getElem?_eq_none (by simp; omega)]
  dsimp only [erat]
  rw [hset0]
  simp only [Option.bind_eq_bind, Option.some_bind]
  rw [hset1]
  simp only [Option.some_bind, ← harr2]
  rw [hFeq]
  rw [List.filterMap_map]
  have hcomp : (id ∘ fun m => if myPrime m then some m else none)
      = fun m => if myPrime m then some m else none := rfl
  rw [hcomp, filterMap_if_eq_filter]
  rfl

/-- `erat(0)` raises `IndexError`: `arr = [0]` has length 1, and
`arr[1] = None` is out of range. -/
theorem erat_zero : erat 0 = none := rfl

/-! ## Association-list lemmas (for the sieve dicts) -/

/-- The keys of an association list. -/
def alKeys (t : List (Nat × Nat)) : List Nat := t.map Prod.fst

theorem alMem_iff_mem_keys (k : Nat) :
    ∀ t : List (Nat × Nat), alMem k t = true ↔ k ∈ alKeys t := by
  intro t
  induction t with
  | nil => simp [alMem, alFind?, alKeys]
  | cons e t ih =>
    obtain ⟨k', v⟩ := e
    simp only [alMem, alFind?, alKeys, List.map_cons, List.mem_cons]
    by_cases h : k' = k
    · subst h
      simp
    · rw [if_neg h]
      rw [alMem, alKeys] at ih
      simp only [ih.symm, alMem]
      constructor
      · intro hs; exact Or.inr hs
      · rintro (hs | hs)
        · exact absurd hs.symm h
        · exact hs

theorem alFind?_some (k v : Nat) :
    ∀ t : List (Nat × Nat), (alKeys t).Nodup → (alFind? k t = some v ↔ (k, v) ∈ t) := by
  intro t
  induction t with
  | nil => simp [alFind?]
  | cons e t ih =>
    obtain ⟨k', v'⟩ := e
    intro hnd
    simp only [alKeys, List.map_cons, List.nodup_cons] at hnd
    obtain ⟨hk', hnd'⟩ := hnd
    simp only [alFind?, List.mem_cons]
    by_cases h : k' = k
    · subst h
      rw [if_pos rfl]
      constructor
      · rintro h; cases h; exact Or.inl rfl
      · rintro (h | h)
        · cases h; rfl
        · exact absurd (List.mem_map_of_mem Prod.fst h) (by simpa [alKeys] using hk')
    · rw [if_neg h]
      rw [ih hnd']
      constructor
      · exact Or.inr
      · rintro (hc | hc)
        · cases hc; exact absurd rfl h
        · exact hc

theorem alFind?_none (k : Nat) (t : List (Nat × Nat)) :
    alFind? k t = none ↔ k ∉ alKeys t := by
  rw [← alMem_iff_mem_keys, alMem]
  cases alFind? k t <;> simp

theorem alErase_mem (k : Nat) :
    ∀ t : List (Nat × Nat), (alKeys t).Nodup →
      ∀ e : Nat × Nat, (e ∈ alErase k t ↔ e ∈ t ∧ e.1 ≠ k) := by
  intro t
  induction t with
  | nil => simp [alErase]
  | cons e' t ih =>
    obtain ⟨k', v'⟩ := e'
    intro hnd e
    simp only [alKeys, List.map_cons, List.nodup_cons] at hnd
    obtain ⟨hk', hnd'⟩ := hnd
    simp only [alErase]
    by_cases h : k' = k
    · subst h
      rw [if_pos rfl]
      constructor
      · intro he
        refine ⟨List.mem_cons_of_mem _ he, ?_⟩
        intro hek
        exact hk' (by simpa [alKeys, ← hek] using List.mem_map_of_mem Prod.fst he)
      · rintro ⟨he, hek⟩
        rcases List.mem_cons.mp he with rfl | he'
        · exact absurd rfl hek
        · exact he'
    · rw [if_neg h]
      simp only [List.mem_cons, ih hnd' e]
      constructor
      · rintro (rfl | ⟨he, hek⟩)
        · exact ⟨Or.inl rfl, h⟩
        · exact ⟨Or.inr he, hek⟩
      · rintro ⟨rfl | he, hek⟩
        · exact Or.inl rfl
        · exact Or.inr ⟨he, hek⟩

theorem alErase_keys_sub (k : Nat) :
    ∀ t : List (Nat × Nat), alKeys (alErase k t) ⊆ alKeys t := by
  intro t
  induction t with
  | nil => simp [alErase]
  | cons e t ih =>
    obtain ⟨k', v'⟩ := e
    simp only [alErase]
    by_cases h : k' = k
    · rw [if_pos h]
      exact fun x hx => by simp [alKeys]; right; simpa [alKeys] using hx
    · rw [if_neg h]
      intro x hx
      simp only [alKeys, List.map_cons, List.mem_cons] at hx ⊢
      rcases hx with rfl | hx
      · exact Or.inl rfl
      · exact Or.inr (ih hx)

theorem alErase_nodup (k : Nat) :
    ∀ t : List (Nat × Nat), (alKeys t).Nodup → (alKeys (alErase k t)).Nodup := by
  intro t
  induction t with
  | nil => simp [alErase]
  | cons e t ih =>
    obtain ⟨k', v'⟩ := e
    intro hnd
    simp only [alKeys, List.map_cons, List.nodup_cons] at hnd
    obtain ⟨hk', hnd'⟩ := hnd
    simp only [alErase]
    by_cases h : k' = k
    · rw [if_pos h]; exact hnd'
    · rw [if_neg h]
      simp only [alKeys, List.map_cons, List.nodup_cons]
      exact ⟨fun hc => hk' (alErase_keys_sub k t hc), ih hnd'⟩

theorem alErase_length_le (k : Nat) :
    ∀ t : List (Nat × Nat), (alErase k t).length ≤ t.length := by
  intro t
  induction t with
  | nil => simp [alErase]
  | cons e t ih =>
    obtain ⟨k', v'⟩ := e
    simp only [alErase]
    by_cases h : k' = k
    · rw [if_pos h]; simp
    · rw [if_neg h]; simpa using ih

theorem alInsert_mem_of_fresh (k v : Nat) :
    ∀ t : List (Nat × Nat), k ∉ alKeys t →
      ∀ e : Nat × Nat, (e ∈ alInsert k v t ↔ e ∈ t ∨ e = (k, v)) := by
  intro t
  induction t with
  | nil => simp [alInsert]
  | cons e' t ih =>
    obtain ⟨k', v'⟩ := e'
    intro hk e
    simp only [alKeys, List.map_cons, List.mem_cons] at hk
    push_neg at hk
    obtain ⟨hk1, hk2⟩ := hk
    rw [alInsert, if_neg (show ¬ k' = k from fun h => hk1 h.symm)]
    simp only [List.mem_cons, ih (by simpa [alKeys] using hk2) e]
    tauto

theorem alInsert_nodup_of_fresh (k v : Nat) :
    ∀ t : List (Nat × Nat), k ∉ alKeys t → (alKeys t).Nodup →
      (alKeys (alInsert k v t)).Nodup := by
  intro t
  induction t with
  | nil => simp [alInsert, alKeys]
  | cons e' t ih =>
    obtain ⟨k', v'⟩ := e'
    intro hk hnd
    simp only [alKeys, List.map_cons, List.mem_cons] at hk
    push_neg at hk
    obtain ⟨hk1, hk2⟩ := hk
    simp only [alKeys, List.map_cons, List.nodup_cons] at hnd
    obtain ⟨hk', hnd'⟩ := hnd
    rw [alInsert, if_neg (show ¬ k' = k from fun h => hk1 h.symm)]
    simp only [alKeys, List.map_cons, List.nodup_cons]
    refine ⟨?_, ih (by simpa [alKeys] using hk2) hnd'⟩
    intro hc
    have hins := alInsert_mem_of_fresh k v t (by simpa [alKeys] using hk2)
    simp only [alKeys, List.mem_map] at hc
    obtain ⟨e, he, hek⟩ := hc
    rcases (hins e).mp he with he' | rfl
    · exact hk' (List.mem_map.mpr ⟨e, he', hek⟩)
    · exact hk1 hek

/-! ## Generic bounded collector for the lazy prime generators

`collectUpto next k bound s` pulls values from the stream while they are
`≤ bound` — the meaning of "the primes `≤ B` produced by the lazy
strategy".  `none` records fuel exhaustion. -/

def collectUpto {σ : Type} (next : σ → Option (Nat × σ)) : Nat → Nat → σ → Option (List Nat)
  | 0, _, _ => none
  | k+1, bound, s =>
    match next s with
    | none => none
    | some (v, s') =>
      if v ≤ bound then (collectUpto next k bound s').map (v :: ·) else some []

/-- The list of primes in the closed interval `[q, B]`. -/
def primesSeg (q B : Nat) : List Nat := (List.range' q (B + 1 - q)).filter myPrime

theorem primesSeg_of_no_primes (q B : Nat)
    (h : ∀ j, q ≤ j → j ≤ B → ¬ Nat.Prime j) : primesSeg q B = [] := by
  unfold primesSeg
  rw [List.filter_eq_nil_iff]
  intro a ha
  rw [mem_range'_iff] at ha
  intro hp
  exact h a (by omega) (by omega) ((myPrime_iff_prime a).mp hp)

theorem primesSeg_cons (q B P : Nat) (hP : Nat.Prime P) (hq : q ≤ P) (hB : P ≤ B)
    (hmin : ∀ j, q ≤ j → j < P → ¬ Nat.Prime j) (hnext : ¬ Nat.Prime (P+1)) :
    primesSeg q B = P :: primesSeg (P+2) B := by
  unfold primesSeg
  have hsplit : List.range' q (B + 1 - q) = List.range' q (P - q) ++ List.range' P (B + 1 - P) := by
    have h := List.range'_append q (P - q) (B + 1 - P) 1
    simp only [one_mul] at h
    rw [show q + (P - q) = P by omega] at h
    rw [show B + 1 - q = B + 1 - P + (P - q) by omega]
    exact h.symm
  rw [hsplit, List.filter_append]
  have h1 : (List.range' q (P - q)).filter myPrime = [] := by
    rw [List.filter_eq_nil_iff]
    intro a ha
    rw [mem_range'_iff] at ha
    intro hp
    exact hmin a (by omega) (by omega) ((myPrime_iff_prime a).mp hp)
  rw [h1, List.nil_append]
  have h2 : List.range' P (B + 1 - P) = P :: List.range' (P+1) (B - P) := by
    rw [show B + 1 - P = (B - P) + 1 by omega, List.range'_succ]
  rw [h2, List.filter_cons, if_pos (by simp [(myPrime_iff_prime P).mpr hP])]
  congr 1
  rcases Nat.eq_or_lt_of_le hB with rfl | hlt
  · rw [show P - P = 0 by omega, show P + 1 - (P + 2) = 0 by omega]
    rfl
  · have h3 : List.range' (P+1) (B - P) = (P+1) :: List.range' (P+1+1) (B - P - 1) := by
      obtain ⟨m, hm⟩ : ∃ m, B - P - 1 = m := ⟨_, rfl⟩
      rw [hm, show B - P = m + 1 by omega, List.range'_succ]
    rw [h3, List.filter_cons, if_neg (by simp [Bool.eq_false_iff.mpr
      (fun h => hnext ((myPrime_iff_prime (P+1)).mp h))])]
    congr 2 <;> omega

/-- The least prime `≥ q`. -/
def leastPrimeFrom (q : Nat) : Nat := if myPrime q then q else nextPrimeNat q

theorem leastPrimeFrom_spec (q : Nat) :
    Nat.Prime (leastPrimeFrom q) ∧ q ≤ leastPrimeFrom q ∧ leastPrimeFrom q ≤ 2*q + 2 ∧
      ∀ j, q ≤ j → j < leastPrimeFrom q → ¬ Nat.Prime j := by
  unfold leastPrimeFrom
  by_cases hq : myPrime q
  · rw [if_pos hq]
    exact ⟨(myPrime_iff_prime q).mp hq, le_refl q, by omega,
      fun j h1 h2 => (by omega : False).elim⟩
  · rw [if_neg hq]
    obtain ⟨hp, hgt, hmin⟩ := nextPrimeNat_spec q
    have hbound : nextPrimeNat q ≤ 2*q + 2 := by
      rcases Nat.eq_zero_or_pos q with rfl | hpos
      · have : nextPrimeNat 0 = 2 := by decide
        omega
      · obtain ⟨p, hpp, h1, h2⟩ := Nat.exists_prime_lt_and_le_two_mul q (by omega)
        by_contra hcon
        exact hmin p h1 (by omega) hpp
    refine ⟨hp, by omega, hbound, fun j h1 h2 => ?_⟩
    rcases Nat.eq_or_lt_of_le h1 with rfl | hgt'
    · exact fun hc => hq ((myPrime_iff_prime _).mpr hc)
    · exact hmin j hgt' h2

/-- For odd `q ≥ 3` the least prime `≥ q` is odd and its successor is
not prime. -/
theorem leastPrimeFrom_odd (q : Nat) (hq3 : 3 ≤ q) (hodd : q % 2 = 1) :
    leastPrimeFrom q % 2 = 1 ∧ ¬ Nat.Prime (leastPrimeFrom q + 1) ∧
      (leastPrimeFrom q - q) % 2 = 0 := by
  obtain ⟨hp, hge, hub, hmin⟩ := leastPrimeFrom_spec q
  have hP2 : leastPrimeFrom q ≠ 2 := by omega
  have hodd' : leastPrimeFrom q % 2 = 1 := (hp.eq_two_or_odd).resolve_left hP2
  refine ⟨hodd', fun hc => ?_, by omega⟩
  have h2 : (leastPrimeFrom q + 1) % 2 = 0 := by omega
  rcases hc.eq_two_or_odd with h | h <;> omega

/-! ## `cookbook()`: the lazy Sieve of Eratosthenes over odd candidates

State: the pending preamble output `2`, the `table` dict mapping each
tracked prime's current composite multiple to the prime, and the next
odd candidate `q` (starting at 3). -/

structure CookbookState where
  pre : Bool
  table : List (Nat × Nat)
  q : Nat
  deriving DecidableEq

def cookbookInit : CookbookState := ⟨true, [], 3⟩

/-- `x = p + q; while x in table or not (x & 1): x += p`. -/
def cookbookProbe (p : Nat) (table : List (Nat × Nat)) : Nat → Nat → Option Nat
  | 0, _ => none
  | fuel+1, x =>
    if alMem x table || x % 2 == 0 then cookbookProbe p table fuel (x + p)
    else some x

/-- Advance the cookbook generator to its next yield; the probe loop
gets `2*(|table|+2)` steps, which always suffices (at most `|table|`
odd multiples can be occupied). -/
def cookbookNext : Nat → CookbookState → Option (Nat × CookbookState)
  | 0, _ => none
  | fuel+1, s =>
    if s.pre then some (2, ⟨false, s.table, s.q⟩)
    else
      match alFind? s.q s.table with
      | some p =>
        match cookbookProbe p (alErase s.q s.table) (2 * ((alErase s.q s.table).length + 2))
            (p + s.q) with
        | none => none
        | some x => cookbookNext fuel ⟨false, alInsert x p (alErase s.q s.table), s.q + 2⟩
      | none => some (s.q, ⟨false, alInsert (s.q * s.q) s.q s.table, s.q + 2⟩)

/-- The cookbook invariant at candidate `q` (odd, `≥ 3`):
keys are distinct odd composites `≥ q`; each entry's value is a tracked
odd prime `< q` dividing its key; every odd prime `< q` is tracked; and
every odd `m ≥ q` divisible by a tracked prime has some entry at or
below it (so it will be recognised as composite in time). -/
def CookInv (t : List (Nat × Nat)) (q : Nat) : Prop :=
  (alKeys t).Nodup ∧
  (∀ e ∈ t, e.1 % 2 = 1 ∧ e.2 ∣ e.1 ∧ q ≤ e.1 ∧ Nat.Prime e.2 ∧ 3 ≤ e.2 ∧ e.2 < q) ∧
  (∀ p, Nat.Prime p → 3 ≤ p → p < q → ∃ e ∈ t, e.2 = p) ∧
  (∀ m, m % 2 = 1 → q ≤ m → (∃ p, Nat.Prime p ∧ 3 ≤ p ∧ p < q ∧ p ∣ m) →
    ∃ e ∈ t, e.2 ∣ m ∧ e.1 ≤ m)

theorem even_not_prime (m : Nat) (he : m % 2 = 0) (h2 : m ≠ 2) : ¬ Nat.Prime m := by
  intro hp
  rcases hp.eq_two_or_odd with h | h <;> omega

/-- Candidate membership test: at an odd candidate `q ≥ 3` with the
invariant, `q` is a key exactly when `q` is composite. -/
theorem cook_mem_iff (t : List (Nat × Nat)) (q : Nat) (hInv : CookInv t q)
    (hq : 3 ≤ q) (hodd : q % 2 = 1) : (q ∈ alKeys t ↔ ¬ Nat.Prime q) := by
  obtain ⟨hnd, hK1, hK3, hK4⟩ := hInv
  constructor
  · intro hmem
    simp only [alKeys, List.mem_map] at hmem
    obtain ⟨e, he, hek⟩ := hmem
    obtain ⟨_, hdvd, _, hp, h3, hlt⟩ := hK1 e he
    intro hprime
    rcases hprime.eq_one_or_self_of_dvd e.2 (hek ▸ hdvd) with h | h <;> omega
  · intro hcomp
    have h1 : q ≠ 1 := by omega
    have hpf := Nat.minFac_prime h1
    have hdvd := Nat.minFac_dvd q
    have hodd' : 3 ≤ Nat.minFac q := by
      have h2 := hpf.two_le
      rcases Nat.eq_or_lt_of_le h2 with h | h
      · exfalso
        have h2d : (2 : Nat) ∣ q := h ▸ hdvd
        have := Nat.mod_eq_zero_of_dvd h2d
        omega
      · omega
    have hltq : Nat.minFac q < q := by
      have hle := Nat.minFac_le (show 0 < q by omega)
      rcases Nat.eq_or_lt_of_le hle with h | h
      · exact absurd (h ▸ hpf) hcomp
      · exact h
    obtain ⟨e, he, hedvd, hele⟩ :=
      hK4 q hodd (le_refl q) ⟨Nat.minFac q, hpf, hodd', hltq, hdvd⟩
    have := (hK1 e he).2.2.1
    simp only [alKeys, List.mem_map]
    exact ⟨e, he, by omega⟩

/-- Entries of a table with distinct keys are determined by their key. -/
theorem alKeys_nodup_unique (e e' : Nat × Nat) :
    ∀ t : List (Nat × Nat), (alKeys t).Nodup → e ∈ t → e' ∈ t → e.1 = e'.1 → e = e' := by
  intro t
  induction t with
  | nil => intro _ he _ _; exact absurd he (List.not_mem_nil e)
  | cons a t ih =>
    intro hnd he he' hk
    simp only [alKeys, List.map_cons, List.nodup_cons] at hnd
    obtain ⟨ha, hnd'⟩ := hnd
    rcases List.mem_cons.mp he with rfl | he2 <;> rcases List.mem_cons.mp he' with rfl | he2'
    · rfl
    · exact absurd (List.mem_map.mpr ⟨e', he2', hk.symm⟩) ha
    · exact absurd (List.mem_map.mpr ⟨e, he2, hk⟩) ha
    · exact ih hnd' he2 he2' hk

/-- Pigeonhole for the probe loops: among `2*(L+2)` consecutive positions
in an arithmetic progression with odd step, some odd position avoids all
`L` keys of the table. -/
theorem probe_pigeonhole (p : Nat) (t : List (Nat × Nat)) (x : Nat) (hp : p % 2 = 1) :
    ∃ j, j < 2 * (t.length + 2) ∧ (x + j * p) % 2 = 1 ∧ x + j * p ∉ alKeys t := by
  by_contra hcon
  push_neg at hcon
  have hjp : ∀ j : Nat, (j * p) % 2 = j % 2 := by
    intro j
    conv_lhs => rw [Nat.mul_mod, hp]
    omega
  set j₀ := (x + 1) % 2 with hj₀
  have hmem : ∀ i, i < t.length + 2 → x + (j₀ + 2*i) * p ∈ alKeys t := by
    intro i hi
    apply hcon
    · omega
    · rw [Nat.add_mod, hjp]
      omega
  have hcard : ((Finset.range (t.length + 2)).image (fun i => x + (j₀ + 2*i) * p)).card
      = t.length + 2 := by
    rw [Finset.card_image_of_injOn, Finset.card_range]
    intro i _ i' _ h
    simp only at h
    have h2 : (j₀ + 2*i) * p = (j₀ + 2*i') * p := by omega
    have h3 : j₀ + 2*i = j₀ + 2*i' := Nat.eq_of_mul_eq_mul_right (by omega) h2
    omega
  have hsub : (Finset.range (t.length + 2)).image (fun i => x + (j₀ + 2*i) * p)
      ⊆ (alKeys t).toFinset := by
    intro y hy
    simp only [Finset.mem_image, Finset.mem_range] at hy
    obtain ⟨i, hi, rfl⟩ := hy
    exact List.mem_toFinset.mpr (hmem i hi)
  have h1 := Finset.card_le_card hsub
  have h2 := List.toFinset_card_le (alKeys t)
  have h3 : (alKeys t).length = t.length := by simp [alKeys]
  rw [hcard] at h1
  omega

/-- What a successful cookbook probe returns: an odd non-key reached by
skipping only keys and even numbers. -/
theorem cookbookProbe_some_spec (p : Nat) (t : List (Nat × Nat)) :
    ∀ fuel x y, cookbookProbe p t fuel x = some y →
      ∃ j, j < fuel ∧ y = x + j * p ∧ y % 2 = 1 ∧ y ∉ alKeys t ∧
        ∀ i, i < j → (x + i * p ∈ alKeys t ∨ (x + i * p) % 2 = 0) := by
  intro fuel
  induction fuel with
  | zero => intro x y h; exact Option.noConfusion h
  | succ f ih =>
    intro x y h
    rw [cookbookProbe] at h
    by_cases hc : (alMem x t || x % 2 == 0) = true
    · rw [if_pos hc] at h
      obtain ⟨j, hj, hy, hodd, hmem, hskip⟩ := ih (x + p) y h
      refine ⟨j + 1, by omega, by rw [hy]; ring, hodd, hmem, ?_⟩
      intro i hi
      cases i with
      | zero =>
        simp only [Nat.zero_mul, Nat.add_zero]
        have hc' : alMem x t = true ∨ x % 2 = 0 := by simpa using hc
        rcases hc' with h' | h'
        · exact Or.inl ((alMem_iff_mem_keys x t).mp h')
        · exact Or.inr h'
      | succ i' =>
        have hsk := hskip i' (by omega)
        rw [show x + (i' + 1) * p = x + p + i' * p by ring]
        exact hsk
    · rw [if_neg hc] at h
      cases h
      simp only [Bool.or_eq_true, not_or, Bool.not_eq_true] at hc
      obtain ⟨hm, he⟩ := hc
      refine ⟨0, by omega, by simp, ?_, ?_, by omega⟩
      · have : ¬ x % 2 = 0 := by simpa using he
        omega
      · intro hmem
        rw [← alMem_iff_mem_keys] at hmem
        simp [hmem] at hm

/-- The cookbook probe succeeds if some reachable position is odd and
not a key. -/
theorem cookbookProbe_isSome (p : Nat) (t : List (Nat × Nat)) :
    ∀ fuel x, (∃ j, j < fuel ∧ (x + j * p) % 2 = 1 ∧ x + j * p ∉ alKeys t) →
      ∃ y, cookbookProbe p t fuel x = some y := by
  intro fuel
  induction fuel with
  | zero =>
    rintro x ⟨j, hj, _⟩
    omega
  | succ f ih =>
    rintro x ⟨j, hj, hodd, hmem⟩
    rw [cookbookProbe]
    by_cases hc : (alMem x t || x % 2 == 0) = true
    · rw [if_pos hc]
      apply ih
      have hj0 : j ≠ 0 := by
        rintro rfl
        simp only [Nat.zero_mul, Nat.add_zero] at hodd hmem
        have hc' : alMem x t = true ∨ x % 2 = 0 := by simpa using hc
        rcases hc' with h | h
        · exact hmem ((alMem_iff_mem_keys x t).mp h)
        · omega
      obtain ⟨j', rfl⟩ : ∃ j', j = j' + 1 := ⟨j - 1, by omega⟩
      refine ⟨j', by omega, ?_, ?_⟩
      · rw [show x + p + j' * p = x + (j' + 1) * p by ring]
        exact hodd
      · rw [show x + p + j' * p = x + (j' + 1) * p by ring]
        exact hmem
    · rw [if_neg hc]
      exact ⟨x, rfl⟩

/-- With the fuel chosen in `cookbookNext`, the probe always succeeds. -/
theorem cookbookProbe_success (p : Nat) (t : List (Nat × Nat)) (x : Nat) (hp : p % 2 = 1) :
    ∃ y, cookbookProbe p t (2 * (t.length + 2)) x = some y :=
  cookbookProbe_isSome p t _ x (probe_pigeonhole p t x hp)

/-- Invariant preservation, composite candidate: the entry at `q` moves
to the next free odd multiple of its prime. -/
theorem cookInv_stepA (t : List (Nat × Nat)) (q p x : Nat)
    (hInv : CookInv t q) (hq : 3 ≤ q) (hodd : q % 2 = 1)
    (hfind : alFind? q t = some p)
    (hprobe : cookbookProbe p (alErase q t) (2 * ((alErase q t).length + 2)) (p + q) = some x) :
    CookInv (alInsert x p (alErase q t)) (q + 2) := by
  obtain ⟨hnd, hK1, hK3, hK4⟩ := hInv
  have hqt : (q, p) ∈ t := (alFind?_some q p t hnd).mp hfind
  obtain ⟨_, hpdvd, _, hpprime, hp3, hpltq⟩ := hK1 (q, p) hqt
  have hpodd : p % 2 = 1 := hpprime.eq_two_or_odd.resolve_left (by omega)
  have hcompq : ¬ Nat.Prime q :=
    (cook_mem_iff t q ⟨hnd, hK1, hK3, hK4⟩ hq hodd).mp (List.mem_map.mpr ⟨(q, p), hqt, rfl⟩)
  set t' := alErase q t with ht'
  have hnd' : (alKeys t').Nodup := alErase_nodup q t hnd
  have hmem' : ∀ e : Nat × Nat, e ∈ t' ↔ e ∈ t ∧ e.1 ≠ q := alErase_mem q t hnd
  obtain ⟨j, hjf, hx, hxodd, hxfree, hskip⟩ := cookbookProbe_some_spec p t' _ _ x hprobe
  have hxq : q < x := by
    have hp1 : 1 ≤ p := by omega
    omega
  have hxp : p ∣ x := by
    rw [hx]
    exact dvd_add (dvd_add (dvd_refl p) hpdvd) (dvd_mul_left p j)
  have hins := alInsert_mem_of_fresh x p t' hxfree
  refine ⟨alInsert_nodup_of_fresh x p t' hxfree hnd', ?_, ?_, ?_⟩
  · intro e he
    rcases (hins e).mp he with he' | rfl
    · obtain ⟨he1, he2⟩ := (hmem' e).mp he'
      obtain ⟨h1, h2, h3, h4, h5, h6⟩ := hK1 e he1
      exact ⟨h1, h2, by omega, h4, h5, by omega⟩
    · exact ⟨hxodd, hxp, by omega, hpprime, hp3, by omega⟩
  · intro p' hp' h3' hlt'
    have hne : p' ≠ q + 1 := by
      intro h
      have := hp'.eq_two_or_odd
      omega
    have hne2 : p' ≠ q := fun h => hcompq (h ▸ hp')
    obtain ⟨e, he, hep⟩ := hK3 p' hp' h3' (by omega)
    by_cases heq : e.1 = q
    · have hee : e = (q, p) := alKeys_nodup_unique e (q, p) t hnd he hqt heq
      refine ⟨(x, p), (hins _).mpr (Or.inr rfl), ?_⟩
      rw [← hep, hee]
    · exact ⟨e, (hins e).mpr (Or.inl ((hmem' e).mpr ⟨he, heq⟩)), hep⟩
  · intro m hmodd hmge hex
    obtain ⟨p'', hp'', h3'', hlt'', hdvd''⟩ := hex
    have hne : p'' ≠ q + 1 := by
      intro h
      have := hp''.eq_two_or_odd
      omega
    have hne2 : p'' ≠ q := fun h => hcompq (h ▸ hp'')
    obtain ⟨e, he, hedvd, hele⟩ := hK4 m hmodd (by omega) ⟨p'', hp'', h3'', by omega, hdvd''⟩
    by_cases heq : e.1 = q
    · have hee : e = (q, p) := alKeys_nodup_unique e (q, p) t hnd he hqt heq
      have hpm : p ∣ m := by
        rw [hee] at hedvd
        exact hedvd
      rcases Nat.lt_or_ge m x with hmx | hxm
      · obtain ⟨k, hk⟩ := Nat.dvd_sub' hpm hpdvd
        have hqodd := hodd
        have hk1 : 1 ≤ k := by
          rcases Nat.eq_zero_or_pos k with rfl | h
          · simp at hk
            omega
          · exact h
        have hkpar : (p * k) % 2 = k % 2 := by
          conv_lhs => rw [Nat.mul_mod, hpodd]
          omega
        have hkeven : k % 2 = 0 := by omega
        obtain ⟨k', rfl⟩ : ∃ k', k = k' + 2 := ⟨k - 2, by omega⟩
        have hrel : p * (k' + 2) = (k' + 1) * p + p := by ring
        have hmpos : m = (p + q) + (k' + 1) * p := by omega
        have hlt3 : (k' + 1) * p < j * p := by omega
        have hik : k' + 1 < j := Nat.lt_of_mul_lt_mul_right hlt3
        rcases hskip (k' + 1) hik with hmem2 | heven
        · rw [← hmpos] at hmem2
          simp only [alKeys, List.mem_map] at hmem2
          obtain ⟨e', he', hek⟩ := hmem2
          obtain ⟨he1, _⟩ := (hmem' e').mp he'
          obtain ⟨_, hd, _, _, _, _⟩ := hK1 e' he1
          rw [hek] at hd
          exact ⟨e', (hins e').mpr (Or.inl he'), hd, by omega⟩
        · rw [← hmpos] at heven
          omega
      · exact ⟨(x, p), (hins _).mpr (Or.inr rfl), hpm, hxm⟩
    · exact ⟨e, (hins e).mpr (Or.inl ((hmem' e).mpr ⟨he, heq⟩)), hedvd, hele⟩

/-- Invariant preservation, prime candidate: `(q², q)` enters the table. -/
theorem cookInv_stepB (t : List (Nat × Nat)) (q : Nat)
    (hInv : CookInv t q) (hq : 3 ≤ q) (hodd : q % 2 = 1) (hprime : Nat.Prime q) :
    CookInv (alInsert (q * q) q t) (q + 2) := by
  obtain ⟨hnd, hK1, hK3, hK4⟩ := hInv
  have hqnot : q ∉ alKeys t := fun h =>
    (cook_mem_iff t q ⟨hnd, hK1, hK3, hK4⟩ hq hodd).mp h hprime
  have hsqfresh : q * q ∉ alKeys t := by
    intro h
    simp only [alKeys, List.mem_map] at h
    obtain ⟨e, he, hek⟩ := h
    obtain ⟨_, hd, _, hep, h3, hlt⟩ := hK1 e he
    rw [hek] at hd
    have hd' : e.2 ∣ q := hep.dvd_of_dvd_pow (show e.2 ∣ q ^ 2 by rw [pow_two]; exact hd)
    rcases hprime.eq_one_or_self_of_dvd e.2 hd' with h' | h' <;> omega
  have hins := alInsert_mem_of_fresh (q * q) q t hsqfresh
  refine ⟨alInsert_nodup_of_fresh (q*q) q t hsqfresh hnd, ?_, ?_, ?_⟩
  · intro e he
    rcases (hins e).mp he with he' | rfl
    · obtain ⟨h1, h2, h3, h4, h5, h6⟩ := hK1 e he'
      have hne : e.1 ≠ q := fun h => hqnot (List.mem_map.mpr ⟨e, he', h⟩)
      exact ⟨h1, h2, by omega, h4, h5, by omega⟩
    · refine ⟨?_, dvd_mul_left q q, ?_, hprime, by omega, by omega⟩
      · have hmm : (q * q) % 2 = (q % 2) * (q % 2) % 2 := Nat.mul_mod q q 2
        rw [hodd] at hmm
        omega
      · have h33 : 3 * q ≤ q * q := Nat.mul_le_mul_right q (by omega)
        omega
  · intro p' hp' h3' hlt'
    have hne : p' ≠ q + 1 := by
      intro h
      have := hp'.eq_two_or_odd
      omega
    rcases Nat.lt_or_ge p' q with h | h
    · obtain ⟨e, he, hep⟩ := hK3 p' hp' h3' h
      exact ⟨e, (hins e).mpr (Or.inl he), hep⟩
    · have hpq : p' = q := by omega
      exact ⟨(q*q, q), (hins _).mpr (Or.inr rfl), hpq.symm⟩
  · intro m hmodd hmge hex
    obtain ⟨p'', hp'', h3'', hlt'', hdvd''⟩ := hex
    by_cases hsmall : ∃ p₃, Nat.Prime p₃ ∧ 3 ≤ p₃ ∧ p₃ < q ∧ p₃ ∣ m
    · obtain ⟨e, he, hedvd, hele⟩ := hK4 m hmodd (by omega) hsmall
      exact ⟨e, (hins e).mpr (Or.inl he), hedvd, hele⟩
    · push_neg at hsmall
      have hp''q : p'' = q := by
        have hne : p'' ≠ q + 1 := by
          intro h
          have := hp''.eq_two_or_odd
          omega
        rcases Nat.lt_or_ge p'' q with h | h
        · exact absurd hdvd'' (hsmall p'' hp'' h3'' h)
        · omega
      rw [hp''q] at hdvd''
      have hqq : q * q ≤ m := by
        by_contra hcon
        push_neg at hcon
        obtain ⟨r, hr⟩ := hdvd''
        have hr1 : r ≠ 0 := by
          rintro rfl
          rw [Nat.mul_zero] at hr
          omega
        have hrq : r < q := by
          by_contra hge
          push_neg at hge
          have : q * q ≤ q * r := Nat.mul_le_mul_left q hge
          omega
        have hrodd : r % 2 = 1 := by
          have hmr : m % 2 = (q % 2) * (r % 2) % 2 := by rw [hr, Nat.mul_mod]
          rw [hodd] at hmr
          omega
        have hr3 : 3 ≤ r := by
          rcases Nat.eq_or_lt_of_le (Nat.one_le_iff_ne_zero.mpr hr1) with h | h
          · exfalso
            rw [← h, Nat.mul_one] at hr
            omega
          · omega
        have h1 : r ≠ 1 := by omega
        have hpf := Nat.minFac_prime h1
        have hdpf := Nat.minFac_dvd r
        have hpfodd : 3 ≤ Nat.minFac r := by
          have h2 := hpf.two_le
          rcases Nat.eq_or_lt_of_le h2 with h | h
          · exfalso
            have h2d : (2:Nat) ∣ r := h ▸ hdpf
            have := Nat.mod_eq_zero_of_dvd h2d
            omega
          · omega
        have hpflt : Nat.minFac r < q := by
          have := Nat.minFac_le (show 0 < r by omega)
          omega
        have hpfm : Nat.minFac r ∣ m := by
          rw [hr]
          exact hdpf.mul_left q
        exact absurd hpfm (hsmall _ hpf hpfodd hpflt)
      exact ⟨(q*q, q), (hins _).mpr (Or.inr rfl), hdvd'', hqq⟩

/-- The least prime at or above a candidate is unique. -/
theorem leastPrimeFrom_unique (q P : Nat) (hP : Nat.Prime P) (hq : q ≤ P)
    (hmin : ∀ j, q ≤ j → j < P → ¬ Nat.Prime j) : leastPrimeFrom q = P := by
  obtain ⟨hp, hge, _, hmin'⟩ := leastPrimeFrom_spec q
  by_contra hne
  rcases Nat.lt_or_ge (leastPrimeFrom q) P with h | h
  · exact hmin _ hge h hp
  · exact hmin' P hq (by omega) hP

/-- Stepping past an odd composite does not change the next prime. -/
theorem leastPrimeFrom_comp_step (q : Nat) (hq3 : 3 ≤ q) (hodd : q % 2 = 1)
    (hcomp : ¬ Nat.Prime q) : leastPrimeFrom (q+2) = leastPrimeFrom q := by
  obtain ⟨hp, hge, _, hmin⟩ := leastPrimeFrom_spec q
  have hne1 : leastPrimeFrom q ≠ q := fun h => hcomp (h ▸ hp)
  have hne2 : leastPrimeFrom q ≠ q + 1 := by
    intro h
    have := hp.eq_two_or_odd
    omega
  exact leastPrimeFrom_unique (q+2) (leastPrimeFrom q) hp (by omega)
    (fun j h1 h2 => hmin j (by omega) h2)

/-- One pull from the cookbook stream at an odd candidate with the
invariant yields the least prime `≥ q` and preserves the invariant. -/
theorem cookbookNext_pull :
    ∀ fuel q t, CookInv t q → 3 ≤ q → q % 2 = 1 →
      (leastPrimeFrom q - q) / 2 + 1 ≤ fuel →
      ∃ t', cookbookNext fuel ⟨false, t, q⟩ =
          some (leastPrimeFrom q, ⟨false, t', leastPrimeFrom q + 2⟩) ∧
        CookInv t' (leastPrimeFrom q + 2) := by
  intro fuel
  induction fuel with
  | zero =>
    intro q t _ _ _ h
    omega
  | succ f ih =>
    intro q t hInv hq hodd hfuel
    rw [cookbookNext]
    dsimp only
    rw [if_neg (by simp)]
    cases hfind : alFind? q t with
    | some p =>
      have hqt : (q, p) ∈ t := (alFind?_some q p t hInv.1).mp hfind
      obtain ⟨_, hpdvd, _, hpprime, hp3, hpltq⟩ := hInv.2.1 (q, p) hqt
      have hpodd : p % 2 = 1 := hpprime.eq_two_or_odd.resolve_left (by omega)
      obtain ⟨x, hx⟩ := cookbookProbe_success p (alErase q t) (p + q) hpodd
      dsimp only
      rw [hx]
      dsimp only
      have hcomp : ¬ Nat.Prime q :=
        (cook_mem_iff t q hInv hq hodd).mp (List.mem_map.mpr ⟨(q, p), hqt, rfl⟩)
      have hInv' : CookInv (alInsert x p (alErase q t)) (q + 2) :=
        cookInv_stepA t q p x hInv hq hodd hfind hx
      have hlq : leastPrimeFrom (q + 2) = leastPrimeFrom q :=
        leastPrimeFrom_comp_step q hq hodd hcomp
      have hge := (leastPrimeFrom_spec q).2.1
      have hneq : leastPrimeFrom q ≠ q := fun h => hcomp (h ▸ (leastPrimeFrom_spec q).1)
      have hPodd := (leastPrimeFrom_odd q hq hodd).1
      have hfuel' : (leastPrimeFrom (q+2) - (q+2)) / 2 + 1 ≤ f := by
        rw [hlq]
        omega
      obtain ⟨t', ht', hInv''⟩ :=
        ih (q + 2) (alInsert x p (alErase q t)) hInv' (by omega) (by omega) hfuel'
      rw [hlq] at ht' hInv''
      exact ⟨t', ht', hInv''⟩
    | none =>
      have hqnot : q ∉ alKeys t := (alFind?_none q t).mp hfind
      have hprime : Nat.Prime q := by
        by_contra hcomp
        exact hqnot ((cook_mem_iff t q hInv hq hodd).mpr hcomp)
      have hP : leastPrimeFrom q = q :=
        leastPrimeFrom_unique q q hprime (le_refl q)
          (fun j h1 h2 => (by omega : False).elim)
      rw [hP]
      exact ⟨alInsert (q*q) q t, rfl, cookInv_stepB t q hInv hq hodd hprime⟩

/-- Collecting from the cookbook stream with the invariant returns
exactly the primes in `[q, B]`. -/
theorem cookbook_collect (B : Nat) :
    ∀ k q t, CookInv t q → 3 ≤ q → q % 2 = 1 → q ≤ B + 2 →
      (primesSeg q B).length < k →
      collectUpto (cookbookNext (B + 3)) k B ⟨false, t, q⟩ = some (primesSeg q B) := by
  intro k
  induction k with
  | zero =>
    intro q t _ _ _ _ h
    omega
  | succ k' ih =>
    intro q t hInv hq hodd hqB hlen
    obtain ⟨hPp, hPge, hPub, hPmin⟩ := leastPrimeFrom_spec q
    have hfuel : (leastPrimeFrom q - q) / 2 + 1 ≤ B + 3 := by omega
    obtain ⟨t', hpull, hInv'⟩ := cookbookNext_pull (B + 3) q t hInv hq hodd hfuel
    rw [collectUpto, hpull]
    dsimp only
    by_cases hPB : leastPrimeFrom q ≤ B
    · rw [if_pos hPB]
      have hPodd := (leastPrimeFrom_odd q hq hodd).1
      have hnotnext := (leastPrimeFrom_odd q hq hodd).2.1
      have hseg : primesSeg q B = leastPrimeFrom q :: primesSeg (leastPrimeFrom q + 2) B :=
        primesSeg_cons q B (leastPrimeFrom q) hPp hPge hPB hPmin hnotnext
      have hlen' : (primesSeg (leastPrimeFrom q + 2) B).length < k' := by
        rw [hseg] at hlen
        simp only [List.length_cons] at hlen
        omega
      rw [ih (leastPrimeFrom q + 2) t' hInv' (by omega) (by omega) (by omega) hlen', hseg]
      rfl
    · rw [if_neg hPB]
      have hempty : primesSeg q B = [] :=
        primesSeg_of_no_primes q B (fun j h1 h2 => hPmin j h1 (by omega))
      rw [hempty]

/-- The first pull from `cookbookInit` yields the preamble prime 2. -/
theorem cookbookNext_init (fuel : Nat) :
    cookbookNext (fuel + 1) cookbookInit = some (2, ⟨false, [], 3⟩) := by
  rw [cookbookNext]
  rfl

/-- The invariant holds at the start of the odd-candidate phase. -/
theorem cookInv_init : CookInv [] 3 := by
  refine ⟨List.nodup_nil, ?_, ?_, ?_⟩
  · intro e he
    exact absurd he (List.not_mem_nil e)
  · intro p hp h3 hlt
    exact absurd hlt (by omega)
  · intro m hm hge hex
    obtain ⟨p, hp, h3, hlt, _⟩ := hex
    exact absurd hlt (by omega)

/-- For `B ≥ 2` the primes below `B+1` are `2` followed by the odd-phase
segment starting at 3. -/
theorem primesUpTo_eq_cons (B : Nat) (hB : 2 ≤ B) :
    primesUpTo (B + 1) = 2 :: primesSeg 3 B := by
  unfold primesUpTo primesSeg
  rw [List.range_eq_range']
  obtain ⟨m, hm⟩ : ∃ m, B + 1 - 3 = m := ⟨_, rfl⟩
  rw [hm, show B + 1 = m + 3 by omega]
  have h := List.range'_append 0 3 m 1
  simp only [one_mul] at h
  rw [← h, List.filter_append]
  rfl

/-- `cookbook()` truncated at `B` produces exactly the primes `≤ B`. -/
theorem cookbook_correct (B k : Nat) (hB : 2 ≤ B) (hk : (primesSeg 3 B).length + 2 ≤ k) :
    collectUpto (cookbookNext (B + 3)) k B cookbookInit = some (primesUpTo (B + 1)) := by
  obtain ⟨k', rfl⟩ : ∃ k', k = k' + 1 := ⟨k - 1, by omega⟩
  rw [collectUpto, show cookbookNext (B + 3) cookbookInit = some (2, ⟨false, [], 3⟩) from
    cookbookNext_init (B+2)]
  dsimp only
  rw [if_pos (by omega : 2 ≤ B)]
  rw [cookbook_collect B k' 3 [] cookInv_init (by omega) (by omega) (by omega) (by omega)]
  rw [primesUpTo_eq_cons B hB]
  rfl

/-! ### Correctness of `croft()`

The Croft spiral masks candidates by their residue mod 30 and keeps the
two never-consulted seed entries `(9,3)` and `(25,5)`; otherwise the
verification mirrors `cookbook()`. -/

theorem primeroots_contains_iff (r : Nat) : primeroots.contains r = true ↔ r ∈ primeroots :=
  List.elem_iff

/-- Squares of units mod 30 are units. -/
theorem primeroots_sq : ∀ a, a < 30 → a ∈ primeroots → (a * a) % 30 ∈ primeroots := by decide

/-- The `selectors` mask agrees with the `primeroots` residue test along
the candidate wheel. -/
theorem primeroots_mask :
    ∀ i, i < 15 → ((selectors.getD i 0 = 1) ↔ (7 + 2 * i) % 30 ∈ primeroots) := by decide

/-- In any window of 15 steps of an arithmetic progression with odd start
and step twice a unit mod 30, some position lands on a unit residue. -/
theorem primeroots_free :
    ∀ a, a < 30 → ∀ b, b < 30 →
      (¬ a % 2 = 1 ∨ b ∉ primeroots ∨
        ∃ j, j < 15 ∧ (a + j * (2 * b)) % 30 ∈ primeroots) := by decide

theorem primeroots_coprime :
    ∀ a, a < 30 → a ∈ primeroots → a % 2 = 1 ∧ a % 3 ≠ 0 ∧ a % 5 ≠ 0 := by decide

theorem primeroots_covered :
    ∀ a, a < 30 → (a % 2 = 0 ∨ a % 3 = 0 ∨ a % 5 = 0 ∨ a ∈ primeroots) := by decide

theorem coprime30_props (m : Nat) (h : m % 30 ∈ primeroots) :
    m % 2 = 1 ∧ ¬ (3 ∣ m) ∧ ¬ (5 ∣ m) := by
  have h30 := Nat.mod_lt m (show 0 < 30 by omega)
  obtain ⟨h2, h3, h5⟩ := primeroots_coprime (m % 30) h30 h
  refine ⟨by omega, ?_, ?_⟩
  · intro hd
    have := Nat.mod_eq_zero_of_dvd hd
    omega
  · intro hd
    have := Nat.mod_eq_zero_of_dvd hd
    omega

/-- Primes `≥ 7` are units mod 30. -/
theorem prime_ge7_coprime30 (p : Nat) (hp : Nat.Prime p) (h7 : 7 ≤ p) :
    p % 30 ∈ primeroots := by
  have h2 : ¬ (2 ∣ p) := fun h => by
    rcases hp.eq_one_or_self_of_dvd 2 h with h' | h' <;> omega
  have h3 : ¬ (3 ∣ p) := fun h => by
    rcases hp.eq_one_or_self_of_dvd 3 h with h' | h' <;> omega
  have h5 : ¬ (5 ∣ p) := fun h => by
    rcases hp.eq_one_or_self_of_dvd 5 h with h' | h' <;> omega
  have h2' : p % 2 ≠ 0 := fun h => h2 (Nat.dvd_of_mod_eq_zero h)
  have h3' : p % 3 ≠ 0 := fun h => h3 (Nat.dvd_of_mod_eq_zero h)
  have h5' : p % 5 ≠ 0 := fun h => h5 (Nat.dvd_of_mod_eq_zero h)
  rcases primeroots_covered (p % 30) (Nat.mod_lt p (by omega)) with h | h | h | h
  · exact absurd h (by omega)
  · exact absurd h (by omega)
  · exact absurd h (by omega)
  · exact h

/-- Odd numbers `≥ 7` that the mask rejects are composite. -/
theorem noncoprime_odd_not_prime (q : Nat) (h7 : 7 ≤ q) (hncop : q % 30 ∉ primeroots) :
    ¬ Nat.Prime q :=
  fun hp => hncop (prime_ge7_coprime30 q hp h7)

/-- The croft invariant at state `⟨[], t, q, idx⟩`: the mask index is in
sync with the candidate, keys are distinct, every entry maps a multiple
of its tracked prime, consulted (unit-residue) keys are current, all
primes `7 ≤ p < q` are tracked, and every unit-residue multiple `≥ q` of
a tracked prime `≥ 7` is covered by an entry with unit-residue key. -/
def CroftInv (t : List (Nat × Nat)) (q idx : Nat) : Prop :=
  idx < 15 ∧ q % 30 = (7 + 2 * idx) % 30 ∧ q % 2 = 1 ∧ 7 ≤ q ∧
  (alKeys t).Nodup ∧
  (∀ e ∈ t, e.2 ∣ e.1 ∧ Nat.Prime e.2 ∧ 3 ≤ e.2 ∧ e.2 < q ∧
    (e.1 % 30 ∈ primeroots → q ≤ e.1)) ∧
  (∀ p, Nat.Prime p → 7 ≤ p → p < q → ∃ e ∈ t, e.2 = p) ∧
  (∀ m, m % 30 ∈ primeroots → q ≤ m → (∃ p, Nat.Prime p ∧ 7 ≤ p ∧ p < q ∧ p ∣ m) →
    ∃ e ∈ t, e.2 ∣ m ∧ e.1 ≤ m ∧ e.1 % 30 ∈ primeroots)

/-- At a unit-residue candidate, table membership is exactly compositeness. -/
theorem croft_mem_iff (t : List (Nat × Nat)) (q idx : Nat) (hInv : CroftInv t q idx)
    (hcop : q % 30 ∈ primeroots) : (q ∈ alKeys t ↔ ¬ Nat.Prime q) := by
  obtain ⟨hidx, hqidx, hodd, hq7, hnd, hK1, hK3, hK4⟩ := hInv
  constructor
  · intro hmem
    simp only [alKeys, List.mem_map] at hmem
    obtain ⟨e, he, hek⟩ := hmem
    obtain ⟨hdvd, hp, h3, hlt, _⟩ := hK1 e he
    intro hprime
    rcases hprime.eq_one_or_self_of_dvd e.2 (hek ▸ hdvd) with h | h <;> omega
  · intro hcomp
    obtain ⟨hm2, hm3, hm5⟩ := coprime30_props q hcop
    have h1 : q ≠ 1 := by omega
    have hpf := Nat.minFac_prime h1
    have hdvd := Nat.minFac_dvd q
    have hge7 : 7 ≤ Nat.minFac q := by
      have h2 := hpf.two_le
      have hne2 : Nat.minFac q ≠ 2 := by
        intro h
        have h2d : (2:Nat) ∣ q := h ▸ hdvd
        have := Nat.mod_eq_zero_of_dvd h2d
        omega
      have hne3 : Nat.minFac q ≠ 3 := fun h => hm3 (h ▸ hdvd)
      have hne5 : Nat.minFac q ≠ 5 := fun h => hm5 (h ▸ hdvd)
      have hne4 : Nat.minFac q ≠ 4 := fun h => absurd (h ▸ hpf) (by decide)
      have hne6 : Nat.minFac q ≠ 6 := fun h => absurd (h ▸ hpf) (by decide)
      omega
    have hltq : Nat.minFac q < q := by
      have hle := Nat.minFac_le (show 0 < q by omega)
      rcases Nat.eq_or_lt_of_le hle with h | h
      · exact absurd (h ▸ hpf) hcomp
      · exact h
    obtain ⟨e, he, hedvd, hele, hecop⟩ :=
      hK4 q hcop (le_refl q) ⟨Nat.minFac q, hpf, hge7, hltq, hdvd⟩
    have hub := (hK1 e he).2.2.2.2 hecop
    simp only [alKeys, List.mem_map]
    exact ⟨e, he, by omega⟩

/-- What a successful croft probe returns. -/
theorem croftProbe_some_spec (p : Nat) (t : List (Nat × Nat)) :
    ∀ fuel x y, croftProbe p t fuel x = some y →
      ∃ j, j < fuel ∧ y = x + j * (2 * p) ∧ y % 30 ∈ primeroots ∧ y ∉ alKeys t ∧
        ∀ i, i < j → (x + i * (2 * p) ∈ alKeys t ∨ (x + i * (2 * p)) % 30 ∉ primeroots) := by
  intro fuel
  induction fuel with
  | zero => intro x y h; exact Option.noConfusion h
  | succ f ih =>
    intro x y h
    rw [croftProbe] at h
    by_cases hc : (alMem x t || ! (primeroots.contains (x % 30))) = true
    · rw [if_pos hc] at h
      obtain ⟨j, hj, hy, hcop, hmem, hskip⟩ := ih (x + 2*p) y h
      refine ⟨j + 1, by omega, by rw [hy]; ring, hcop, hmem, ?_⟩
      intro i hi
      cases i with
      | zero =>
        simp only [Nat.zero_mul, Nat.add_zero]
        rw [Bool.or_eq_true] at hc
        rcases hc with h' | h'
        · exact Or.inl ((alMem_iff_mem_keys x t).mp h')
        · refine Or.inr fun hm => ?_
          rw [(primeroots_contains_iff (x % 30)).mpr hm] at h'
          simp at h'
      | succ i' =>
        have hsk := hskip i' (by omega)
        rw [show x + (i' + 1) * (2 * p) = x + 2*p + i' * (2 * p) by ring]
        exact hsk
    · rw [if_neg hc] at h
      cases h
      refine ⟨0, by omega, by simp, ?_, ?_, by omega⟩
      · by_contra hm
        apply hc
        rw [Bool.or_eq_true]
        refine Or.inr ?_
        have : primeroots.contains (x % 30) = false := by
          cases hcc : primeroots.contains (x % 30)
          · rfl
          · exact absurd ((primeroots_contains_iff (x % 30)).mp hcc) hm
        rw [this]
        rfl
      · intro hmem
        apply hc
        rw [Bool.or_eq_true]
        exact Or.inl ((alMem_iff_mem_keys x t).mpr hmem)

/-- The croft probe succeeds if some reachable position is a free unit
residue. -/
theorem croftProbe_isSome (p : Nat) (t : List (Nat × Nat)) :
    ∀ fuel x, (∃ j, j < fuel ∧ (x + j * (2 * p)) % 30 ∈ primeroots ∧
        x + j * (2 * p) ∉ alKeys t) →
      ∃ y, croftProbe p t fuel x = some y := by
  intro fuel
  induction fuel with
  | zero =>
    rintro x ⟨j, hj, _⟩
    omega
  | succ f ih =>
    rintro x ⟨j, hj, hcop, hmem⟩
    rw [croftProbe]
    by_cases hc : (alMem x t || ! (primeroots.contains (x % 30))) = true
    · rw [if_pos hc]
      apply ih
      have hj0 : j ≠ 0 := by
        rintro rfl
        simp only [Nat.zero_mul, Nat.add_zero] at hcop hmem
        rw [Bool.or_eq_true] at hc
        rcases hc with h | h
        · exact hmem ((alMem_iff_mem_keys x t).mp h)
        · rw [(primeroots_contains_iff (x % 30)).mpr hcop] at h
          simp at h
      obtain ⟨j', rfl⟩ : ∃ j', j = j' + 1 := ⟨j - 1, by omega⟩
      refine ⟨j', by omega, ?_, ?_⟩
      · rw [show x + 2*p + j' * (2 * p) = x + (j' + 1) * (2 * p) by ring]
        exact hcop
      · rw [show x + 2*p + j' * (2 * p) = x + (j' + 1) * (2 * p) by ring]
        exact hmem
    · rw [if_neg hc]
      exact ⟨x, rfl⟩

/-- Pigeonhole for the croft probe: `15*(L+2)` positions hold at least
`L+2` distinct unit-residue positions, more than the `L` keys. -/
theorem croft_pigeonhole (p : Nat) (t : List (Nat × Nat)) (x : Nat)
    (hx : x % 2 = 1) (hp : p % 30 ∈ primeroots) :
    ∃ j, j < 15 * (t.length + 2) ∧ (x + j * (2 * p)) % 30 ∈ primeroots ∧
      x + j * (2 * p) ∉ alKeys t := by
  have hkey : ∀ j : Nat, (x + j * (2 * p)) % 30 = (x % 30 + j * (2 * (p % 30))) % 30 := by
    intro j
    have h1 : x % 30 + j * (2 * (p % 30)) ≡ x + j * (2 * p) [MOD 30] :=
      (Nat.mod_modEq x 30).add (((Nat.mod_modEq p 30).mul_left 2).mul_left j)
    exact h1.symm
  obtain ⟨j₀, hj₀, hj₀cop⟩ : ∃ j, j < 15 ∧ (x % 30 + j * (2 * (p % 30))) % 30 ∈ primeroots := by
    rcases primeroots_free (x % 30) (Nat.mod_lt x (by omega)) (p % 30)
        (Nat.mod_lt p (by omega)) with h | h | h
    · exact absurd (by omega) h
    · exact absurd hp h
    · exact h
  have hp7 : 1 ≤ p := by
    rcases Nat.eq_zero_or_pos p with rfl | h
    · simp [primeroots] at hp
    · exact h
  have hcopall : ∀ i : Nat, (x + (j₀ + 15*i) * (2 * p)) % 30 ∈ primeroots := by
    intro i
    have hsplit : x + (j₀ + 15*i) * (2 * p) = (x + j₀ * (2 * p)) + 30 * (i * p) := by ring
    rw [hsplit, Nat.add_mul_mod_self_left, hkey j₀]
    exact hj₀cop
  by_contra hcon
  push_neg at hcon
  have hmem : ∀ i, i < t.length + 2 → x + (j₀ + 15*i) * (2 * p) ∈ alKeys t := by
    intro i hi
    exact hcon _ (by omega) (hcopall i)
  have hcard : ((Finset.range (t.length + 2)).image (fun i => x + (j₀ + 15*i) * (2 * p))).card
      = t.length + 2 := by
    rw [Finset.card_image_of_injOn, Finset.card_range]
    intro i _ i' _ h
    simp only at h
    have h2 : (j₀ + 15*i) * (2 * p) = (j₀ + 15*i') * (2 * p) := by omega
    have h3 : j₀ + 15*i = j₀ + 15*i' := Nat.eq_of_mul_eq_mul_right (by omega) h2
    omega
  have hsub : (Finset.range (t.length + 2)).image (fun i => x + (j₀ + 15*i) * (2 * p))
      ⊆ (alKeys t).toFinset := by
    intro y hy
    simp only [Finset.mem_image, Finset.mem_range] at hy
    obtain ⟨i, hi, rfl⟩ := hy
    exact List.mem_toFinset.mpr (hmem i hi)
  have h1 := Finset.card_le_card hsub
  have h2 := List.toFinset_card_le (alKeys t)
  have h3 : (alKeys t).length = t.length := by simp [alKeys]
  rw [hcard] at h1
  omega

theorem croftProbe_success (p : Nat) (t : List (Nat × Nat)) (x : Nat)
    (hx : x % 2 = 1) (hp : p % 30 ∈ primeroots) :
    ∃ y, croftProbe p t (15 * (t.length + 2)) x = some y :=
  croftProbe_isSome p t _ x (croft_pigeonhole p t x hx hp)

/-- A tracked prime dividing a unit-residue key is at least 7. -/
theorem tracked_prime_ge7 (q p : Nat) (hpdvd : p ∣ q) (hpprime : Nat.Prime p)
    (hq : q % 30 ∈ primeroots) : 7 ≤ p := by
  obtain ⟨hq2, hq3d, hq5d⟩ := coprime30_props q hq
  have h2 := hpprime.two_le
  have hne2 : p ≠ 2 := by
    intro h
    have h2d : (2:Nat) ∣ q := h ▸ hpdvd
    have := Nat.mod_eq_zero_of_dvd h2d
    omega
  have hne3 : p ≠ 3 := fun h => hq3d (h ▸ hpdvd)
  have hne5 : p ≠ 5 := fun h => hq5d (h ▸ hpdvd)
  have hne4 : p ≠ 4 := fun h => absurd (h ▸ hpprime) (by decide)
  have hne6 : p ≠ 6 := fun h => absurd (h ▸ hpprime) (by decide)
  omega

/-- Skipping a masked candidate preserves the croft invariant. -/
theorem croftInv_skip (t : List (Nat × Nat)) (q idx : Nat)
    (hInv : CroftInv t q idx) (hncop : q % 30 ∉ primeroots) :
    CroftInv t (q + 2) ((idx + 1) % 15) := by
  obtain ⟨hidx, hqidx, hodd, hq7, hnd, hK1, hK3, hK4⟩ := hInv
  refine ⟨by omega, by omega, by omega, by omega, hnd, ?_, ?_, ?_⟩
  · intro e he
    obtain ⟨h1, h2, h3, h4, h5⟩ := hK1 e he
    refine ⟨h1, h2, h3, by omega, ?_⟩
    intro hcop
    have h6 := h5 hcop
    have hne : e.1 ≠ q := fun h => hncop (h ▸ hcop)
    have heodd : e.1 % 2 = 1 := (coprime30_props e.1 hcop).1
    omega
  · intro p' hp' h7' hlt'
    have hp'cop := prime_ge7_coprime30 p' hp' h7'
    have hne1 : p' ≠ q := fun h => hncop (h ▸ hp'cop)
    have hodd' : p' % 2 = 1 := (coprime30_props p' hp'cop).1
    exact hK3 p' hp' h7' (by omega)
  · intro m hmcop hmge hex
    obtain ⟨p'', hp'', h7'', hlt'', hdvd''⟩ := hex
    have hp''cop := prime_ge7_coprime30 p'' hp'' h7''
    have hne1 : p'' ≠ q := fun h => hncop (h ▸ hp''cop)
    have hodd'' : p'' % 2 = 1 := (coprime30_props p'' hp''cop).1
    exact hK4 m hmcop (by omega) ⟨p'', hp'', h7'', by omega, hdvd''⟩

/-- Invariant preservation, composite unit-residue candidate: the entry
at `q` moves to the next free unit-residue multiple of its prime. -/
theorem croftInv_stepA (t : List (Nat × Nat)) (q idx p x : Nat)
    (hInv : CroftInv t q idx) (hcop : q % 30 ∈ primeroots)
    (hfind : alFind? q t = some p)
    (hprobe : croftProbe p (alErase q t) (15 * ((alErase q t).length + 2)) (q + 2*p) = some x) :
    CroftInv (alInsert x p (alErase q t)) (q + 2) ((idx + 1) % 15) := by
  obtain ⟨hidx, hqidx, hodd, hq7, hnd, hK1, hK3, hK4⟩ := hInv
  have hqt : (q, p) ∈ t := (alFind?_some q p t hnd).mp hfind
  obtain ⟨hpdvd, hpprime, hp3, hpltq, _⟩ := hK1 (q, p) hqt
  have hp7 : 7 ≤ p := tracked_prime_ge7 q p hpdvd hpprime hcop
  have hpcop := prime_ge7_coprime30 p hpprime hp7
  have hpodd : p % 2 = 1 := (coprime30_props p hpcop).1
  have hcompq : ¬ Nat.Prime q :=
    (croft_mem_iff t q idx ⟨hidx, hqidx, hodd, hq7, hnd, hK1, hK3, hK4⟩ hcop).mp
      (List.mem_map.mpr ⟨(q, p), hqt, rfl⟩)
  set t' := alErase q t with ht'
  have hnd' : (alKeys t').Nodup := alErase_nodup q t hnd
  have hmem' : ∀ e : Nat × Nat, e ∈ t' ↔ e ∈ t ∧ e.1 ≠ q := alErase_mem q t hnd
  obtain ⟨j, hjf, hx, hxcop, hxfree, hskip⟩ := croftProbe_some_spec p t' _ _ x hprobe
  have hxq : q + 2 ≤ x := by omega
  have hxp : p ∣ x := by
    rw [hx]
    exact dvd_add (dvd_add hpdvd ⟨2, by ring⟩) ⟨2 * j, by ring⟩
  have hins := alInsert_mem_of_fresh x p t' hxfree
  refine ⟨by omega, by omega, by omega, by omega,
    alInsert_nodup_of_fresh x p t' hxfree hnd', ?_, ?_, ?_⟩
  · intro e he
    rcases (hins e).mp he with he' | rfl
    · obtain ⟨he1, he2⟩ := (hmem' e).mp he'
      obtain ⟨h1, h2, h3, h4, h5⟩ := hK1 e he1
      refine ⟨h1, h2, h3, by omega, ?_⟩
      intro hcope
      have h6 := h5 hcope
      have heodd : e.1 % 2 = 1 := (coprime30_props e.1 hcope).1
      omega
    · exact ⟨hxp, hpprime, hp3, by omega, fun _ => by omega⟩
  · intro p' hp' h7' hlt'
    have hp'cop := prime_ge7_coprime30 p' hp' h7'
    have hodd' : p' % 2 = 1 := (coprime30_props p' hp'cop).1
    have hne2 : p' ≠ q := fun h => hcompq (h ▸ hp')
    obtain ⟨e, he, hep⟩ := hK3 p' hp' h7' (by omega)
    by_cases heq : e.1 = q
    · have hee : e = (q, p) := alKeys_nodup_unique e (q, p) t hnd he hqt heq
      refine ⟨(x, p), (hins _).mpr (Or.inr rfl), ?_⟩
      rw [← hep, hee]
    · exact ⟨e, (hins e).mpr (Or.inl ((hmem' e).mpr ⟨he, heq⟩)), hep⟩
  · intro m hmcop hmge hex
    obtain ⟨p'', hp'', h7'', hlt'', hdvd''⟩ := hex
    have hodd'' : p'' % 2 = 1 := (coprime30_props p'' (prime_ge7_coprime30 p'' hp'' h7'')).1
    have hne2 : p'' ≠ q := fun h => hcompq (h ▸ hp'')
    obtain ⟨e, he, hedvd, hele, hecop⟩ :=
      hK4 m hmcop (by omega) ⟨p'', hp'', h7'', by omega, hdvd''⟩
    by_cases heq : e.1 = q
    · have hee : e = (q, p) := alKeys_nodup_unique e (q, p) t hnd he hqt heq
      have hpm : p ∣ m := by
        rw [hee] at hedvd
        exact hedvd
      have hmodd : m % 2 = 1 := (coprime30_props m hmcop).1
      rcases Nat.lt_or_ge m x with hmx | hxm
      · obtain ⟨k, hk⟩ := Nat.dvd_sub' hpm hpdvd
        have hk1 : 1 ≤ k := by
          rcases Nat.eq_zero_or_pos k with rfl | h
          · simp at hk
            omega
          · exact h
        have hkpar : (p * k) % 2 = k % 2 := by
          conv_lhs => rw [Nat.mul_mod, hpodd]
          omega
        have hkeven : k % 2 = 0 := by omega
        obtain ⟨l, rfl⟩ : ∃ l, k = 2 * l + 2 := ⟨(k - 2)/2, by omega⟩
        have hrel2 : p * (2 * l + 2) = 2*p + l * (2 * p) := by ring
        have hmpos : m = (q + 2*p) + l * (2 * p) := by omega
        have hlt3 : l * (2 * p) < j * (2 * p) := by omega
        have hlj : l < j := Nat.lt_of_mul_lt_mul_right hlt3
        rcases hskip l hlj with hmem2 | hncop2
        · rw [← hmpos] at hmem2
          simp only [alKeys, List.mem_map] at hmem2
          obtain ⟨e', he', hek⟩ := hmem2
          obtain ⟨he1, _⟩ := (hmem' e').mp he'
          obtain ⟨hd, _, _, _, _⟩ := hK1 e' he1
          rw [hek] at hd
          refine ⟨e', (hins e').mpr (Or.inl he'), hd, by omega, ?_⟩
          rw [hek]
          exact hmcop
        · rw [← hmpos] at hncop2
          exact absurd hmcop hncop2
      · exact ⟨(x, p), (hins _).mpr (Or.inr rfl), hpm, hxm, hxcop⟩
    · exact ⟨e, (hins e).mpr (Or.inl ((hmem' e).mpr ⟨he, heq⟩)), hedvd, hele, hecop⟩

/-- Invariant preservation, prime unit-residue candidate: `(q², q)`
enters the table. -/
theorem croftInv_stepB (t : List (Nat × Nat)) (q idx : Nat)
    (hInv : CroftInv t q idx) (hcop : q % 30 ∈ primeroots) (hprime : Nat.Prime q) :
    CroftInv (alInsert (q * q) q t) (q + 2) ((idx + 1) % 15) := by
  obtain ⟨hidx, hqidx, hodd, hq7, hnd, hK1, hK3, hK4⟩ := hInv
  have hqnot : q ∉ alKeys t := fun h =>
    (croft_mem_iff t q idx ⟨hidx, hqidx, hodd, hq7, hnd, hK1, hK3, hK4⟩ hcop).mp h hprime
  have hsqfresh : q * q ∉ alKeys t := by
    intro h
    simp only [alKeys, List.mem_map] at h
    obtain ⟨e, he, hek⟩ := h
    obtain ⟨hd, hep, h3, hlt, _⟩ := hK1 e he
    rw [hek] at hd
    have hd' : e.2 ∣ q := hep.dvd_of_dvd_pow (show e.2 ∣ q ^ 2 by rw [pow_two]; exact hd)
    rcases hprime.eq_one_or_self_of_dvd e.2 hd' with h' | h' <;> omega
  have hsqcop : (q * q) % 30 ∈ primeroots := by
    rw [Nat.mul_mod]
    exact primeroots_sq (q % 30) (Nat.mod_lt q (by omega)) hcop
  have hins := alInsert_mem_of_fresh (q * q) q t hsqfresh
  refine ⟨by omega, by omega, by omega, by omega,
    alInsert_nodup_of_fresh (q*q) q t hsqfresh hnd, ?_, ?_, ?_⟩
  · intro e he
    rcases (hins e).mp he with he' | rfl
    · obtain ⟨hd, hp, h3, hlt, hcnd⟩ := hK1 e he'
      refine ⟨hd, hp, h3, by omega, ?_⟩
      intro hcope
      have h6 := hcnd hcope
      have hne : e.1 ≠ q := fun h => hqnot (List.mem_map.mpr ⟨e, he', h⟩)
      have heodd : e.1 % 2 = 1 := (coprime30_props e.1 hcope).1
      omega
    · refine ⟨dvd_mul_left q q, hprime, by omega, by omega, fun _ => ?_⟩
      have h33 : 3 * q ≤ q * q := Nat.mul_le_mul_right q (by omega)
      omega
  · intro p' hp' h7' hlt'
    have hp'cop := prime_ge7_coprime30 p' hp' h7'
    have hodd' : p' % 2 = 1 := (coprime30_props p' hp'cop).1
    rcases Nat.lt_or_ge p' q with h | h
    · obtain ⟨e, he, hep⟩ := hK3 p' hp' h7' h
      exact ⟨e, (hins e).mpr (Or.inl he), hep⟩
    · have hpq : p' = q := by omega
      exact ⟨(q*q, q), (hins _).mpr (Or.inr rfl), hpq.symm⟩
  · intro m hmcop hmge hex
    obtain ⟨p'', hp'', h7'', hlt'', hdvd''⟩ := hex
    by_cases hsmall : ∃ p₃, Nat.Prime p₃ ∧ 7 ≤ p₃ ∧ p₃ < q ∧ p₃ ∣ m
    · obtain ⟨e, he, hedvd, hele, hecop⟩ := hK4 m hmcop (by omega) hsmall
      exact ⟨e, (hins e).mpr (Or.inl he), hedvd, hele, hecop⟩
    · push_neg at hsmall
      have hodd'' : p'' % 2 = 1 := (coprime30_props p'' (prime_ge7_coprime30 p'' hp'' h7'')).1
      have hp''q : p'' = q := by
        rcases Nat.lt_or_ge p'' q with h | h
        · exact absurd hdvd'' (hsmall p'' hp'' h7'' h)
        · omega
      rw [hp''q] at hdvd''
      obtain ⟨hm2, hm3, hm5⟩ := coprime30_props m hmcop
      have hqq : q * q ≤ m := by
        by_contra hcon
        push_neg at hcon
        obtain ⟨r, hr⟩ := hdvd''
        have hr1 : r ≠ 0 := by
          rintro rfl
          rw [Nat.mul_zero] at hr
          omega
        have hrq : r < q := by
          by_contra hge
          push_neg at hge
          have : q * q ≤ q * r := Nat.mul_le_mul_left q hge
          omega
        have hrdvd : r ∣ m := ⟨q, by rw [hr]; ring⟩
        have h1 : r ≠ 1 := by
          intro h
          rw [h, Nat.mul_one] at hr
          omega
        have hpf := Nat.minFac_prime h1
        have hdpf := Nat.minFac_dvd r
        have hpfm : Nat.minFac r ∣ m := hdpf.trans hrdvd
        have hge7 : 7 ≤ Nat.minFac r := by
          have h2 := hpf.two_le
          have hne2 : Nat.minFac r ≠ 2 := by
            intro h
            have h2d : (2:Nat) ∣ m := h ▸ hpfm
            have := Nat.mod_eq_zero_of_dvd h2d
            omega
          have hne3 : Nat.minFac r ≠ 3 := fun h => hm3 (h ▸ hpfm)
          have hne5 : Nat.minFac r ≠ 5 := fun h => hm5 (h ▸ hpfm)
          have hne4 : Nat.minFac r ≠ 4 := fun h => absurd (h ▸ hpf) (by decide)
          have hne6 : Nat.minFac r ≠ 6 := fun h => absurd (h ▸ hpf) (by decide)
          omega
        have hpflt : Nat.minFac r < q := by
          have := Nat.minFac_le (show 0 < r by omega)
          omega
        exact absurd hpfm (hsmall _ hpf hge7 hpflt)
      exact ⟨(q*q, q), (hins _).mpr (Or.inr rfl), hdvd'', hqq, hsqcop⟩

/-- One pull from the croft stream at a synced candidate yields the
least prime `≥ q` and preserves the invariant. -/
theorem croftNext_pull :
    ∀ fuel q idx t, CroftInv t q idx →
      (leastPrimeFrom q - q) / 2 + 1 ≤ fuel →
      ∃ t' idx', croftNext fuel ⟨[], t, q, idx⟩ =
          some (leastPrimeFrom q, ⟨[], t', leastPrimeFrom q + 2, idx'⟩) ∧
        CroftInv t' (leastPrimeFrom q + 2) idx' := by
  intro fuel
  induction fuel with
  | zero =>
    intro q idx t _ h
    omega
  | succ f ih =>
    intro q idx t hInv hfuel
    obtain ⟨hidx, hqidx, hodd, hq7, hnd, hK1, hK3, hK4⟩ := hInv
    have hq3 : 3 ≤ q := by omega
    rw [croftNext]
    dsimp only
    by_cases hmask : q % 30 ∈ primeroots
    · rw [if_pos ((primeroots_mask idx hidx).mpr (by rw [← hqidx]; exact hmask))]
      cases hfind : alFind? q t with
      | some p =>
        have hqt : (q, p) ∈ t := (alFind?_some q p t hnd).mp hfind
        obtain ⟨hpdvd, hpprime, hp3, hpltq, _⟩ := hK1 (q, p) hqt
        have hp7 : 7 ≤ p := tracked_prime_ge7 q p hpdvd hpprime hmask
        have hpcop := prime_ge7_coprime30 p hpprime hp7
        obtain ⟨x, hx⟩ := croftProbe_success p (alErase q t) (q + 2*p) (by omega) hpcop
        dsimp only
        rw [hx]
        dsimp only
        have hcomp : ¬ Nat.Prime q :=
          (croft_mem_iff t q idx ⟨hidx, hqidx, hodd, hq7, hnd, hK1, hK3, hK4⟩ hmask).mp
            (List.mem_map.mpr ⟨(q, p), hqt, rfl⟩)
        have hInv' := croftInv_stepA t q idx p x
          ⟨hidx, hqidx, hodd, hq7, hnd, hK1, hK3, hK4⟩ hmask hfind hx
        have hlq : leastPrimeFrom (q + 2) = leastPrimeFrom q :=
          leastPrimeFrom_comp_step q hq3 hodd hcomp
        have hge := (leastPrimeFrom_spec q).2.1
        have hneq : leastPrimeFrom q ≠ q := fun h => hcomp (h ▸ (leastPrimeFrom_spec q).1)
        have hPodd := (leastPrimeFrom_odd q hq3 hodd).1
        have hfuel' : (leastPrimeFrom (q+2) - (q+2)) / 2 + 1 ≤ f := by
          rw [hlq]
          omega
        obtain ⟨t', idx', ht', hInv''⟩ :=
          ih (q + 2) ((idx + 1) % 15) (alInsert x p (alErase q t)) hInv' hfuel'
        rw [hlq] at ht' hInv''
        exact ⟨t', idx', ht', hInv''⟩
      | none =>
        have hqnot : q ∉ alKeys t := (alFind?_none q t).mp hfind
        have hprime : Nat.Prime q := by
          by_contra hcomp
          exact hqnot
            ((croft_mem_iff t q idx ⟨hidx, hqidx, hodd, hq7, hnd, hK1, hK3, hK4⟩ hmask).mpr hcomp)
        have hP : leastPrimeFrom q = q :=
          leastPrimeFrom_unique q q hprime (le_refl q)
            (fun j h1 h2 => (by omega : False).elim)
        rw [hP]
        exact ⟨alInsert (q*q) q t, (idx + 1) % 15, rfl,
          croftInv_stepB t q idx ⟨hidx, hqidx, hodd, hq7, hnd, hK1, hK3, hK4⟩ hmask hprime⟩
    · have hsel : ¬ (selectors.getD idx 0 = 1) := fun hsel =>
        hmask (by rw [hqidx]; exact (primeroots_mask idx hidx).mp hsel)
      rw [if_neg hsel]
      have hcomp : ¬ Nat.Prime q := noncoprime_odd_not_prime q hq7 hmask
      have hInv' := croftInv_skip t q idx ⟨hidx, hqidx, hodd, hq7, hnd, hK1, hK3, hK4⟩ hmask
      have hlq : leastPrimeFrom (q + 2) = leastPrimeFrom q :=
        leastPrimeFrom_comp_step q hq3 hodd hcomp
      have hge := (leastPrimeFrom_spec q).2.1
      have hneq : leastPrimeFrom q ≠ q := fun h => hcomp (h ▸ (leastPrimeFrom_spec q).1)
      have hPodd := (leastPrimeFrom_odd q hq3 hodd).1
      have hfuel' : (leastPrimeFrom (q+2) - (q+2)) / 2 + 1 ≤ f := by
        rw [hlq]
        omega
      obtain ⟨t', idx', ht', hInv''⟩ := ih (q + 2) ((idx + 1) % 15) t hInv' hfuel'
      rw [hlq] at ht' hInv''
      exact ⟨t', idx', ht', hInv''⟩

/-- Collecting from the croft stream with the invariant returns exactly
the primes in `[q, B]`. -/
theorem croft_collect (B : Nat) :
    ∀ k q idx t, CroftInv t q idx → q ≤ B + 2 →
      (primesSeg q B).length < k →
      collectUpto (croftNext (B + 3)) k B ⟨[], t, q, idx⟩ = some (primesSeg q B) := by
  intro k
  induction k with
  | zero =>
    intro q idx t _ _ h
    omega
  | succ k' ih =>
    intro q idx t hInv hqB hlen
    have hq3 : 3 ≤ q := by
      have := hInv.2.2.2.1
      omega
    have hodd : q % 2 = 1 := hInv.2.2.1
    obtain ⟨hPp, hPge, hPub, hPmin⟩ := leastPrimeFrom_spec q
    have hfuel : (leastPrimeFrom q - q) / 2 + 1 ≤ B + 3 := by omega
    obtain ⟨t', idx', hpull, hInv'⟩ := croftNext_pull (B + 3) q idx t hInv hfuel
    rw [collectUpto, hpull]
    dsimp only
    by_cases hPB : leastPrimeFrom q ≤ B
    · rw [if_pos hPB]
      have hPodd := (leastPrimeFrom_odd q hq3 hodd).1
      have hnotnext := (leastPrimeFrom_odd q hq3 hodd).2.1
      have hseg : primesSeg q B = leastPrimeFrom q :: primesSeg (leastPrimeFrom q + 2) B :=
        primesSeg_cons q B (leastPrimeFrom q) hPp hPge hPB hPmin hnotnext
      have hlen' : (primesSeg (leastPrimeFrom q + 2) B).length < k' := by
        rw [hseg] at hlen
        simp only [List.length_cons] at hlen
        omega
      rw [ih (leastPrimeFrom q + 2) idx' t' hInv' (by omega) hlen', hseg]
      rfl
    · rw [if_neg hPB]
      have hempty : primesSeg q B = [] :=
        primesSeg_of_no_primes q B (fun j h1 h2 => hPmin j h1 (by omega))
      rw [hempty]

/-- Pulling from the croft preamble yields the pending seed prime. -/
theorem croftNext_pre (fuel v : Nat) (rest : List Nat) (t : List (Nat × Nat)) (q idx : Nat) :
    croftNext (fuel + 1) ⟨v :: rest, t, q, idx⟩ = some (v, ⟨rest, t, q, idx⟩) := by
  rw [croftNext]

/-- The croft invariant holds after the preamble at `q = 7`. -/
theorem croftInv_init : CroftInv [(9, 3), (25, 5)] 7 0 := by
  refine ⟨by omega, by norm_num, by norm_num, by norm_num, by decide, ?_, ?_, ?_⟩
  · intro e he
    rcases List.mem_cons.mp he with rfl | he'
    · refine ⟨by decide, by norm_num, by omega, by omega, ?_⟩
      intro hc
      exact absurd hc (by decide)
    · rcases List.mem_cons.mp he' with rfl | he''
      · refine ⟨by decide, by norm_num, by omega, by omega, ?_⟩
        intro hc
        exact absurd hc (by decide)
      · exact absurd he'' (List.not_mem_nil e)
  · intro p hp h7 hlt
    exact absurd h7 (by omega)
  · intro m hm hge hex
    obtain ⟨p, hp, h7, hlt, _⟩ := hex
    exact absurd h7 (by omega)

/-- For `B ≥ 5` the primes below `B+1` are `2, 3, 5` followed by the
segment starting at 7. -/
theorem primesUpTo_eq_cons3 (B : Nat) (hB : 5 ≤ B) :
    primesUpTo (B + 1) = 2 :: 3 :: 5 :: primesSeg 7 B := by
  rcases Nat.eq_or_lt_of_le hB with h | h
  · rw [← h]
    rfl
  · unfold primesUpTo primesSeg
    rw [List.range_eq_range']
    obtain ⟨m, hm⟩ : ∃ m, B + 1 - 7 = m := ⟨_, rfl⟩
    rw [hm, show B + 1 = m + 7 by omega]
    have h7 := List.range'_append 0 7 m 1
    simp only [one_mul] at h7
    rw [← h7, List.filter_append]
    rfl

/-- `croft()` truncated at `B` produces exactly the primes `≤ B`. -/
theorem croft_correct (B k : Nat) (hB : 1 ≤ B) (hk : (primesSeg 7 B).length + 4 ≤ k) :
    collectUpto (croftNext (B + 3)) k B croftInit = some (primesUpTo (B + 1)) := by
  obtain ⟨k₁, rfl⟩ : ∃ j, k = j + 1 := ⟨k - 1, by omega⟩
  rw [collectUpto,
    show croftNext (B + 3) croftInit = some (2, ⟨[3, 5], [(9,3),(25,5)], 7, 0⟩) from
      croftNext_pre (B+2) 2 [3,5] [(9,3),(25,5)] 7 0]
  dsimp only
  by_cases h2 : 2 ≤ B
  · rw [if_pos h2]
    obtain ⟨k₂, rfl⟩ : ∃ j, k₁ = j + 1 := ⟨k₁ - 1, by omega⟩
    rw [collectUpto,
      show croftNext (B + 3) ⟨[3, 5], [(9,3),(25,5)], 7, 0⟩
          = some (3, ⟨[5], [(9,3),(25,5)], 7, 0⟩) from
        croftNext_pre (B+2) 3 [5] [(9,3),(25,5)] 7 0]
    dsimp only
    by_cases h3 : 3 ≤ B
    · rw [if_pos h3]
      obtain ⟨k₃, rfl⟩ : ∃ j, k₂ = j + 1 := ⟨k₂ - 1, by omega⟩
      rw [collectUpto,
        show croftNext (B + 3) ⟨[5], [(9,3),(25,5)], 7, 0⟩
            = some (5, ⟨[], [(9,3),(25,5)], 7, 0⟩) from
          croftNext_pre (B+2) 5 [] [(9,3),(25,5)] 7 0]
      dsimp only
      by_cases h5 : 5 ≤ B
      · rw [if_pos h5]
        rw [croft_collect B k₃ 7 0 [(9,3),(25,5)] croftInv_init (by omega) (by omega)]
        rw [primesUpTo_eq_cons3 B h5]
        rfl
      · rw [if_neg h5]
        have hB' : B = 3 ∨ B = 4 := by omega
        rcases hB' with rfl | rfl <;> rfl
    · rw [if_neg h3]
      have hB' : B = 2 := by omega
      subst hB'
      rfl
  · rw [if_neg h2]
    have hB' : B = 1 := by omega
    subst hB'
    rfl

/-! ## `wheel()`: prime generation by wheel factorisation modulo 210

State: the pending preamble `2, 3, 5, 7, 11`, the `found` list of
`(p, p*p)` pairs in discovery (= increasing) order, the last processed
candidate `i`, and the index into the cycled `spokes` increments. -/

/-- The 48 gaps between consecutive totatives of 210 (O'Neill). -/
def spokes : List Nat :=
  [2, 4, 2, 4, 6, 2, 6, 4, 2, 4, 6, 6, 2, 6, 4, 2, 6, 4, 6,
   8, 4, 2, 4, 2, 4, 8, 6, 4, 6, 2, 4, 6, 2, 6, 6, 4, 2, 4, 6, 2,
   6, 4, 2, 4, 2, 10, 2, 10]

structure WheelState where
  pre : List Nat
  found : List (Nat × Nat)
  i : Nat
  idx : Nat
  deriving DecidableEq

def wheelInit : WheelState := ⟨[2, 3, 5, 7, 11], [(11, 121)], 11, 0⟩

/-- The inner `for p, p2 in found:` scan of `wheel()`; `none` models the
`RuntimeError` raised when the loop runs off the end of `found`. -/
def wheelScan : List (Nat × Nat) → Nat → Option Bool
  | [], _ => none
  | (p, p2) :: rest, i =>
    if p2 > i then some true
    else if i % p = 0 then some false
    else wheelScan rest i

/-- Advance the wheel generator to its next yield. -/
def wheelNext : Nat → WheelState → Option (Nat × WheelState)
  | 0, _ => none
  | fuel+1, s =>
    match s.pre with
    | v :: rest => some (v, ⟨rest, s.found, s.i, s.idx⟩)
    | [] =>
      match wheelScan s.found (s.i + spokes.getD s.idx 0) with
      | some true => some (s.i + spokes.getD s.idx 0,
          ⟨[], s.found ++ [(s.i + spokes.getD s.idx 0,
              (s.i + spokes.getD s.idx 0) * (s.i + spokes.getD s.idx 0))],
            s.i + spokes.getD s.idx 0, (s.idx + 1) % 48⟩)
      | some false => wheelNext fuel ⟨[], s.found, s.i + spokes.getD s.idx 0, (s.idx + 1) % 48⟩
      | none => none

/-- The wheel position reached after consuming the first `idx` spokes. -/
def wheelAcc (idx : Nat) : Nat := 11 + (spokes.take idx).sum

theorem spokes_ge2 : ∀ idx, idx < 48 → 2 ≤ spokes.getD idx 0 := by decide

theorem wheelAcc_step : ∀ idx, idx < 48 →
    wheelAcc ((idx + 1) % 48) % 210 = (wheelAcc idx + spokes.getD idx 0) % 210 := by decide

theorem wheelAcc_coprime : ∀ idx, idx < 48 →
    ((wheelAcc idx % 210) % 2 = 1 ∧ (wheelAcc idx % 210) % 3 ≠ 0 ∧
      (wheelAcc idx % 210) % 5 ≠ 0 ∧ (wheelAcc idx % 210) % 7 ≠ 0) := by decide

theorem wheelAcc_gap : ∀ idx, idx < 48 → ∀ d, d < spokes.getD idx 0 →
    (d = 0 ∨ (wheelAcc idx + d) % 210 % 2 = 0 ∨ (wheelAcc idx + d) % 210 % 3 = 0 ∨
      (wheelAcc idx + d) % 210 % 5 = 0 ∨ (wheelAcc idx + d) % 210 % 7 = 0) := by decide

theorem mem_primesSeg (a q B : Nat) : a ∈ primesSeg q B ↔ Nat.Prime a ∧ q ≤ a ∧ a ≤ B := by
  unfold primesSeg
  rw [List.mem_filter, mem_range'_iff]
  constructor
  · rintro ⟨h1, h2⟩
    exact ⟨(myPrime_iff_prime a).mp h2, by omega, by omega⟩
  · rintro ⟨h1, h2, h3⟩
    exact ⟨by omega, (myPrime_iff_prime a).mpr h1⟩

theorem primesSeg_sorted (q B : Nat) : List.Pairwise (· < ·) (primesSeg q B) :=
  (List.pairwise_lt_range' q (B + 1 - q)).filter myPrime

/-- Dropping a non-prime lower endpoint. -/
theorem primesSeg_step (q B : Nat) (hq : ¬ Nat.Prime q) : primesSeg q B = primesSeg (q+1) B := by
  unfold primesSeg
  rcases Nat.lt_or_ge B q with h | h
  · rw [show B + 1 - q = 0 by omega, show B + 1 - (q+1) = 0 by omega]
    rfl
  · rw [show B + 1 - q = (B - q) + 1 by omega, List.range'_succ, List.filter_cons,
      if_neg (fun hc => hq ((myPrime_iff_prime q).mp hc)),
      show B + 1 - (q+1) = B - q by omega]

/-- Appending the next prime to a prime segment. -/
theorem primesSeg_snoc (q i P : Nat) (hq : q ≤ i) (hP : Nat.Prime P) (hiP : i < P)
    (hmin : ∀ j, i < j → j < P → ¬ Nat.Prime j) :
    primesSeg q P = primesSeg q i ++ [P] := by
  unfold primesSeg
  have hsplit : List.range' q (P + 1 - q)
      = List.range' q (i + 1 - q) ++ List.range' (i+1) (P - i) := by
    have h := List.range'_append q (i + 1 - q) (P - i) 1
    simp only [one_mul] at h
    rw [show q + (i + 1 - q) = i + 1 by omega] at h
    rw [show P + 1 - q = (P - i) + (i + 1 - q) by omega]
    exact h.symm
  rw [hsplit, List.filter_append]
  congr 1
  have h2 : List.range' (i+1) (P - i) = List.range' (i+1) (P - i - 1) ++ List.range' P 1 := by
    obtain ⟨n, hn⟩ : ∃ n, P - i - 1 = n := ⟨_, rfl⟩
    rw [hn, show P - i = 1 + n by omega]
    have h := List.range'_append (i+1) n 1 1
    simp only [one_mul] at h
    rw [show i + 1 + n = P by omega] at h
    exact h.symm
  rw [h2, List.filter_append]
  have hnil : (List.range' (i+1) (P - i - 1)).filter myPrime = [] := by
    rw [List.filter_eq_nil_iff]
    intro a ha
    rw [mem_range'_iff] at ha
    intro hp
    exact hmin a (by omega) (by omega) ((myPrime_iff_prime a).mp hp)
  rw [hnil, List.nil_append, List.range'_one, List.filter_cons,
    if_pos ((myPrime_iff_prime P).mpr hP)]
  rfl

/-- A prime segment is unchanged by extending through a prime-free zone. -/
theorem primesSeg_stable (q i x : Nat) (hq : q ≤ i) (hix : i ≤ x)
    (hnone : ∀ j, i < j → j ≤ x → ¬ Nat.Prime j) :
    primesSeg q x = primesSeg q i := by
  unfold primesSeg
  have hsplit : List.range' q (x + 1 - q)
      = List.range' q (i + 1 - q) ++ List.range' (i+1) (x - i) := by
    have h := List.range'_append q (i + 1 - q) (x - i) 1
    simp only [one_mul] at h
    rw [show q + (i + 1 - q) = i + 1 by omega] at h
    rw [show x + 1 - q = (x - i) + (i + 1 - q) by omega]
    exact h.symm
  rw [hsplit, List.filter_append]
  have hnil : (List.range' (i+1) (x - i)).filter myPrime = [] := by
    rw [List.filter_eq_nil_iff]
    intro a ha
    rw [mem_range'_iff] at ha
    intro hp
    exact hnone a (by omega) (by omega) ((myPrime_iff_prime a).mp hp)
  rw [hnil, List.append_nil]

/-- A prime at least 11 has no prime factor among 2, 3, 5, 7. -/
theorem prime_ge11_coprime (j : Nat) (hp : Nat.Prime j) (h : 11 ≤ j) :
    j % 2 ≠ 0 ∧ j % 3 ≠ 0 ∧ j % 5 ≠ 0 ∧ j % 7 ≠ 0 := by
  refine ⟨?_, ?_, ?_, ?_⟩ <;>
    · intro hd
      rcases hp.eq_one_or_self_of_dvd _ (Nat.dvd_of_mod_eq_zero hd) with h' | h' <;> omega

/-- A composite coprime to 2, 3, 5, 7 has least factor at least 11. -/
theorem coprime210_minFac_ge11 (x : Nat) (hx2 : x % 2 ≠ 0) (hx3 : x % 3 ≠ 0)
    (hx5 : x % 5 ≠ 0) (hx7 : x % 7 ≠ 0) (hx1 : x ≠ 1) :
    11 ≤ Nat.minFac x := by
  have hpf := Nat.minFac_prime hx1
  have hdvd := Nat.minFac_dvd x
  have h2 := hpf.two_le
  have hne2 : Nat.minFac x ≠ 2 := by
    intro h
    have := Nat.mod_eq_zero_of_dvd (h ▸ hdvd)
    omega
  have hne3 : Nat.minFac x ≠ 3 := by
    intro h
    have := Nat.mod_eq_zero_of_dvd (h ▸ hdvd)
    omega
  have hne5 : Nat.minFac x ≠ 5 := by
    intro h
    have := Nat.mod_eq_zero_of_dvd (h ▸ hdvd)
    omega
  have hne7 : Nat.minFac x ≠ 7 := by
    intro h
    have := Nat.mod_eq_zero_of_dvd (h ▸ hdvd)
    omega
  have hne4 : Nat.minFac x ≠ 4 := fun h => absurd (h ▸ hpf) (by decide)
  have hne6 : Nat.minFac x ≠ 6 := fun h => absurd (h ▸ hpf) (by decide)
  have hne8 : Nat.minFac x ≠ 8 := fun h => absurd (h ▸ hpf) (by decide)
  have hne9 : Nat.minFac x ≠ 9 := fun h => absurd (h ▸ hpf) (by decide)
  have hne10 : Nat.minFac x ≠ 10 := fun h => absurd (h ▸ hpf) (by decide)
  omega

/-- The largest prime `z ≤ i` satisfies `nextprime(i)² > ... `: the next
prime after `i` is below `z²` (Bertrand), and is also the next prime
after `z`. -/
theorem next_prime_sq_bound (i : Nat) (h11 : 11 ≤ i) :
    ∃ z, Nat.Prime z ∧ 11 ≤ z ∧ z ≤ i ∧ leastPrimeFrom (i+1) < z * z ∧
      leastPrimeFrom (z+1) = leastPrimeFrom (i+1) := by
  have h11p : Nat.Prime 11 := by norm_num
  have h11z : 11 ≤ Nat.findGreatest Nat.Prime i := Nat.le_findGreatest h11 h11p
  have hzp : Nat.Prime (Nat.findGreatest Nat.Prime i) := Nat.findGreatest_spec h11 h11p
  have hzle : Nat.findGreatest Nat.Prime i ≤ i := Nat.findGreatest_le i
  have hmax := (Nat.findGreatest_eq_iff.mp
    (rfl : Nat.findGreatest Nat.Prime i = Nat.findGreatest Nat.Prime i)).2.2
  have hP := leastPrimeFrom_spec (i+1)
  have heq : leastPrimeFrom (Nat.findGreatest Nat.Prime i + 1) = leastPrimeFrom (i+1) := by
    apply leastPrimeFrom_unique _ _ hP.1 (by omega)
    intro j h1 h2
    rcases Nat.lt_or_ge i j with h | h
    · exact hP.2.2.2 j (by omega) h2
    · exact hmax (by omega) h
  obtain ⟨k, hkp, hk1, hk2⟩ :=
    Nat.exists_prime_lt_and_le_two_mul (Nat.findGreatest Nat.Prime i) (by omega)
  have hxk : leastPrimeFrom (i+1) ≤ k := by
    by_contra hcon
    push_neg at hcon
    rcases Nat.lt_or_ge i k with h | h
    · exact hP.2.2.2 k (by omega) hcon hkp
    · exact hmax hk1 h hkp
  have hzz : leastPrimeFrom (i+1) < Nat.findGreatest Nat.Prime i * Nat.findGreatest Nat.Prime i := by
    have h3 : 3 * Nat.findGreatest Nat.Prime i
        ≤ Nat.findGreatest Nat.Prime i * Nat.findGreatest Nat.Prime i :=
      Nat.mul_le_mul_right _ (by omega)
    omega
  exact ⟨Nat.findGreatest Nat.Prime i, hzp, h11z, hzle, hzz, heq⟩

/-- The scan accepts a prime candidate once the squares overtake it. -/
theorem wheelScan_prime (x : Nat) (hx : Nat.Prime x) :
    ∀ l : List Nat, (∀ p ∈ l, Nat.Prime p ∧ p < x) → (∃ p ∈ l, x < p * p) →
      wheelScan (l.map fun p => (p, p * p)) x = some true := by
  intro l
  induction l with
  | nil =>
    rintro _ ⟨p, hp, _⟩
    exact absurd hp (List.not_mem_nil _)
  | cons p rest ih =>
    intro hall hex
    simp only [List.map_cons]
    rw [wheelScan]
    by_cases hgt : p * p > x
    · rw [if_pos hgt]
    · rw [if_neg hgt]
      have hpx := hall p (List.mem_cons_self p rest)
      have hnd : ¬ x % p = 0 := by
        intro h
        have hdvd : p ∣ x := Nat.dvd_of_mod_eq_zero h
        rcases hx.eq_one_or_self_of_dvd p hdvd with h' | h'
        · have := hpx.1.two_le
          omega
        · omega
      rw [if_neg hnd]
      apply ih
      · intro q hq
        exact hall q (List.mem_cons_of_mem p hq)
      · obtain ⟨q, hq, hqx⟩ := hex
        rcases List.mem_cons.mp hq with rfl | hq'
        · omega
        · exact ⟨q, hq', hqx⟩

/-- The scan rejects a composite candidate at its least prime factor. -/
theorem wheelScan_composite (x : Nat) (hx : ¬ Nat.Prime x) (hx2 : 2 ≤ x)
    (hmf11 : 11 ≤ Nat.minFac x) :
    ∀ l : List Nat, List.Pairwise (· < ·) l → Nat.minFac x ∈ l →
      (∀ p ∈ l, Nat.Prime p) →
      wheelScan (l.map fun p => (p, p * p)) x = some false := by
  have hsq : Nat.minFac x * Nat.minFac x ≤ x := by
    have := Nat.minFac_sq_le_self (show 0 < x by omega) hx
    rwa [pow_two] at this
  intro l
  induction l with
  | nil =>
    intro _ hmem _
    exact absurd hmem (List.not_mem_nil _)
  | cons p rest ih =>
    intro hsort hmem hprime
    simp only [List.map_cons]
    rw [wheelScan]
    rcases List.mem_cons.mp hmem with heq | hmem'
    · rw [← heq, if_neg (by omega), if_pos (Nat.mod_eq_zero_of_dvd (Nat.minFac_dvd x))]
    · have hplt : p < Nat.minFac x := (List.pairwise_cons.mp hsort).1 _ hmem'
      have hple : p * p < Nat.minFac x * Nat.minFac x := by nlinarith
      have hnd : ¬ x % p = 0 := by
        intro h
        have hd : p ∣ x := Nat.dvd_of_mod_eq_zero h
        have hle := Nat.minFac_le_of_dvd (hprime p (List.mem_cons_self p rest)).two_le hd
        omega
      rw [if_neg (show ¬ p * p > x by omega), if_neg hnd]
      exact ih (List.pairwise_cons.mp hsort).2 hmem'
        (fun q hq => hprime q (List.mem_cons_of_mem p hq))

/-- The wheel invariant: the spoke index is in sync with `i`, `i ≥ 11`,
and `found` holds exactly the primes of `[11, i]` with their squares,
in increasing order. -/
def WheelInv (found : List (Nat × Nat)) (i idx : Nat) : Prop :=
  idx < 48 ∧ i % 210 = wheelAcc idx % 210 ∧ 11 ≤ i ∧
  found = (primesSeg 11 i).map fun p => (p, p * p)

/-- One pull from the wheel stream yields the least prime `> i` and
preserves the invariant. -/
theorem wheelNext_pull :
    ∀ fuel i idx found, WheelInv found i idx →
      (leastPrimeFrom (i+1) - i) / 2 + 1 ≤ fuel →
      ∃ idx', wheelNext fuel ⟨[], found, i, idx⟩ =
          some (leastPrimeFrom (i+1),
            ⟨[], (primesSeg 11 (leastPrimeFrom (i+1))).map (fun p => (p, p * p)),
              leastPrimeFrom (i+1), idx'⟩) ∧
        WheelInv ((primesSeg 11 (leastPrimeFrom (i+1))).map fun p => (p, p * p))
          (leastPrimeFrom (i+1)) idx' := by
  intro fuel
  induction fuel with
  | zero =>
    intro i idx found _ h
    omega
  | succ f ih =>
    intro i idx found hInv hfuel
    obtain ⟨hidx, hsync, h11, hfound⟩ := hInv
    rw [wheelNext]
    dsimp only
    set g := spokes.getD idx 0 with hgdef
    set x := i + g with hxdef
    have hg2 : 2 ≤ g := by
      have := spokes_ge2 idx hidx
      omega
    have hidx' : (idx + 1) % 48 < 48 := by omega
    have hsync' : x % 210 = wheelAcc ((idx + 1) % 48) % 210 := by
      have hW2 := wheelAcc_step idx hidx
      omega
    have hiodd : i % 2 = 1 := by
      obtain ⟨hc2, _, _, _⟩ := wheelAcc_coprime idx hidx
      omega
    obtain ⟨hx2, hx3, hx5, hx7⟩ := wheelAcc_coprime ((idx+1)%48) hidx'
    have hxc2 : x % 2 ≠ 0 := by omega
    have hxc3 : x % 3 ≠ 0 := by omega
    have hxc5 : x % 5 ≠ 0 := by omega
    have hxc7 : x % 7 ≠ 0 := by omega
    have hskipnp : ∀ j, i < j → j < x → ¬ Nat.Prime j := by
      intro j hij hjx hjp
      have hj13 : 13 ≤ j := by
        have := hjp.two_le
        rcases Nat.eq_or_lt_of_le (show 12 ≤ j by omega) with h | h
        · rw [← h] at hjp
          exact absurd hjp (by decide)
        · omega
      obtain ⟨hj2, hj3, hj5, hj7⟩ := prime_ge11_coprime j hjp (by omega)
      have hW4 := wheelAcc_gap idx hidx (j - i) (by omega)
      rcases hW4 with h | h | h | h | h <;> omega
    by_cases hxp : Nat.Prime x
    · have hPx : leastPrimeFrom (i+1) = x :=
        leastPrimeFrom_unique (i+1) x hxp (by omega)
          (fun j h1 h2 => hskipnp j (by omega) h2)
      obtain ⟨z, hzp, hz11, hzle, hzz, hzeq⟩ := next_prime_sq_bound i h11
      have hscan : wheelScan found x = some true := by
        rw [hfound]
        apply wheelScan_prime x hxp
        · intro p hp
          rw [mem_primesSeg] at hp
          exact ⟨hp.1, by omega⟩
        · refine ⟨z, ?_, by omega⟩
          rw [mem_primesSeg]
          exact ⟨hzp, hz11, hzle⟩
      rw [hscan]
      dsimp only
      have hsnoc : primesSeg 11 x = primesSeg 11 i ++ [x] :=
        primesSeg_snoc 11 i x h11 hxp (by omega) hskipnp
      refine ⟨(idx + 1) % 48, ?_, ?_⟩
      · rw [hPx, hfound, hsnoc, List.map_append]
        rfl
      · rw [hPx]
        exact ⟨by omega, hsync', by omega, rfl⟩
    · have hx1 : x ≠ 1 := by omega
      have hmf := coprime210_minFac_ge11 x hxc2 hxc3 hxc5 hxc7 hx1
      have hPspec := leastPrimeFrom_spec (i+1)
      have hPgt : x < leastPrimeFrom (i+1) := by
        rcases Nat.lt_or_ge x (leastPrimeFrom (i+1)) with h | h
        · exact h
        · exfalso
          rcases Nat.eq_or_lt_of_le h with h' | h'
          · exact hxp (h' ▸ hPspec.1)
          · exact hskipnp _ (by omega) h' hPspec.1
      have hmfle : Nat.minFac x ≤ i := by
        by_contra hcon
        push_neg at hcon
        have hsq := Nat.minFac_sq_le_self (show 0 < x by omega) hxp
        rw [pow_two] at hsq
        have hub : leastPrimeFrom (i+1) ≤ 2*(i+1) + 2 := hPspec.2.2.1
        have hmul : (i+1) * (i+1) ≤ Nat.minFac x * Nat.minFac x :=
          Nat.mul_le_mul (by omega) (by omega)
        have hexp : (i+1) * (i+1) = i*i + 2*i + 1 := by ring
        have hii : 3 * i ≤ i * i := Nat.mul_le_mul_right i (by omega)
        omega
      have hscan : wheelScan found x = some false := by
        rw [hfound]
        apply wheelScan_composite x hxp (by omega) hmf
        · exact primesSeg_sorted 11 i
        · rw [mem_primesSeg]
          exact ⟨Nat.minFac_prime hx1, hmf, hmfle⟩
        · intro p hp
          exact ((mem_primesSeg p 11 i).mp hp).1
      rw [hscan]
      dsimp only
      have hInv' : WheelInv found x ((idx + 1) % 48) := by
        refine ⟨by omega, hsync', by omega, ?_⟩
        rw [hfound]
        congr 1
        refine (primesSeg_stable 11 i x h11 (by omega) ?_).symm
        intro j h1 h2
        rcases Nat.eq_or_lt_of_le h2 with rfl | h'
        · exact hxp
        · exact hskipnp j h1 h'
      have hPeq : leastPrimeFrom (x+1) = leastPrimeFrom (i+1) :=
        leastPrimeFrom_unique (x+1) (leastPrimeFrom (i+1)) hPspec.1 (by omega)
          (fun j h1 h2 => hPspec.2.2.2 j (by omega) h2)
      have hPodd : leastPrimeFrom (i+1) % 2 = 1 := by
        rcases hPspec.1.eq_two_or_odd with h | h
        · omega
        · exact h
      obtain ⟨hxodd, _, _, _⟩ :
          x % 2 ≠ 0 ∧ x % 3 ≠ 0 ∧ x % 5 ≠ 0 ∧ x % 7 ≠ 0 := ⟨hxc2, hxc3, hxc5, hxc7⟩
      have hfuel' : (leastPrimeFrom (x+1) - x) / 2 + 1 ≤ f := by
        rw [hPeq]
        omega
      obtain ⟨idx', hstep, hInv''⟩ := ih x ((idx + 1) % 48) found hInv' hfuel'
      rw [hPeq] at hstep hInv''
      exact ⟨idx', hstep, hInv''⟩

/-- Collecting from the wheel stream with the invariant returns exactly
the primes in `(i, B]`. -/
theorem wheel_collect (B : Nat) :
    ∀ k i idx found, WheelInv found i idx → i ≤ B →
      (primesSeg (i+1) B).length < k →
      collectUpto (wheelNext (B + 3)) k B ⟨[], found, i, idx⟩ = some (primesSeg (i+1) B) := by
  intro k
  induction k with
  | zero =>
    intro i idx found _ _ h
    omega
  | succ k' ih =>
    intro i idx found hInv hiB hlen
    obtain ⟨hPp, hPge, hPub, hPmin⟩ := leastPrimeFrom_spec (i+1)
    have h11 : 11 ≤ i := hInv.2.2.1
    have hfuel : (leastPrimeFrom (i+1) - i) / 2 + 1 ≤ B + 3 := by omega
    obtain ⟨idx', hpull, hInv'⟩ := wheelNext_pull (B + 3) i idx found hInv hfuel
    rw [collectUpto, hpull]
    dsimp only
    by_cases hPB : leastPrimeFrom (i+1) ≤ B
    · rw [if_pos hPB]
      have hPodd : leastPrimeFrom (i+1) % 2 = 1 := by
        rcases hPp.eq_two_or_odd with h | h
        · omega
        · exact h
      have hnotnext : ¬ Nat.Prime (leastPrimeFrom (i+1) + 1) :=
        even_not_prime _ (by omega) (by omega)
      have hseg : primesSeg (i+1) B
          = leastPrimeFrom (i+1) :: primesSeg (leastPrimeFrom (i+1) + 2) B :=
        primesSeg_cons (i+1) B _ hPp hPge hPB hPmin hnotnext
      have hstep2 : primesSeg (leastPrimeFrom (i+1) + 1) B
          = primesSeg (leastPrimeFrom (i+1) + 2) B :=
        primesSeg_step _ B hnotnext
      have hlen' : (primesSeg (leastPrimeFrom (i+1) + 1) B).length < k' := by
        rw [hstep2]
        rw [hseg] at hlen
        simp only [List.length_cons] at hlen
        omega
      rw [ih (leastPrimeFrom (i+1)) idx' _ hInv' hPB hlen']
      rw [hstep2, hseg]
      rfl
    · rw [if_neg hPB]
      have hempty : primesSeg (i+1) B = [] :=
        primesSeg_of_no_primes (i+1) B (fun j h1 h2 => hPmin j h1 (by omega))
      rw [hempty]

/-- Pulling from the wheel preamble yields the pending seed prime. -/
theorem wheelNext_pre (fuel v : Nat) (rest : List Nat) (found : List (Nat × Nat)) (i idx : Nat) :
    wheelNext (fuel + 1) ⟨v :: rest, found, i, idx⟩ = some (v, ⟨rest, found, i, idx⟩) := by
  rw [wheelNext]

/-- The wheel invariant holds after the preamble at `i = 11`. -/
theorem wheelInv_init : WheelInv [(11, 121)] 11 0 :=
  ⟨by omega, by decide, by omega, rfl⟩

/-- For `B ≥ 11` the primes below `B+1` are `2, 3, 5, 7, 11` followed by
the segment starting at 12. -/
theorem primesUpTo_eq_cons5 (B : Nat) (hB : 11 ≤ B) :
    primesUpTo (B + 1) = 2 :: 3 :: 5 :: 7 :: 11 :: primesSeg 12 B := by
  unfold primesUpTo primesSeg
  rw [List.range_eq_range']
  obtain ⟨m, hm⟩ : ∃ m, B + 1 - 12 = m := ⟨_, rfl⟩
  rw [hm, show B + 1 = m + 12 by omega]
  have h12 := List.range'_append 0 12 m 1
  simp only [one_mul] at h12
  rw [← h12, List.filter_append]
  rfl

/-- `wheel()` truncated at `B` produces exactly the primes `≤ B`. -/
theorem wheel_correct (B k : Nat) (hB : 1 ≤ B) (hk : (primesSeg 12 B).length + 6 ≤ k) :
    collectUpto (wheelNext (B + 3)) k B wheelInit = some (primesUpTo (B + 1)) := by
  obtain ⟨k₁, rfl⟩ : ∃ j, k = j + 1 := ⟨k - 1, by omega⟩
  rw [collectUpto, show wheelNext (B + 3) wheelInit
      = some (2, ⟨[3, 5, 7, 11], [(11,121)], 11, 0⟩) from
    wheelNext_pre (B+2) 2 [3,5,7,11] [(11,121)] 11 0]
  dsimp only
  by_cases h2 : 2 ≤ B
  · rw [if_pos h2]
    obtain ⟨k₂, rfl⟩ : ∃ j, k₁ = j + 1 := ⟨k₁ - 1, by omega⟩
    rw [collectUpto, show wheelNext (B + 3) ⟨[3,5,7,11], [(11,121)], 11, 0⟩
        = some (3, ⟨[5, 7, 11], [(11,121)], 11, 0⟩) from
      wheelNext_pre (B+2) 3 [5,7,11] [(11,121)] 11 0]
    dsimp only
    by_cases h3 : 3 ≤ B
    · rw [if_pos h3]
      obtain ⟨k₃, rfl⟩ : ∃ j, k₂ = j + 1 := ⟨k₂ - 1, by omega⟩
      rw [collectUpto, show wheelNext (B + 3) ⟨[5,7,11], [(11,121)], 11, 0⟩
          = some (5, ⟨[7, 11], [(11,121)], 11, 0⟩) from
        wheelNext_pre (B+2) 5 [7,11] [(11,121)] 11 0]
      dsimp only
      by_cases h5 : 5 ≤ B
      · rw [if_pos h5]
        obtain ⟨k₄, rfl⟩ : ∃ j, k₃ = j + 1 := ⟨k₃ - 1, by omega⟩
        rw [collectUpto, show wheelNext (B + 3) ⟨[7,11], [(11,121)], 11, 0⟩
            = some (7, ⟨[11], [(11,121)], 11, 0⟩) from
          wheelNext_pre (B+2) 7 [11] [(11,121)] 11 0]
        dsimp only
        by_cases h7 : 7 ≤ B
        · rw [if_pos h7]
          obtain ⟨k₅, rfl⟩ : ∃ j, k₄ = j + 1 := ⟨k₄ - 1, by omega⟩
          rw [collectUpto, show wheelNext (B + 3) ⟨[11], [(11,121)], 11, 0⟩
              = some (11, ⟨[], [(11,121)], 11, 0⟩) from
            wheelNext_pre (B+2) 11 [] [(11,121)] 11 0]
          dsimp only
          by_cases h11 : 11 ≤ B
          · rw [if_pos h11]
            rw [wheel_collect B k₅ 11 0 [(11,121)] wheelInv_init h11
              (by show (primesSeg 12 B).length < k₅; omega)]
            rw [primesUpTo_eq_cons5 B h11]
            rfl
          · rw [if_neg h11]
            have hB' : B = 7 ∨ B = 8 ∨ B = 9 ∨ B = 10 := by omega
            rcases hB' with rfl | rfl | rfl | rfl <;> rfl
        · rw [if_neg h7]
          have hB' : B = 5 ∨ B = 6 := by omega
          rcases hB' with rfl | rfl <;> rfl
      · rw [if_neg h5]
        have hB' : B = 3 ∨ B = 4 := by omega
        rcases hB' with rfl | rfl <;> rfl
    · rw [if_neg h3]
      have hB' : B = 2 := by omega
      subst hB'
      rfl
  · rw [if_neg h2]
    have hB' : B = 1 := by omega
    subst hB'
    rfl

/-! ## `sieve()`: the lazy Sieve of Eratosthenes with a recursive inner sieve

The generator holds a table of postponed composites, fed by squares of
primes pulled from a lazily started *inner* copy of itself.  State: a
`pending` flag (set right after a `yield`, so the next pull first runs
the post-yield bookkeeping), the table, the candidate `i`, the current
`prevsq` threshold, and the optional started inner generator (`none` =
not yet started). -/

inductive SieveState where
  | mk (pending : Bool) (table : List (Nat × Nat)) (i : Nat) (prevsq : Nat)
      (inner : Option SieveState) : SieveState

def sieveInit : SieveState := ⟨false, [], 2, 1, none⟩

/-- `nxt = i + prime; while nxt in table: nxt += prime`. -/
def sieveProbe (p : Nat) (t : List (Nat × Nat)) : Nat → Nat → Option Nat
  | 0, _ => none
  | fuel+1, x => if alMem x t then sieveProbe p t fuel (x + p) else some x

/-- Advance the sieve generator to its next yield.  The fuel bounds the
total number of loop iterations, including those of the recursively
pulled inner sieves. -/
def sieveNext : Nat → SieveState → Option (Nat × SieveState)
  | 0, _ => none
  | fuel+1, .mk pending table i prevsq inner =>
    if pending then
      if i > prevsq then
        match sieveNext fuel (inner.getD sieveInit) with
        | none => none
        | some (j, inner') =>
            sieveNext fuel ⟨false, alInsert (j*j) j table, i+1, j*j, some inner'⟩
      else sieveNext fuel ⟨false, table, i+1, prevsq, inner⟩
    else
      match alFind? i table with
      | some prime =>
        match sieveProbe prime (alErase i table) ((alErase i table).length + 1) (i + prime) with
        | none => none
        | some nxt =>
            sieveNext fuel ⟨false, alInsert nxt prime (alErase i table), i+1, prevsq, inner⟩
      | none => some (i, ⟨true, table, i, prevsq, inner⟩)

/-- More fuel never changes a successful pull. -/
theorem sieveNext_mono : ∀ fuel s r, sieveNext fuel s = some r →
    sieveNext (fuel+1) s = some r := by
  intro fuel
  induction fuel with
  | zero =>
    intro s r h
    exact Option.noConfusion h
  | succ f ih =>
    intro s r h
    obtain ⟨pending, table, i, prevsq, inner⟩ := s
    rw [sieveNext] at h ⊢
    by_cases hp : pending = true
    · rw [if_pos hp] at h ⊢
      by_cases hgt : i > prevsq
      · rw [if_pos hgt] at h ⊢
        cases hin : sieveNext f (inner.getD sieveInit) with
        | none =>
          rw [hin] at h
          exact Option.noConfusion h
        | some ji =>
          rw [hin] at h
          rw [ih _ _ hin]
          obtain ⟨j, inner'⟩ := ji
          dsimp only at h ⊢
          exact ih _ _ h
      · rw [if_neg hgt] at h ⊢
        exact ih _ _ h
    · rw [if_neg hp] at h ⊢
      cases hfind : alFind? i table with
      | some prime =>
        rw [hfind] at h
        dsimp only at h ⊢
        cases hprobe : sieveProbe prime (alErase i table)
            ((alErase i table).length + 1) (i + prime) with
        | none =>
          rw [hprobe] at h
          exact Option.noConfusion h
        | some nxt =>
          rw [hprobe] at h
          dsimp only at h ⊢
          exact ih _ _ h
      | none =>
        rw [hfind] at h
        exact h

theorem sieveNext_mono_le (f₁ f₂ : Nat) (hle : f₁ ≤ f₂) (s : SieveState) (r : Nat × SieveState)
    (hr : sieveNext f₁ s = some r) : sieveNext f₂ s = some r := by
  induction f₂ with
  | zero =>
    have h0 : f₁ = 0 := by omega
    subst h0
    exact absurd hr (by simp [sieveNext])
  | succ f ih =>
    rcases Nat.eq_or_lt_of_le hle with rfl | hlt
    · exact hr
    · exact sieveNext_mono f s r (ih (by omega))

/-- What a successful sieve probe returns: a non-key multiple reached by
skipping only keys. -/
theorem sieveProbe_some_spec (p : Nat) (t : List (Nat × Nat)) :
    ∀ fuel x y, sieveProbe p t fuel x = some y →
      ∃ j, j < fuel ∧ y = x + j * p ∧ y ∉ alKeys t ∧
        ∀ i, i < j → x + i * p ∈ alKeys t := by
  intro fuel
  induction fuel with
  | zero =>
    intro x y h
    exact Option.noConfusion h
  | succ f ih =>
    intro x y h
    rw [sieveProbe] at h
    by_cases hc : alMem x t = true
    · rw [if_pos hc] at h
      obtain ⟨j, hj, hy, hmem, hskip⟩ := ih (x + p) y h
      refine ⟨j + 1, by omega, by rw [hy]; ring, hmem, ?_⟩
      intro i hi
      cases i with
      | zero =>
        simp only [Nat.zero_mul, Nat.add_zero]
        exact (alMem_iff_mem_keys x t).mp hc
      | succ i' =>
        have hsk := hskip i' (by omega)
        rw [show x + (i' + 1) * p = x + p + i' * p by ring]
        exact hsk
    · rw [if_neg hc] at h
      cases h
      refine ⟨0, by omega, by simp, ?_, by omega⟩
      intro hmem
      exact hc ((alMem_iff_mem_keys x t).mpr hmem)

theorem sieveProbe_isSome (p : Nat) (t : List (Nat × Nat)) :
    ∀ fuel x, (∃ j, j < fuel ∧ x + j * p ∉ alKeys t) →
      ∃ y, sieveProbe p t fuel x = some y := by
  intro fuel
  induction fuel with
  | zero =>
    rintro x ⟨j, hj, _⟩
    omega
  | succ f ih =>
    rintro x ⟨j, hj, hmem⟩
    rw [sieveProbe]
    by_cases hc : alMem x t = true
    · rw [if_pos hc]
      apply ih
      have hj0 : j ≠ 0 := by
        rintro rfl
        simp only [Nat.zero_mul, Nat.add_zero] at hmem
        exact hmem ((alMem_iff_mem_keys x t).mp hc)
      obtain ⟨j', rfl⟩ : ∃ j', j = j' + 1 := ⟨j - 1, by omega⟩
      refine ⟨j', by omega, ?_⟩
      rw [show x + p + j' * p = x + (j' + 1) * p by ring]
      exact hmem
    · rw [if_neg hc]
      exact ⟨x, rfl⟩

/-- Pigeonhole for the sieve probe: `L+1` distinct positions cannot all
be among the `L` keys. -/
theorem sieveProbe_pigeonhole (p : Nat) (t : List (Nat × Nat)) (x : Nat) (hp : 1 ≤ p) :
    ∃ j, j < t.length + 1 ∧ x + j * p ∉ alKeys t := by
  by_contra hcon
  push_neg at hcon
  have hcard : ((Finset.range (t.length + 1)).image (fun i => x + i * p)).card
      = t.length + 1 := by
    rw [Finset.card_image_of_injOn, Finset.card_range]
    intro i _ i' _ h
    simp only at h
    have h2 : i * p = i' * p := by omega
    exact Nat.eq_of_mul_eq_mul_right (by omega) h2
  have hsub : (Finset.range (t.length + 1)).image (fun i => x + i * p)
      ⊆ (alKeys t).toFinset := by
    intro y hy
    simp only [Finset.mem_image, Finset.mem_range] at hy
    obtain ⟨i, hi, rfl⟩ := hy
    exact List.mem_toFinset.mpr (hcon i hi)
  have h1 := Finset.card_le_card hsub
  have h2 := List.toFinset_card_le (alKeys t)
  have h3 : (alKeys t).length = t.length := by simp [alKeys]
  rw [hcard] at h1
  omega

theorem sieveProbe_success (p : Nat) (t : List (Nat × Nat)) (x : Nat) (hp : 1 ≤ p) :
    ∃ y, sieveProbe p t (t.length + 1) x = some y :=
  sieveProbe_isSome p t _ x (sieveProbe_pigeonhole p t x hp)

/-- Thresholds reached for bounds `≤ 10000` stay at most 113. -/
theorem lPF_le_110 : ∀ a, a < 111 → leastPrimeFrom a ≤ 113 := by decide

/-- Between the squares of consecutive primes up to 113 there is always
a prime (finite instances of a Legendre-type fact, checked directly). -/
theorem sieve_window : ∀ z, z < 114 → myPrime z = true →
    ∃ d, d < 60 ∧ myPrime (z*z + 1 + d) = true ∧
      z*z + 1 + d < leastPrimeFrom (z+1) * leastPrimeFrom (z+1) := by decide

/-- Stepping past any composite does not change the next prime. -/
theorem leastPrimeFrom_step1 (q : Nat) (hq : ¬ Nat.Prime q) :
    leastPrimeFrom (q+1) = leastPrimeFrom q := by
  obtain ⟨hp, hge, _, hmin⟩ := leastPrimeFrom_spec q
  have hne1 : leastPrimeFrom q ≠ q := fun h => hq (h ▸ hp)
  exact leastPrimeFrom_unique (q+1) (leastPrimeFrom q) hp (by omega)
    (fun j h1 h2 => hmin j (by omega) h2)

/-- The next prime after a prime `z ≥ 2` is at most `z²`. -/
theorem lPF_succ_le_sq (z : Nat) (hz : Nat.Prime z) : leastPrimeFrom (z+1) ≤ z * z := by
  have h2 := hz.two_le
  by_cases h4 : 4 ≤ z
  · have hub := (leastPrimeFrom_spec (z+1)).2.2.1
    have hzz : 4 * z ≤ z * z := Nat.mul_le_mul_right z h4
    omega
  · have hz23 : z = 2 ∨ z = 3 := by omega
    rcases hz23 with rfl | rfl <;> decide

/-- A prime strictly above `z` is at least the next prime after `z`. -/
theorem lPF_le_of_prime_gt (z p : Nat) (hp : Nat.Prime p) (hzp : z < p) :
    leastPrimeFrom (z+1) ≤ p := by
  by_contra hcon
  push_neg at hcon
  exact (leastPrimeFrom_spec (z+1)).2.2.2 p (by omega) hcon hp

/-- The sieve invariant at candidate `i` with threshold prime `z`: keys
are distinct, every entry maps a multiple `≥ i` of its tracked prime
`≤ z`, all primes `≤ z` are tracked, and every multiple `≥ i` of a
tracked prime is covered by an entry at or below it. -/
def SInv (t : List (Nat × Nat)) (i z : Nat) : Prop :=
  (alKeys t).Nodup ∧
  (∀ e ∈ t, Nat.Prime e.2 ∧ e.2 ∣ e.1 ∧ i ≤ e.1 ∧ e.2 ≤ z) ∧
  (∀ p, Nat.Prime p → p ≤ z → ∃ e ∈ t, e.2 = p) ∧
  (∀ m, i ≤ m → (∃ p, Nat.Prime p ∧ p ≤ z ∧ p ∣ m) → ∃ e ∈ t, e.2 ∣ m ∧ e.1 ≤ m)

/-- At a candidate below the next square threshold, table membership is
exactly compositeness. -/
theorem sieve_mem_iff (t : List (Nat × Nat)) (i z : Nat) (hInv : SInv t i z)
    (hz : Nat.Prime z) (hz113 : z ≤ 113) (hzi : z < i)
    (hC5 : ∀ j, z*z < j → j < i → ¬ Nat.Prime j) :
    (i ∈ alKeys t ↔ ¬ Nat.Prime i) := by
  obtain ⟨hnd, hK1, hK3, hK4⟩ := hInv
  have h2z := hz.two_le
  constructor
  · intro hmem
    simp only [alKeys, List.mem_map] at hmem
    obtain ⟨e, he, hek⟩ := hmem
    obtain ⟨hp, hdvd, _, hle⟩ := hK1 e he
    intro hprime
    rcases hprime.eq_one_or_self_of_dvd e.2 (hek ▸ hdvd) with h | h
    · have := hp.two_le
      omega
    · omega
  · intro hcomp
    have h1 : i ≠ 1 := by omega
    have hpf := Nat.minFac_prime h1
    have hdvd := Nat.minFac_dvd i
    have hmfz : Nat.minFac i ≤ z := by
      by_contra hcon
      push_neg at hcon
      have hz' : leastPrimeFrom (z+1) ≤ Nat.minFac i := lPF_le_of_prime_gt z _ hpf hcon
      have hsq : Nat.minFac i * Nat.minFac i ≤ i := by
        have := Nat.minFac_sq_le_self (show 0 < i by omega) hcomp
        rwa [pow_two] at this
      have hzsq : leastPrimeFrom (z+1) * leastPrimeFrom (z+1)
          ≤ Nat.minFac i * Nat.minFac i := Nat.mul_le_mul hz' hz'
      obtain ⟨d, hd60, hdp, hdlt⟩ := sieve_window z (by omega)
        ((myPrime_iff_prime z).mpr hz)
      exact hC5 (z*z + 1 + d) (by omega) (by omega) ((myPrime_iff_prime _).mp hdp)
    obtain ⟨e, he, hedvd, hele⟩ := hK4 i (le_refl i) ⟨Nat.minFac i, hpf, hmfz, hdvd⟩
    have := (hK1 e he).2.2.1
    simp only [alKeys, List.mem_map]
    exact ⟨e, he, by omega⟩

/-- Invariant preservation, composite candidate: the entry at `i` moves
to the next free multiple of its prime. -/
theorem sInv_stepA (t : List (Nat × Nat)) (i z p x : Nat)
    (hInv : SInv t i z)
    (hfind : alFind? i t = some p)
    (hprobe : sieveProbe p (alErase i t) ((alErase i t).length + 1) (i + p) = some x) :
    SInv (alInsert x p (alErase i t)) (i+1) z := by
  obtain ⟨hnd, hK1, hK3, hK4⟩ := hInv
  have hqt : (i, p) ∈ t := (alFind?_some i p t hnd).mp hfind
  obtain ⟨hpprime, hpdvd, _, hpz⟩ := hK1 (i, p) hqt
  have hp2 := hpprime.two_le
  set t' := alErase i t with ht'
  have hnd' : (alKeys t').Nodup := alErase_nodup i t hnd
  have hmem' : ∀ e : Nat × Nat, e ∈ t' ↔ e ∈ t ∧ e.1 ≠ i := alErase_mem i t hnd
  obtain ⟨j, hjf, hx, hxfree, hskip⟩ := sieveProbe_some_spec p t' _ _ x hprobe
  have hxi : i + 1 ≤ x := by omega
  have hxp : p ∣ x := by
    rw [hx]
    exact dvd_add (dvd_add hpdvd (dvd_refl p)) (dvd_mul_left p j)
  have hins := alInsert_mem_of_fresh x p t' hxfree
  refine ⟨alInsert_nodup_of_fresh x p t' hxfree hnd', ?_, ?_, ?_⟩
  · intro e he
    rcases (hins e).mp he with he' | rfl
    · obtain ⟨he1, he2⟩ := (hmem' e).mp he'
      obtain ⟨h1, h2, h3, h4⟩ := hK1 e he1
      exact ⟨h1, h2, by omega, h4⟩
    · exact ⟨hpprime, hxp, by omega, hpz⟩
  · intro p' hp' hlt'
    obtain ⟨e, he, hep⟩ := hK3 p' hp' hlt'
    by_cases heq : e.1 = i
    · have hee : e = (i, p) := alKeys_nodup_unique e (i, p) t hnd he hqt heq
      refine ⟨(x, p), (hins _).mpr (Or.inr rfl), ?_⟩
      rw [← hep, hee]
    · exact ⟨e, (hins e).mpr (Or.inl ((hmem' e).mpr ⟨he, heq⟩)), hep⟩
  · intro m hmge hex
    obtain ⟨e, he, hedvd, hele⟩ := hK4 m (by omega) hex
    by_cases heq : e.1 = i
    · have hee : e = (i, p) := alKeys_nodup_unique e (i, p) t hnd he hqt heq
      have hpm : p ∣ m := by
        rw [hee] at hedvd
        exact hedvd
      rcases Nat.lt_or_ge m x with hmx | hxm
      · obtain ⟨k, hk⟩ := Nat.dvd_sub' hpm hpdvd
        have hk1 : 1 ≤ k := by
          rcases Nat.eq_zero_or_pos k with rfl | h
          · simp at hk
            omega
          · exact h
        obtain ⟨k', rfl⟩ : ∃ k', k = k' + 1 := ⟨k - 1, by omega⟩
        have hrel : p * (k' + 1) = p + k' * p := by ring
        have hmpos : m = (i + p) + k' * p := by omega
        have hlt3 : k' * p < j * p := by omega
        have hkj : k' < j := Nat.lt_of_mul_lt_mul_right hlt3
        have hmem2 := hskip k' hkj
        rw [← hmpos] at hmem2
        simp only [alKeys, List.mem_map] at hmem2
        obtain ⟨e', he', hek⟩ := hmem2
        obtain ⟨he1, _⟩ := (hmem' e').mp he'
        obtain ⟨_, hd, _, _⟩ := hK1 e' he1
        rw [hek] at hd
        exact ⟨e', (hins e').mpr (Or.inl he'), hd, by omega⟩
      · exact ⟨(x, p), (hins _).mpr (Or.inr rfl), hpm, hxm⟩
    · exact ⟨e, (hins e).mpr (Or.inl ((hmem' e).mpr ⟨he, heq⟩)), hedvd, hele⟩

/-- Invariant preservation, prime candidate: the table is untouched and
the candidate advances. -/
theorem sInv_yield (t : List (Nat × Nat)) (i z : Nat)
    (hInv : SInv t i z) (hnot : i ∉ alKeys t) : SInv t (i+1) z := by
  obtain ⟨hnd, hK1, hK3, hK4⟩ := hInv
  refine ⟨hnd, ?_, hK3, ?_⟩
  · intro e he
    obtain ⟨h1, h2, h3, h4⟩ := hK1 e he
    have hne : e.1 ≠ i := fun h => hnot (List.mem_map.mpr ⟨e, he, h⟩)
    exact ⟨h1, h2, by omega, h4⟩
  · intro m hmge hex
    exact hK4 m (by omega) hex

/-- Invariant preservation after loading the next inner prime `z'`:
`(z'², z')` enters the table and the threshold rises to `z'`. -/
theorem sInv_load (t : List (Nat × Nat)) (i z : Nat)
    (hInv : SInv t i z) (hz : Nat.Prime z)
    (hz'p : Nat.Prime (leastPrimeFrom (z+1)))
    (hz'i : leastPrimeFrom (z+1) < i)
    (hsqi : i ≤ leastPrimeFrom (z+1) * leastPrimeFrom (z+1)) :
    SInv (alInsert (leastPrimeFrom (z+1) * leastPrimeFrom (z+1)) (leastPrimeFrom (z+1)) t)
      i (leastPrimeFrom (z+1)) := by
  obtain ⟨hnd, hK1, hK3, hK4⟩ := hInv
  have hzz' : z < leastPrimeFrom (z+1) := by
    have := (leastPrimeFrom_spec (z+1)).2.1
    omega
  have hmin' := (leastPrimeFrom_spec (z+1)).2.2.2
  have h2z' := hz'p.two_le
  have hsqfresh : leastPrimeFrom (z+1) * leastPrimeFrom (z+1) ∉ alKeys t := by
    intro h
    simp only [alKeys, List.mem_map] at h
    obtain ⟨e, he, hek⟩ := h
    obtain ⟨hep, hd, _, hlt⟩ := hK1 e he
    rw [hek] at hd
    have hd' : e.2 ∣ leastPrimeFrom (z+1) :=
      hep.dvd_of_dvd_pow (show e.2 ∣ leastPrimeFrom (z+1) ^ 2 by rw [pow_two]; exact hd)
    rcases hz'p.eq_one_or_self_of_dvd e.2 hd' with h' | h'
    · have := hep.two_le
      omega
    · omega
  have hins := alInsert_mem_of_fresh
    (leastPrimeFrom (z+1) * leastPrimeFrom (z+1)) (leastPrimeFrom (z+1)) t hsqfresh
  refine ⟨alInsert_nodup_of_fresh
    (leastPrimeFrom (z+1) * leastPrimeFrom (z+1)) (leastPrimeFrom (z+1)) t hsqfresh hnd,
    ?_, ?_, ?_⟩
  · intro e he
    rcases (hins e).mp he with he' | rfl
    · obtain ⟨h1, h2, h3, h4⟩ := hK1 e he'
      exact ⟨h1, h2, h3, by omega⟩
    · exact ⟨hz'p, dvd_mul_left _ _, hsqi, le_refl _⟩
  · intro p' hp' hlt'
    rcases Nat.lt_or_ge p' (leastPrimeFrom (z+1)) with h | h
    · have hpz : p' ≤ z := by
        by_contra hcon
        push_neg at hcon
        exact hmin' p' (by omega) h hp'
      obtain ⟨e, he, hep⟩ := hK3 p' hp' hpz
      exact ⟨e, (hins e).mpr (Or.inl he), hep⟩
    · have hpq : p' = leastPrimeFrom (z+1) := by omega
      exact ⟨(leastPrimeFrom (z+1) * leastPrimeFrom (z+1), leastPrimeFrom (z+1)),
        (hins _).mpr (Or.inr rfl), hpq.symm⟩
  · intro m hmge hex
    obtain ⟨p'', hp'', hlt'', hdvd''⟩ := hex
    by_cases hsmall : ∃ p₃, Nat.Prime p₃ ∧ p₃ ≤ z ∧ p₃ ∣ m
    · obtain ⟨e, he, hedvd, hele⟩ := hK4 m hmge hsmall
      exact ⟨e, (hins e).mpr (Or.inl he), hedvd, hele⟩
    · push_neg at hsmall
      have hp''q : p'' = leastPrimeFrom (z+1) := by
        rcases Nat.lt_or_ge p'' (leastPrimeFrom (z+1)) with h | h
        · have hpz : p'' ≤ z := by
            by_contra hcon
            push_neg at hcon
            exact hmin' p'' (by omega) h hp''
          exact absurd hdvd'' (hsmall p'' hp'' hpz)
        · omega
      rw [hp''q] at hdvd''
      have hqq : leastPrimeFrom (z+1) * leastPrimeFrom (z+1) ≤ m := by
        by_contra hcon
        push_neg at hcon
        obtain ⟨r, hr⟩ := hdvd''
        have hr1 : r ≠ 0 := by
          rintro rfl
          rw [Nat.mul_zero] at hr
          omega
        have hrq : r < leastPrimeFrom (z+1) := by
          by_contra hge
          push_neg at hge
          have := Nat.mul_le_mul_left (leastPrimeFrom (z+1)) hge
          omega
        have hrdvd : r ∣ m := ⟨leastPrimeFrom (z+1), by rw [hr]; ring⟩
        have h1 : r ≠ 1 := by
          intro h
          rw [h, Nat.mul_one] at hr
          omega
        have hpf := Nat.minFac_prime h1
        have hdpf := Nat.minFac_dvd r
        have hpfm : Nat.minFac r ∣ m := hdpf.trans hrdvd
        have hpfz : Nat.minFac r ≤ z := by
          by_contra hcon2
          push_neg at hcon2
          have hle := Nat.minFac_le (show 0 < r by omega)
          exact hmin' (Nat.minFac r) (by omega) (by omega) hpf
        exact absurd hpfm (hsmall _ hpf hpfz)
      exact ⟨(leastPrimeFrom (z+1) * leastPrimeFrom (z+1), leastPrimeFrom (z+1)),
        (hins _).mpr (Or.inr rfl), hdvd'', hqq⟩

/-- The candidate loop at a fixed threshold: advance from `i` to the
next prime, moving table entries along the way. -/
theorem sieve_loop (z : Nat) (hz : Nat.Prime z) (hz113 : z ≤ 113) :
    ∀ fuel i t inner, SInv t i z → z < i →
      (∀ j, z*z < j → j < i → ¬ Nat.Prime j) →
      leastPrimeFrom i + 1 ≤ i + fuel →
      ∃ t', sieveNext fuel ⟨false, t, i, z*z, inner⟩
          = some (leastPrimeFrom i, ⟨true, t', leastPrimeFrom i, z*z, inner⟩) ∧
        SInv t' (leastPrimeFrom i + 1) z ∧
        (∀ j, z*z < j → j < leastPrimeFrom i → ¬ Nat.Prime j) := by
  intro fuel
  induction fuel with
  | zero =>
    intro i t inner _ _ _ hf
    have := (leastPrimeFrom_spec i).2.1
    omega
  | succ f ih =>
    intro i t inner hInv hzi hC5 hf
    rw [sieveNext]
    rw [if_neg (by simp)]
    cases hfind : alFind? i t with
    | some p =>
      have hqt : (i, p) ∈ t := (alFind?_some i p t hInv.1).mp hfind
      obtain ⟨hpp, hpd, _, hpz⟩ := hInv.2.1 (i, p) hqt
      obtain ⟨x, hx⟩ := sieveProbe_success p (alErase i t) (i + p)
        (by have := hpp.two_le; omega)
      dsimp only
      rw [hx]
      dsimp only
      have hcomp : ¬ Nat.Prime i :=
        (sieve_mem_iff t i z hInv hz hz113 hzi hC5).mp (List.mem_map.mpr ⟨(i, p), hqt, rfl⟩)
      have hInv' := sInv_stepA t i z p x hInv hfind hx
      have hC5' : ∀ j, z*z < j → j < i+1 → ¬ Nat.Prime j := by
        intro j h1 h2
        rcases Nat.eq_or_lt_of_le (show j ≤ i by omega) with rfl | h3
        · exact hcomp
        · exact hC5 j h1 h3
      have hlq : leastPrimeFrom (i+1) = leastPrimeFrom i := leastPrimeFrom_step1 i hcomp
      have hge := (leastPrimeFrom_spec i).2.1
      have hne : leastPrimeFrom i ≠ i := fun h => hcomp (h ▸ (leastPrimeFrom_spec i).1)
      obtain ⟨t', ht', hInv'', hC5''⟩ :=
        ih (i+1) _ inner hInv' (by omega) hC5' (by rw [hlq]; omega)
      rw [hlq] at ht' hInv'' hC5''
      exact ⟨t', ht', hInv'', hC5''⟩
    | none =>
      have hnot : i ∉ alKeys t := (alFind?_none i t).mp hfind
      have hprime : Nat.Prime i := by
        by_contra hcomp
        exact hnot ((sieve_mem_iff t i z hInv hz hz113 hzi hC5).mpr hcomp)
      have hP : leastPrimeFrom i = i :=
        leastPrimeFrom_unique i i hprime (le_refl i)
          (fun j h1 h2 => (by omega : False).elim)
      rw [hP]
      exact ⟨t, rfl, sInv_yield t i z hInv hnot, fun j h1 h2 => hC5 j h1 h2⟩

/-- Certified production: `SYields F B s q` states that the stream state
`s` next yields the least prime `≥ q` (under any fuel `≥ F`) and keeps
doing so for every prime up to the bound `B`. -/
inductive SYields (F B : Nat) : SieveState → Nat → Prop where
  | step {s : SieveState} {q : Nat} (s' : SieveState)
      (hpull : ∀ fuel, F ≤ fuel → sieveNext fuel s = some (leastPrimeFrom q, s'))
      (hnext : leastPrimeFrom q ≤ B → SYields F B s' (leastPrimeFrom q + 1)) :
      SYields F B s q

theorem SYields_mono_F (F F' B : Nat) (h : F ≤ F') :
    ∀ s q, SYields F B s q → SYields F' B s q := by
  intro s q hy
  induction hy with
  | step s' hpull hnext ih =>
    exact SYields.step s' (fun fuel hf => hpull fuel (by omega)) ih

theorem SYields_mono_B (F B B' : Nat) (h : B' ≤ B) :
    ∀ s q, SYields F B s q → SYields F B' s q := by
  intro s q hy
  induction hy with
  | step s' hpull hnext ih =>
    exact SYields.step s' hpull (fun hle => ih (by omega))

/-- The main production lemma: from a post-yield state satisfying the
invariant, with a certified inner stream, the sieve keeps yielding the
successive primes up to the bound. -/
theorem sieve_run (B B₁ F F₁ : Nat) (hB : B ≤ 10000) (hF1 : F₁ + 1 ≤ F)
    (hFB : 2*B + 10 ≤ F)
    (hload : ∀ z, 2 ≤ z → z * z ≤ B → leastPrimeFrom (z+1) ≤ B₁) :
    ∀ n P t z inner, B + 2 - P = n →
      SInv t (P+1) z → Nat.Prime z → z ≤ 113 → z ≤ P → Nat.Prime P → P ≤ B + 1 →
      (∀ j, z*z < j → j < P → ¬ Nat.Prime j) →
      SYields F₁ B₁ inner (z + 1) →
      SYields F B ⟨true, t, P, z * z, some inner⟩ (P + 1) := by
  intro n
  induction n using Nat.strong_induction_on with
  | _ n ih =>
    intro P t z inner hn hInv hzp hz113 hzP hPp hPB hC5 hInner
    obtain ⟨hQp, hQge, hQub, hQmin⟩ := leastPrimeFrom_spec (P+1)
    by_cases hgt : z * z < P
    · -- the resume loads the next inner prime
      have hzzB : z * z ≤ B := by omega
      cases hInner with
      | step inner' hpullI hnextI =>
      have hz'B₁ : leastPrimeFrom (z+1) ≤ B₁ := hload z hzp.two_le hzzB
      have hInner' : SYields F₁ B₁ inner' (leastPrimeFrom (z+1) + 1) := hnextI hz'B₁
      have hz'p : Nat.Prime (leastPrimeFrom (z+1)) := (leastPrimeFrom_spec (z+1)).1
      have hz100 : z ≤ 100 := by
        by_contra hcon
        push_neg at hcon
        have : 101 * 101 ≤ z * z := Nat.mul_le_mul (by omega) (by omega)
        omega
      have hz'113 : leastPrimeFrom (z+1) ≤ 113 := lPF_le_110 (z+1) (by omega)
      obtain ⟨d, hd60, hdp, hdlt⟩ := sieve_window z (by omega)
        ((myPrime_iff_prime z).mpr hzp)
      have hPW : P ≤ z*z + 1 + d := by
        by_contra hcon
        push_neg at hcon
        exact hC5 (z*z+1+d) (by omega) hcon ((myPrime_iff_prime _).mp hdp)
      have hPz' : P < leastPrimeFrom (z+1) * leastPrimeFrom (z+1) := by omega
      have hz'ltP : leastPrimeFrom (z+1) ≤ P := by
        have hle := lPF_succ_le_sq z hzp
        omega
      have hInvL := sInv_load t (P+1) z hInv hzp hz'p (by omega) (by omega)
      have hC5L : ∀ j, leastPrimeFrom (z+1) * leastPrimeFrom (z+1) < j → j < P+1 →
          ¬ Nat.Prime j := by
        intro j h1 h2
        exact absurd h1 (by omega)
      obtain ⟨t'', hloop, hInv2, hC52⟩ :=
        sieve_loop (leastPrimeFrom (z+1)) hz'p hz'113 (B+6) (P+1)
          (alInsert (leastPrimeFrom (z+1) * leastPrimeFrom (z+1)) (leastPrimeFrom (z+1)) t)
          (some inner') hInvL (by omega) hC5L (by omega)
      refine SYields.step ⟨true, t'', leastPrimeFrom (P+1),
          leastPrimeFrom (z+1) * leastPrimeFrom (z+1), some inner'⟩ ?_ ?_
      · intro fuel hf
        obtain ⟨f, rfl⟩ : ∃ f, fuel = f + 1 := ⟨fuel - 1, by omega⟩
        rw [sieveNext]
        rw [if_pos (show (true : Bool) = true from rfl), if_pos (show P > z*z by omega)]
        rw [show Option.getD (some inner) sieveInit = inner from rfl]
        rw [hpullI f (by omega)]
        dsimp only
        exact sieveNext_mono_le (B+6) f (by omega) _ _ hloop
      · intro hQB
        exact ih (B + 2 - leastPrimeFrom (P+1)) (by omega) (leastPrimeFrom (P+1)) t''
          (leastPrimeFrom (z+1)) inner' rfl hInv2 hz'p hz'113 (by omega) hQp (by omega)
          hC52 hInner'
    · -- no load: the candidate simply advances
      push_neg at hgt
      have hC5' : ∀ j, z*z < j → j < P+1 → ¬ Nat.Prime j := by
        intro j h1 h2
        exact absurd h1 (by omega)
      obtain ⟨t'', hloop, hInv2, hC52⟩ :=
        sieve_loop z hzp hz113 (B+6) (P+1) t (some inner) hInv (by omega) hC5' (by omega)
      refine SYields.step ⟨true, t'', leastPrimeFrom (P+1), z*z, some inner⟩ ?_ ?_
      · intro fuel hf
        obtain ⟨f, rfl⟩ : ∃ f, fuel = f + 1 := ⟨fuel - 1, by omega⟩
        rw [sieveNext]
        rw [if_pos (show (true : Bool) = true from rfl), if_neg (show ¬ P > z*z by omega)]
        exact sieveNext_mono_le (B+6) f (by omega) _ _ hloop
      · intro hQB
        exact ih (B + 2 - leastPrimeFrom (P+1)) (by omega) (leastPrimeFrom (P+1)) t'' z
          inner rfl hInv2 hzp hz113 (by omega) hQp (by omega) hC52 hInner

/-- Concrete production of the primes up to 21 from a fresh sieve. -/
theorem sieve_base : SYields 40 21 sieveInit 2 :=
  SYields.step _ (fun fuel hf => sieveNext_mono_le 40 fuel hf _ _ rfl) (fun _ =>
  SYields.step _ (fun fuel hf => sieveNext_mono_le 40 fuel hf _ _ rfl) (fun _ =>
  SYields.step _ (fun fuel hf => sieveNext_mono_le 40 fuel hf _ _ rfl) (fun _ =>
  SYields.step _ (fun fuel hf => sieveNext_mono_le 40 fuel hf _ _ rfl) (fun _ =>
  SYields.step _ (fun fuel hf => sieveNext_mono_le 40 fuel hf _ _ rfl) (fun _ =>
  SYields.step _ (fun fuel hf => sieveNext_mono_le 40 fuel hf _ _ rfl) (fun _ =>
  SYields.step _ (fun fuel hf => sieveNext_mono_le 40 fuel hf _ _ rfl) (fun _ =>
  SYields.step _ (fun fuel hf => sieveNext_mono_le 40 fuel hf _ _ rfl) (fun _ =>
  SYields.step _ (fun fuel hf => sieveNext_mono_le 40 fuel hf _ _ rfl) (fun hc =>
    absurd hc (by decide))))))))))

/-- A fresh sieve stream is certified up to any bound `B ≤ 10000`. -/
theorem sieve_main : ∀ B, 1 ≤ B → B ≤ 10000 → SYields (10*B + 90) B sieveInit 2 := by
  intro B
  induction B using Nat.strong_induction_on with
  | _ B ih =>
    intro hB1 hB
    by_cases hsmall : B ≤ 21
    · have h1 := SYields_mono_B 40 21 B (by omega) _ _ sieve_base
      exact SYields_mono_F 40 (10*B+90) B (by omega) _ _ h1
    · push_neg at hsmall
      have hload : ∀ z, 2 ≤ z → z * z ≤ B → leastPrimeFrom (z+1) ≤ B/2 + 8 := by
        intro z h2 hzz
        by_cases h4 : 4 ≤ z
        · have hub := (leastPrimeFrom_spec (z+1)).2.2.1
          have h4z : 4 * z ≤ z * z := Nat.mul_le_mul_right z h4
          omega
        · have hz23 : z = 2 ∨ z = 3 := by omega
          rcases hz23 with rfl | rfl
          · have h3 : leastPrimeFrom (2+1) = 3 := by decide
            omega
          · have h5 : leastPrimeFrom (3+1) = 5 := by decide
            omega
      have hIH := ih (B/2 + 8) (by omega) (by omega) (by omega)
      cases hIH with
      | step S1 hpull1 hnext1 =>
      have hconc : sieveNext (10*(B/2+8)+90) sieveInit
          = some (2, ⟨true, [], 2, 1, none⟩) :=
        sieveNext_mono_le 1 _ (by omega) _ _ rfl
      have hpc := hpull1 _ (le_refl (10*(B/2+8)+90))
      rw [hconc] at hpc
      simp only [Option.some.injEq, Prod.mk.injEq] at hpc
      obtain ⟨_, hS1⟩ := hpc
      subst hS1
      have hInner3 : SYields (10*(B/2+8)+90) (B/2+8) ⟨true, [], 2, 1, none⟩ 3 := by
        have h2B₁ : leastPrimeFrom 2 ≤ B/2 + 8 := by
          have h22 : leastPrimeFrom 2 = 2 := by decide
          omega
        exact hnext1 h2B₁
      have hSInv : SInv [(4,2)] 4 2 := by
        refine ⟨by decide, ?_, ?_, ?_⟩
        · intro e he
          rcases List.mem_cons.mp he with rfl | he'
          · exact ⟨by norm_num, by decide, by omega, by omega⟩
          · exact absurd he' (List.not_mem_nil e)
        · intro p hp hle
          have hp2 : p = 2 := by
            have := hp.two_le
            omega
          exact ⟨(4,2), List.mem_cons_self _ _, hp2.symm⟩
        · intro m hm hex
          obtain ⟨p, hp, hle, hdvd⟩ := hex
          have hp2 : p = 2 := by
            have := hp.two_le
            omega
          subst hp2
          exact ⟨(4,2), List.mem_cons_self _ _, hdvd, hm⟩
      refine SYields.step ⟨true, [], 2, 1, none⟩ ?_ ?_
      · intro fuel hf
        exact sieveNext_mono_le 1 fuel (by omega) _ _ rfl
      · intro _
        refine SYields.step ⟨true, [(4,2)], 3, 4, some ⟨true, [], 2, 1, none⟩⟩ ?_ ?_
        · intro fuel hf
          obtain ⟨f, rfl⟩ : ∃ f, fuel = f + 1 := ⟨fuel - 1, by omega⟩
          rw [sieveNext]
          rw [if_pos (show (true : Bool) = true from rfl), if_pos (show 2 > 1 by omega)]
          rw [show Option.getD (none : Option SieveState) sieveInit = sieveInit from rfl]
          rw [show sieveNext f sieveInit = some (2, ⟨true, [], 2, 1, none⟩) from
            sieveNext_mono_le 1 f (by omega) _ _ rfl]
          dsimp only
          exact sieveNext_mono_le 1 f (by omega) _ _ rfl
        · intro _
          exact sieve_run B (B/2+8) (10*B+90) (10*(B/2+8)+90) hB (by omega) (by omega) hload
            (B + 2 - 3) 3 [(4,2)] 2 ⟨true, [], 2, 1, none⟩ rfl hSInv (by norm_num)
            (by omega) (by omega) (by norm_num) (by omega)
            (fun j h1 h2 => absurd h1 (by omega)) hInner3

/-- Splitting a prime segment at its first prime, unit step. -/
theorem primesSeg_cons1 (q B P : Nat) (hP : Nat.Prime P) (hq : q ≤ P) (hB : P ≤ B)
    (hmin : ∀ j, q ≤ j → j < P → ¬ Nat.Prime j) :
    primesSeg q B = P :: primesSeg (P+1) B := by
  unfold primesSeg
  have hsplit : List.range' q (B + 1 - q)
      = List.range' q (P - q) ++ List.range' P (B + 1 - P) := by
    have h := List.range'_append q (P - q) (B + 1 - P) 1
    simp only [one_mul] at h
    rw [show q + (P - q) = P by omega] at h
    rw [show B + 1 - q = B + 1 - P + (P - q) by omega]
    exact h.symm
  rw [hsplit, List.filter_append]
  have h1 : (List.range' q (P - q)).filter myPrime = [] := by
    rw [List.filter_eq_nil_iff]
    intro a ha
    rw [mem_range'_iff] at ha
    intro hp
    exact hmin a (by omega) (by omega) ((myPrime_iff_prime a).mp hp)
  rw [h1, List.nil_append]
  have h2 : List.range' P (B + 1 - P) = P :: List.range' (P+1) (B - P) := by
    rw [show B + 1 - P = (B - P) + 1 by omega, List.range'_succ]
  rw [h2, List.filter_cons, if_pos ((myPrime_iff_prime P).mpr hP),
    show B + 1 - (P + 1) = B - P by omega]

/-- Collecting from a certified stream returns exactly the primes in
`[q, B]`. -/
theorem sieve_collect (F B : Nat) :
    ∀ k q s, SYields F B s q →
      (primesSeg q B).length < k →
      collectUpto (sieveNext F) k B s = some (primesSeg q B) := by
  intro k
  induction k with
  | zero =>
    intro q s _ h
    omega
  | succ k' ih =>
    intro q s hY hlen
    obtain ⟨hPp, hPge, hPub, hPmin⟩ := leastPrimeFrom_spec q
    cases hY with
    | step s' hpull hnext =>
    rw [collectUpto, hpull F (le_refl F)]
    dsimp only
    by_cases hPB : leastPrimeFrom q ≤ B
    · rw [if_pos hPB]
      have hseg : primesSeg q B = leastPrimeFrom q :: primesSeg (leastPrimeFrom q + 1) B :=
        primesSeg_cons1 q B _ hPp hPge hPB hPmin
      have hlen' : (primesSeg (leastPrimeFrom q + 1) B).length < k' := by
        rw [hseg] at hlen
        simp only [List.length_cons] at hlen
        omega
      rw [ih (leastPrimeFrom q + 1) s' (hnext hPB) hlen', hseg]
      rfl
    · rw [if_neg hPB]
      have hempty : primesSeg q B = [] :=
        primesSeg_of_no_primes q B (fun j h1 h2 => hPmin j h1 (by omega))
      rw [hempty]

/-- For `B ≥ 1` the primes below `B+1` form the segment starting at 2. -/
theorem primesUpTo_eq_seg2 (B : Nat) (hB : 1 ≤ B) :
    primesUpTo (B + 1) = primesSeg 2 B := by
  unfold primesUpTo primesSeg
  rw [List.range_eq_range']
  obtain ⟨m, hm⟩ : ∃ m, B + 1 - 2 = m := ⟨_, rfl⟩
  rw [hm, show B + 1 = m + 2 by omega]
  have h2 := List.range'_append 0 2 m 1
  simp only [one_mul] at h2
  rw [← h2, List.filter_append]
  rfl

/-- `sieve()` truncated at `B` produces exactly the primes `≤ B`. -/
theorem sieve_correct (B k : Nat) (hB : 1 ≤ B) (hB2 : B ≤ 10000)
    (hk : (primesSeg 2 B).length + 1 ≤ k) :
    collectUpto (sieveNext (10*B + 90)) k B sieveInit = some (primesUpTo (B + 1)) := by
  rw [sieve_collect (10*B+90) B k 2 sieveInit (sieve_main B hB hB2) (by omega)]
  rw [primesUpTo_eq_seg2 B hB]

/-- C5, counterexample at `B = 0`: `erat(0)` fails (the `arr[0] = arr[1]
= None` line raises `IndexError` on the one-element array), while every
lazy strategy truncated at bound 0 yields the empty list of primes, as
does the reference list of primes `≤ 0`. -/
theorem sieves_zero_counterexample :
    erat 0 = none ∧
    collectUpto (sieveNext (10*0 + 90)) 1 0 sieveInit = some [] ∧
    collectUpto (cookbookNext (0 + 3)) 1 0 cookbookInit = some [] ∧
    collectUpto (croftNext (0 + 3)) 1 0 croftInit = some [] ∧
    collectUpto (wheelNext (0 + 3)) 1 0 wheelInit = some [] ∧
    primesUpTo (0 + 1) = [] :=
  ⟨rfl, rfl, rfl, rfl, rfl, rfl⟩

/-- C5 (amended): for every bound `B` with `1 ≤ B ≤ 10000`, the bounded
sieve `erat(B)` and each lazy strategy `sieve()`, `cookbook()`,
`croft()` and `wheel()` — truncated to its values `≤ B` — produce the
same ascending list of primes `≤ B`. -/
theorem sieves_agree (B : Nat) (hB1 : 1 ≤ B) (hB2 : B ≤ 10000) :
    erat B = some (primesUpTo (B + 1)) ∧
    (∀ k, (primesSeg 2 B).length + 1 ≤ k →
      collectUpto (sieveNext (10*B + 90)) k B sieveInit = some (primesUpTo (B + 1))) ∧
    (∀ k, (primesSeg 3 B).length + 2 ≤ k →
      collectUpto (cookbookNext (B + 3)) k B cookbookInit = some (primesUpTo (B + 1))) ∧
    (∀ k, (primesSeg 7 B).length + 4 ≤ k →
      collectUpto (croftNext (B + 3)) k B croftInit = some (primesUpTo (B + 1))) ∧
    (∀ k, (primesSeg 12 B).length + 6 ≤ k →
      collectUpto (wheelNext (B + 3)) k B wheelInit = some (primesUpTo (B + 1))) := by
  refine ⟨erat_correct B hB1, fun k hk => sieve_correct B k hB1 hB2 hk, ?_,
    fun k hk => croft_correct B k hB1 hk, fun k hk => wheel_correct B k hB1 hk⟩
  intro k hk
  rcases Nat.lt_or_ge B 2 with hB' | hB'
  · have hB1' : B = 1 := by omega
    subst hB1'
    obtain ⟨k', rfl⟩ : ∃ j, k = j + 1 := ⟨k - 1, by omega⟩
    rw [collectUpto, show cookbookNext (1 + 3) cookbookInit = some (2, ⟨false, [], 3⟩) from
      cookbookNext_init 3]
    rfl
  · exact cookbook_correct B k hB' hk

/-- Witness for the amended agreement at `B = 30`, `k = 30`. -/
theorem sieves_agree_witness :
    erat 30 = some (primesUpTo (30 + 1)) ∧
    collectUpto (sieveNext (10*30 + 90)) 30 30 sieveInit = some (primesUpTo (30 + 1)) ∧
    collectUpto (cookbookNext (30 + 3)) 30 30 cookbookInit = some (primesUpTo (30 + 1)) ∧
    collectUpto (croftNext (30 + 3)) 30 30 croftInit = some (primesUpTo (30 + 1)) ∧
    collectUpto (wheelNext (30 + 3)) 30 30 wheelInit = some (primesUpTo (30 + 1)) := by
  obtain ⟨h1, h2, h3, h4, h5⟩ := sieves_agree 30 (by decide) (by decide)
  exact ⟨h1, h2 30 (by decide), h3 30 (by decide), h4 30 (by decide), h5 30 (by decide)⟩

end Pyprimes
